import Mathlib

/-!
Verification development for the GeoSIRR cross-section engine
(`src/geosirr/io.py`): the line parser `parse_text`, the format validator
`validate_cross_section_format`, the topology validator
`validate_cross_section_topology`, and the Markdown header adjuster
`adjust_markdown_headers`.

The Python code is shallowly embedded.  Scope of the embedding:
* Strings are modelled over their character lists; Python's character
  classifiers (`str.isdigit`, whitespace) are modelled for the ASCII
  fragment (non-ASCII digits/whitespace are outside the modelled scope).
* Python floats are modelled exactly: a parsed finite literal becomes the
  rational number it denotes (IEEE-754 rounding is outside the modelled
  scope), `inf`/`-inf`/`nan` become dedicated constructors, and `nan` is
  unequal to everything under the modelled Python `==`.
* The external geometry library (shapely) used by the topology validator
  is modelled as a parameter (`GeoLib`): a record of the predicate and
  area functions the source calls.  All control-flow theorems are generic
  in this parameter; concrete evaluations instantiate it with `rgeo`, an
  exact rational-geometry implementation adequate for the simple convex
  configurations used in the concrete inputs.
* Python exceptions escaping a function are modelled as `Except.error`.
-/

namespace GeoSIRR

instance {ε α : Type} [DecidableEq ε] [DecidableEq α] : DecidableEq (Except ε α) :=
  fun x y =>
    match x, y with
    | .ok a, .ok b =>
      if h : a = b then .isTrue (by rw [h]) else .isFalse (by simp [h])
    | .error a, .error b =>
      if h : a = b then .isTrue (by rw [h]) else .isFalse (by simp [h])
    | .ok _, .error _ => .isFalse (fun h => Except.noConfusion h)
    | .error _, .ok _ => .isFalse (fun h => Except.noConfusion h)

/-! ## Python string primitives (ASCII fragment) -/

/-- Python whitespace characters (`str.split`, `str.strip`), ASCII fragment
(CPython treats the separators `\x1c`-`\x1f` as whitespace too). -/
def pyWsChar (c : Char) : Bool :=
  c = ' ' || c = '\t' || c = '\n' || c = '\x0d' || c = '\x0b' || c = '\x0c' ||
  c = '\x1c' || c = '\x1d' || c = '\x1e' || c = '\x1f'

/-- Line-break characters recognised by `str.splitlines`, ASCII fragment. -/
def pyLineBr (c : Char) : Bool :=
  c = '\n' || c = '\x0d' || c = '\x0b' || c = '\x0c' ||
  c = '\x1c' || c = '\x1d' || c = '\x1e'

/-- `str.splitlines` on character lists: split at line breaks, treating
`"\r\n"` as a single break; a trailing break does not open a new line. -/
def splitlinesAux : List Char → List Char → List (List Char)
  | [], acc => if acc = [] then [] else [acc.reverse]
  | '\x0d' :: '\n' :: cs, acc => acc.reverse :: splitlinesAux cs []
  | c :: cs, acc =>
    if pyLineBr c then
      acc.reverse :: splitlinesAux cs []
    else
      splitlinesAux cs (c :: acc)

/-- `text.splitlines()`. -/
def pySplitlines (s : String) : List String :=
  (splitlinesAux s.data []).map String.mk

/-- `raw.split('#', 1)[0]`: the part of the line before the first `#`. -/
def stripComment (s : String) : String :=
  String.mk (s.data.takeWhile (fun c => c ≠ '#'))

/-- `s.strip()` (ASCII whitespace). -/
def pyStrip (s : String) : String :=
  String.mk (((s.data.dropWhile pyWsChar).reverse.dropWhile pyWsChar).reverse)

/-- Helper for `str.split()`: accumulate the current token (reversed). -/
def tokensAux : List Char → List Char → List (List Char)
  | [], cur => if cur = [] then [] else [cur.reverse]
  | c :: cs, cur =>
    if pyWsChar c then
      if cur = [] then tokensAux cs [] else cur.reverse :: tokensAux cs []
    else
      tokensAux cs (c :: cur)

/-- `s.split()`: split on runs of whitespace, dropping empty tokens. -/
def pyTokens (s : String) : List String :=
  (tokensAux s.data []).map String.mk

/-- ASCII decimal digit test. -/
def isDigitA (c : Char) : Bool := '0' ≤ c && c ≤ '9'

/-- `s.isdigit()` (ASCII fragment): nonempty and all characters digits. -/
def pyIsdigit (s : String) : Bool :=
  !s.data.isEmpty && s.data.all isDigitA

/-! ## Python numeral parsing and rendering -/

/-- Numeric value of an ASCII digit character. -/
def digitVal (c : Char) : ℕ := c.toNat - 48

/-- Value of a list of ASCII digits, most significant first. -/
def natOfDigits (ds : List Char) : ℕ :=
  ds.foldl (fun a c => 10 * a + digitVal c) 0

/-- Continuation of a Python digit group: digits with single underscores
allowed between digits only.  Returns the digits consumed (underscores
dropped) and the remaining input. -/
def duTail : List Char → List Char × List Char
  | '_' :: c :: rest =>
    if isDigitA c then
      let (ds, r) := duTail rest
      (c :: ds, r)
    else ([], '_' :: c :: rest)
  | c :: rest =>
    if isDigitA c then
      let (ds, r) := duTail rest
      (c :: ds, r)
    else ([], c :: rest)
  | [] => ([], [])

/-- A Python digit group `digit (["_"] digit)*`; returns `([], input)` when
the input does not start with a digit. -/
def parseDigitGroup : List Char → List Char × List Char
  | c :: rest =>
    if isDigitA c then
      let (ds, r) := duTail rest
      (c :: ds, r)
    else ([], c :: rest)
  | [] => ([], [])

/-- Optional sign: returns (isNegative, rest). -/
def parseSign : List Char → Bool × List Char
  | '-' :: rest => (true, rest)
  | '+' :: rest => (false, rest)
  | l => (false, l)

/-- `int(s)` for a whitespace-free token (ASCII fragment). -/
def pyIntParse (s : String) : Option ℤ :=
  let (neg, cs) := parseSign s.data
  let (ds, r) := parseDigitGroup cs
  if ds ≠ [] ∧ r = [] then
    some (if neg then -(natOfDigits ds : ℤ) else (natOfDigits ds : ℤ))
  else none

/-- `10^n` on ℚ by structural recursion (kernel-reducible). -/
def qpow10 : ℕ → ℚ
  | 0 => 1
  | n + 1 => 10 * qpow10 n

/-- `10^e` on ℚ for an integer exponent, by structural recursion. -/
def pow10Z : ℤ → ℚ
  | .ofNat n => qpow10 n
  | .negSucc n => 1 / qpow10 (n + 1)

/-- The value of a Python float object produced by the engine: a finite
value is the exact rational its literal denotes. -/
inductive PyF where
  | fin : ℚ → PyF
  | pinf : PyF
  | ninf : PyF
  | pnan : PyF
  deriving DecidableEq, Repr

/-- Python `==` on floats: `nan` is unequal to everything, including itself. -/
def pyEqF : PyF → PyF → Bool
  | .fin a, .fin b => a = b
  | .pinf, .pinf => true
  | .ninf, .ninf => true
  | _, _ => false

/-- Python `<` on floats: any comparison with `nan` is false. -/
def pyLtF : PyF → PyF → Bool
  | .fin a, .fin b => a < b
  | .fin _, .pinf => true
  | .ninf, .fin _ => true
  | .ninf, .pinf => true
  | _, _ => false

/-- ASCII lowercase conversion. -/
def lowerA (c : Char) : Char :=
  if 'A' ≤ c && c ≤ 'Z' then Char.ofNat (c.toNat + 32) else c

/-- The finite float value `±(ds1.ds2) × 10^ex`. -/
def mkFinF (neg : Bool) (ds1 ds2 : List Char) (ex : ℤ) : PyF :=
  let m : ℚ := (natOfDigits (ds1 ++ ds2) : ℕ)
  let v : ℚ := m * pow10Z (ex - (ds2.length : ℤ))
  .fin (if neg then -v else v)

/-- The part of `float(s)` after the optional sign: `inf`/`infinity`/`nan`
(case-insensitive) or a decimal literal with optional fraction and
exponent, with underscores allowed inside digit groups. -/
def pyFloatCore (neg : Bool) (cs : List Char) : Option PyF :=
  let low := cs.map lowerA
  if low = "inf".data ∨ low = "infinity".data then
    some (if neg then .ninf else .pinf)
  else if low = "nan".data then
    some .pnan
  else
    let (ds1, r1) := parseDigitGroup cs
    let (ds2, r2) :=
      match r1 with
      | '.' :: rest => parseDigitGroup rest
      | _ => (([] : List Char), r1)
    if ds1 = [] ∧ ds2 = [] then none
    else
      match r2 with
      | [] => some (mkFinF neg ds1 ds2 0)
      | e :: rest =>
        if lowerA e = 'e' then
          let (eneg, rest1) := parseSign rest
          let (ds3, r3) := parseDigitGroup rest1
          if ds3 ≠ [] ∧ r3 = [] then
            let ev : ℤ := if eneg then -(natOfDigits ds3 : ℤ) else (natOfDigits ds3 : ℤ)
            some (mkFinF neg ds1 ds2 ev)
          else none
        else none

/-- `float(s)` for a whitespace-free token (ASCII fragment). -/
def pyFloatParse (s : String) : Option PyF :=
  let (neg, cs) := parseSign s.data
  pyFloatCore neg cs

/-- The ASCII digit character for `d < 10`. -/
def digitChar10 (d : ℕ) : Char := Char.ofNat (48 + d)

/-- Fueled digit production (structural recursion, kernel-reducible). -/
def decDigitsAux : ℕ → ℕ → List Char
  | 0, _ => []
  | fuel + 1, n =>
    if n < 10 then [digitChar10 n]
    else decDigitsAux fuel (n / 10) ++ [digitChar10 (n % 10)]

/-- Decimal digits of a natural number, most significant first. -/
def decDigits (n : ℕ) : List Char := decDigitsAux (n + 1) n

/-- Decimal rendering of a natural number. -/
def natDec (n : ℕ) : String := String.mk (decDigits n)

/-- Python `str(int)`. -/
def intDec (z : ℤ) : String :=
  if z < 0 then "-" ++ natDec z.natAbs else natDec z.natAbs

/-- Smallest scale `k` (searched up to a bound sufficient for 10-smooth
denominators) with `den ∣ 10^k`. -/
def findScale (den : ℕ) : Option ℕ :=
  (List.range (den.log2 + 2)).find? (fun k => den ∣ 10 ^ k)

/-- Exact decimal rendering of a nonnegative rational whose denominator
divides a power of ten; other inputs (unreachable from parsed text) get a
placeholder. -/
def decOfNonnegQ (q : ℚ) : String :=
  match findScale q.den with
  | none => "0.0"
  | some k =>
    let nval : ℕ := (q * qpow10 k).num.toNat
    let ds := decDigits nval
    if k = 0 then String.mk ds ++ ".0"
    else
      let padded := List.replicate (k + 1 - ds.length) '0' ++ ds
      String.mk (padded.take (padded.length - k)) ++ "." ++
        String.mk (padded.drop (padded.length - k))

/-- Model of Python `str(float)` for the engine's float values.  Finite
values are rendered as exact decimals (the scientific-notation thresholds
of CPython's `repr` are outside the modelled scope). -/
def pyReprF : PyF → String
  | .pinf => "inf"
  | .ninf => "-inf"
  | .pnan => "nan"
  | .fin q => if q < 0 then "-" ++ decOfNonnegQ (-q) else decOfNonnegQ q

/-! ## The parser: `parse_text` -/

/-- A parsed vertex `(id, x, z)`. -/
abbrev Vtx := ℤ × PyF × PyF

/-- A parsed polygon `(name, vertex_ids)`. -/
abbrev Pgn := String × List ℤ

/-- Message of the `ValueError` raised by `float(tok)`. -/
def floatErrMsg (tok : String) : String :=
  "could not convert string to float: '" ++ (tok ++ "'")

/-- The `Line {n}: ` message prefix. -/
def lineTag (n : ℕ) : String := "Line " ++ (natDec n ++ ": ")

/-- The unrecognized-line error message. -/
def unrecMsg (n : ℕ) (body : String) : String :=
  lineTag n ++ ("Unrecognized line format: '" ++ (body ++ "'"))

/-- The more-than-one-caret polygon name error message. -/
def caretMsg (n : ℕ) (name : String) : String :=
  lineTag n ++ ("Polygon name '" ++ (name ++ "' contains more than one '^'."))

/-- The polygon-ID parse error message. -/
def idsMsg (n : ℕ) (body : String) : String :=
  lineTag n ++ ("cannot parse polygon IDs in '" ++ (body ++ "'"))

/-- The polygon branch of `parse_text`'s line loop. -/
def parsePolyLine (n : ℕ) (body name : String) (idToks : List String) :
    Except String (Option (Vtx ⊕ Pgn)) :=
  if name.data.count '^' > 1 then .error (caretMsg n name)
  else
    match idToks.mapM pyIntParse with
    | none => .error (idsMsg n body)
    | some ids => .ok (some (.inr (name, ids)))

/-- One iteration of `parse_text`'s loop: comment stripping, blank skip,
then the `len(parts) == 3 and parts[0].isdigit()` / `len(parts) >= 2` /
unrecognized dispatch of the source. -/
def parseLine (n : ℕ) (raw : String) : Except String (Option (Vtx ⊕ Pgn)) :=
  let body := pyStrip (stripComment raw)
  if body.data = [] then .ok none
  else
    let parts := pyTokens body
    if parts.length = 3 ∧ pyIsdigit (parts.getD 0 "") = true then
      match pyFloatParse (parts.getD 1 "") with
      | none => .error (floatErrMsg (parts.getD 1 ""))
      | some xv =>
        match pyFloatParse (parts.getD 2 "") with
        | none => .error (floatErrMsg (parts.getD 2 ""))
        | some zv => .ok (some (.inl ((natOfDigits (parts.getD 0 "").data : ℤ), xv, zv)))
    else if 2 ≤ parts.length then
      parsePolyLine n body (parts.getD 0 "") (parts.drop 1)
    else .error (unrecMsg n body)

/-- The line loop of `parse_text`, numbering lines from `n`. -/
def parseLines (n : ℕ) : List String → Except String (List Vtx × List Pgn)
  | [] => .ok ([], [])
  | l :: ls =>
    match parseLine n l with
    | .error e => .error e
    | .ok r =>
      match parseLines (n + 1) ls with
      | .error e => .error e
      | .ok (vs, ps) =>
        .ok (match r with
          | none => (vs, ps)
          | some (.inl v) => (v :: vs, ps)
          | some (.inr p) => (vs, p :: ps))

/-- `parse_text`: parse a multiline text into vertices and polygons; a
raised exception is an `Except.error` carrying its message. -/
def parse_text (text : String) : Except String (List Vtx × List Pgn) :=
  parseLines 1 (pySplitlines text)

/-! ## The format validator: `validate_cross_section_format` -/

/-- Join strings with a separator. -/
def joinWith (sep : String) : List String → String
  | [] => ""
  | [x] => x
  | x :: y :: rest => x ++ sep ++ joinWith sep (y :: rest)

/-- Python `str` of a list of ints, e.g. `[1, 2]`. -/
def pyListRepr (l : List ℤ) : String :=
  "[" ++ joinWith ", " (l.map intDec) ++ "]"

/-- Ascending sort (Python `sorted`). -/
def sortInts (l : List ℤ) : List ℤ := l.insertionSort (· ≤ ·)

/-- Python set insertion modelled on insertion-ordered duplicate-free lists. -/
def setInsertI (l : List ℤ) (x : ℤ) : List ℤ := if x ∈ l then l else l ++ [x]

/-- Python set insertion for strings. -/
def setInsertS (l : List String) (x : String) : List String :=
  if x ∈ l then l else l ++ [x]

/-- State of `validate_cross_section_format`'s line loop: accumulated
errors, declared vertex IDs, referenced vertex IDs, polygon names (all
modelled as insertion-ordered sets), and the `polygons_updated` flag. -/
structure FmtSt where
  errs : List String
  vids : List ℤ
  used : List ℤ
  pnames : List String
  pupd : Bool
  deriving Repr, DecidableEq

def dupVidMsg (n : ℕ) (vid : ℤ) : String :=
  lineTag n ++ "Duplicate vertex ID " ++ intDec vid ++ "."

def badXMsg (n : ℕ) (t : String) : String :=
  lineTag n ++ "Invalid x-coordinate '" ++ t ++ "'."

def badZMsg (n : ℕ) (t : String) : String :=
  lineTag n ++ "Invalid z-coordinate '" ++ t ++ "'."

/-- The "defined before all vertices are defined" diagnostic.  The names
are joined in the model's insertion order (CPython's set iteration order
is unspecified; the claim under check only concerns the set of names). -/
def beforeMsg (names : List String) : String :=
  "Polygons " ++ joinWith ", " names ++ " are defined before all vertices are defined."

def numNameMsg (n : ℕ) (name : String) : String :=
  lineTag n ++ "Polygon name '" ++ name ++ "' cannot start with a number."

def dupNameMsg (n : ℕ) (name : String) : String :=
  lineTag n ++ "Polygon name '" ++ name ++ "' is not unique."

def badIdMsg (n : ℕ) (name t : String) : String :=
  lineTag n ++ "Polygon '" ++ name ++ "' has invalid vertex ID '" ++ t ++ "'."

def unrecFmtMsg (n : ℕ) (body : String) : String :=
  lineTag n ++ "Unrecognized format: '" ++ body ++ "'."

def noVertsMsg : String := "No vertices are defined"

def noPolysMsg : String := "No polygons are defined"

def undeclMsg (vid : ℤ) : String :=
  "Polygon references undefined vertex ID " ++ intDec vid ++ "."

def unusedMsg (l : List ℤ) : String :=
  "Vertices never used in any polygon: " ++ pyListRepr l ++ "."

/-- Line classification shared by parser and format validator: `some false`
for a vertex-shaped line, `some true` for a polygon-shaped line, `none` for
blank/comment-only or one-token lines. -/
def fmtLineKind (raw : String) : Option Bool :=
  let body := pyStrip (stripComment raw)
  if body.data = [] then none
  else
    let parts := pyTokens body
    if parts.length = 3 ∧ pyIsdigit (parts.getD 0 "") = true then some false
    else if 2 ≤ parts.length then some true
    else none

/-- The error messages contributed by one line of
`validate_cross_section_format`, given the loop state before the line. -/
def fmtLineErrs (st : FmtSt) (n : ℕ) (raw : String) : List String :=
  let body := pyStrip (stripComment raw)
  if body.data = [] then []
  else
    let parts := pyTokens body
    if parts.length = 3 ∧ pyIsdigit (parts.getD 0 "") = true then
      let vid : ℤ := (natOfDigits (parts.getD 0 "").data : ℕ)
      (if vid ∈ st.vids then [dupVidMsg n vid] else []) ++
      (if pyFloatParse (parts.getD 1 "") = none then [badXMsg n (parts.getD 1 "")] else []) ++
      (if pyFloatParse (parts.getD 2 "") = none then [badZMsg n (parts.getD 2 "")] else []) ++
      (if st.pnames ≠ [] ∧ st.pupd then [beforeMsg st.pnames] else [])
    else if 2 ≤ parts.length then
      let name := parts.getD 0 ""
      (if pyIsdigit name then [numNameMsg n name] else []) ++
      (if name ∈ st.pnames then [dupNameMsg n name] else []) ++
      ((parts.drop 1).filterMap fun t =>
        if pyIsdigit t then none else some (badIdMsg n name t))
    else [unrecFmtMsg n body]

/-- The state update performed by one line of
`validate_cross_section_format` (errors handled separately). -/
def fmtStep (n : ℕ) (st : FmtSt) (raw : String) : FmtSt :=
  let errs' := st.errs ++ fmtLineErrs st n raw
  let body := pyStrip (stripComment raw)
  if body.data = [] then { st with errs := errs' }
  else
    let parts := pyTokens body
    if parts.length = 3 ∧ pyIsdigit (parts.getD 0 "") = true then
      let vid : ℤ := (natOfDigits (parts.getD 0 "").data : ℕ)
      { st with
        errs := errs'
        vids := setInsertI st.vids vid
        pupd := if st.pnames ≠ [] ∧ st.pupd then false else st.pupd }
    else if 2 ≤ parts.length then
      { st with
        errs := errs'
        used := ((parts.drop 1).filterMap fun t =>
          if pyIsdigit t then some ((natOfDigits t.data : ℕ) : ℤ) else none).foldl
            setInsertI st.used
        pnames := setInsertS st.pnames (parts.getD 0 "")
        pupd := true }
    else { st with errs := errs' }

/-- The line loop of the format validator, numbering lines from `n`. -/
def fmtFold : ℕ → FmtSt → List String → FmtSt
  | _, st, [] => st
  | n, st, l :: ls => fmtFold (n + 1) (fmtStep n st l) ls

def fmtInit : FmtSt := ⟨[], [], [], [], false⟩

/-- The errors appended after the line loop by
`validate_cross_section_format`: no-vertices, no-polygons, undeclared
references (one per ID, ascending), unused vertices (one aggregate). -/
def fmtTailErrs (st : FmtSt) : List String :=
  (if st.vids = [] then [noVertsMsg] else []) ++
  (if st.pnames = [] then [noPolysMsg] else []) ++
  ((sortInts st.used).filterMap fun v =>
    if v ∈ st.vids then none else some (undeclMsg v)) ++
  (let unused := sortInts (st.vids.filter (fun v => v ∉ st.used))
   if unused = [] then [] else [unusedMsg unused])

/-- `validate_cross_section_format`: returns `(is_valid, errors)`. -/
def validate_cross_section_format (text : String) : Bool × List String :=
  let st := fmtFold 1 fmtInit (pySplitlines text)
  let errs := st.errs ++ fmtTailErrs st
  (errs = [], errs)

/-! ## The Markdown header adjuster: `adjust_markdown_headers` -/

/-- Split at every `'\n'` (the anchors of `re.MULTILINE`); joining the
result with `"\n"` reconstructs the input. -/
def splitNlAux : List Char → List Char → List String
  | [], cur => [String.mk cur.reverse]
  | '\n' :: cs, cur => String.mk cur.reverse :: splitNlAux cs []
  | c :: cs, cur => splitNlAux cs (c :: cur)

def splitNl (s : String) : List String := splitNlAux s.data []

/-- Whether a character list starts with a whitespace character. -/
def headIsWs : List Char → Bool
  | c :: _ => pyWsChar c
  | [] => false

/-- The heading level of a single line under a per-line reading of the
source pattern `^(\s*)(#{1,6})(\s+.*)$`: within the line, optional
whitespace, one to six `#`, then at least one whitespace character.
This follows the claim's words for comparison purposes only; the source
applies the pattern with `re.MULTILINE` to the whole text, and its `\s+`
may consume the newline after the hash run (see `mdMatchAt`). -/
def lineHeadingLevel (line : String) : Option ℕ :=
  let t := line.data.dropWhile pyWsChar
  let hs := t.takeWhile (fun c => c = '#')
  let rest := t.drop hs.length
  if 1 ≤ hs.length ∧ hs.length ≤ 6 ∧ headIsWs rest then
    some hs.length
  else none

/-- `max(1, min(6, z))` as a natural number. -/
def clampLevel (z : ℤ) : ℕ := (max 1 (min 6 z)).toNat

/-- Minimum of a list of naturals (`min(levels)`), `0` on the empty list. -/
def listMinN : List ℕ → ℕ
  | [] => 0
  | x :: xs => xs.foldl min x

/-- One attempt of the source's compiled pattern
`^(?P<prefix>\s*)(?P<hashes>#{1,6})(?P<suffix>\s+.*)$` (`re.MULTILINE`)
at a line-start (`^`) position, following the backtracking semantics:
the `\s*` prefix is the maximal whitespace run (which may cross
newlines), the hash run must have length one to six and be followed by
at least one whitespace character — possibly the newline itself, since
`\s` matches `'\n'` — and the suffix group is that whitespace run
followed by the rest of the current line (`.` does not match `'\n'`;
`$` matches before a `'\n'` or at the end).  Returns the three groups
and the remaining text, which is empty or starts at the `'\n'` before
which `$` matched. -/
def mdMatchAt (cs : List Char) :
    Option (List Char × ℕ × List Char × List Char) :=
  let pre := cs.takeWhile pyWsChar
  let r1 := cs.dropWhile pyWsChar
  let hs := r1.takeWhile (fun c => c = '#')
  let r2 := r1.dropWhile (fun c => c = '#')
  if hs.length = 0 ∨ 6 < hs.length then none
  else
    match r2 with
    | [] => none
    | c :: _ =>
      if pyWsChar c then
        let wsr := r2.takeWhile pyWsChar
        let r3 := r2.dropWhile pyWsChar
        some (pre, hs.length, wsr ++ r3.takeWhile (fun x => x ≠ '\n'),
          r3.dropWhile (fun x => x ≠ '\n'))
      else none

/-- A segment of the regex engine's left-to-right scan over the text:
verbatim text between matches, or one match split into its `prefix`
group, hash count, and `suffix` group. -/
inductive MdSeg where
  | txt : List Char → MdSeg
  | hit : List Char → ℕ → List Char → MdSeg
  deriving DecidableEq, Repr

/-- The scan shared by `finditer` and `sub`: try the pattern at each
line-start position, leftmost first; a line with no match is copied
verbatim, and a match is followed by the `'\n'` before which it ended.
Fueled for structural recursion. -/
def mdScanAux : ℕ → List Char → List MdSeg
  | 0, _ => []
  | _ + 1, [] => []
  | fuel + 1, c :: cs =>
    match mdMatchAt (c :: cs) with
    | some (pre, h, suf, rest) =>
      .hit pre h suf ::
        (match rest with
         | [] => []
         | nl :: more => .txt [nl] :: mdScanAux fuel more)
    | none =>
      match (c :: cs).dropWhile (fun x => x ≠ '\n') with
      | [] => [.txt (c :: cs)]
      | nl :: more =>
        .txt ((c :: cs).takeWhile (fun x => x ≠ '\n') ++ [nl]) :: mdScanAux fuel more

/-- The full scan of a text. -/
def mdSegs (cs : List Char) : List MdSeg := mdScanAux (cs.length + 1) cs

/-- The hash count of a match segment. -/
def segLevel : MdSeg → Option ℕ
  | .hit _ h _ => some h
  | .txt _ => none

/-- The levels collected by `finditer`
(`len(m.group('hashes'))` per match). -/
def mdLevels (md : String) : List ℕ := (mdSegs md.data).filterMap segLevel

/-- Rebuild the text from a scan (`pattern.sub` once each match has been
rewritten). -/
def mdRender : List MdSeg → List Char
  | [] => []
  | .txt t :: ss => t ++ mdRender ss
  | .hit pre h suf :: ss => pre ++ List.replicate h '#' ++ suf ++ mdRender ss

/-- The `_shift` replacement on one match: the hash run becomes
`max(1, min(6, len + offset))` hashes; text between matches is copied
unchanged. -/
def shiftSeg (off : ℤ) : MdSeg → MdSeg
  | .txt t => .txt t
  | .hit pre h suf => .hit pre (clampLevel ((h : ℤ) + off)) suf

/-- `adjust_markdown_headers`: raised `ValueError`s become `Except.error`. -/
def adjust_markdown_headers (md : String) (level : ℤ) : Except String String :=
  if ¬(1 ≤ level ∧ level ≤ 6) then
    .error ("desired_highest must be between 1 and 6, got " ++ intDec level)
  else
    let levels := mdLevels md
    if levels = [] then .error "No Markdown headers found in the input text."
    else
      let offset := level - (listMinN levels : ℤ)
      .ok (String.mk (mdRender ((mdSegs md.data).map (shiftSeg offset))))

/-! ## Scientific formatting: Python `%.3e` (exact-rational model) -/

/-- Absolute value on ℚ by case split (kernel-friendly). -/
def qabs (q : ℚ) : ℚ := if q < 0 then -q else q

/-- Number of decimal digits. -/
def digLen (n : ℕ) : ℕ := (decDigits n).length

/-- Whether `10^e ≤ n < 10^(e+1)`. -/
def isExp10 (n : ℚ) (e : ℤ) : Bool := pow10Z e ≤ n && n < pow10Z (e + 1)

/-- The decimal exponent `⌊log10 n⌋` of a positive rational, found near the
digit-length difference of numerator and denominator. -/
def exp10 (n : ℚ) : ℤ :=
  let c : ℤ := (digLen n.num.natAbs : ℤ) - (digLen n.den : ℤ)
  if isExp10 n (c - 1) then c - 1
  else if isExp10 n c then c
  else if isExp10 n (c + 1) then c + 1
  else c - 2

/-- Round a nonnegative rational to the nearest integer, ties to even. -/
def roundHalfEven (r : ℚ) : ℕ :=
  let fl := r.floor
  let frac := r - (fl : ℚ)
  (if frac < 1/2 then fl
   else if frac > 1/2 then fl + 1
   else if fl % 2 = 0 then fl else fl + 1).toNat

/-- Python `"%.3e" % v` on the exact rational value `v` (binary rounding of
the CPython double is outside the modelled scope). -/
def fmtE3 (q : ℚ) : String :=
  if q = 0 then "0.000e+00"
  else
    let sgn := if q < 0 then "-" else ""
    let n := qabs q
    let e := exp10 n
    let m := roundHalfEven (n * pow10Z (3 - e))
    let m' := if m = 10000 then 1000 else m
    let e' := if m = 10000 then e + 1 else e
    let ds := decDigits m'
    let eds := decDigits e'.natAbs
    sgn ++ String.mk (ds.take 1) ++ "." ++ String.mk (ds.drop 1) ++ "e" ++
      (if e' < 0 then "-" else "+") ++
      (if eds.length < 2 then "0" else "") ++ String.mk eds

/-! ## The geometry library interface

The source delegates all geometric predicates to shapely.  The embedding
abstracts that external library as a record of the functions the source
calls; the control-flow theorems below are generic in this record. -/

/-- A coordinate pair as stored by the engine. -/
abbrev Pt := PyF × PyF

/-- The operations of the external planar-geometry library used by
`validate_cross_section_topology`.  A polygon is identified with the
coordinate ring it was constructed from; unions and differences are
represented by their measured areas and emptiness/shape predicates, which
is exactly what the source inspects. -/
structure GeoLib where
  construct : List Pt → Option String
  isValidP : List Pt → Bool
  containsP : List Pt → Pt → Bool
  touchesP : List Pt → Pt → Bool
  interArea : List Pt → List Pt → ℚ
  gapsEmpty : List (List Pt) → List Pt → Bool
  gapsArea : List (List Pt) → List Pt → ℚ
  leaksEmpty : List (List Pt) → List Pt → Bool
  leaksArea : List (List Pt) → List Pt → ℚ
  unionIsPolygon : List (List Pt) → Bool
  symmDiffArea : List (List Pt) → List Pt → ℚ

/-! ## The topology validator: `validate_cross_section_topology` -/

/-- Python dict insertion: an existing key keeps its position and gets the
new value; a new key is appended. -/
def dictUpsert (d : List (ℤ × Pt)) (k : ℤ) (v : Pt) : List (ℤ × Pt) :=
  if d.any (fun p => p.1 == k) then
    d.map (fun p => if p.1 == k then (k, v) else p)
  else d ++ [(k, v)]

/-- The dict comprehension `{vid: (x, z) for vid, x, z in vertices}`. -/
def idToCoord (vs : List Vtx) : List (ℤ × Pt) :=
  vs.foldl (fun d v => dictUpsert d v.1 v.2) []

def lookupCoord (d : List (ℤ × Pt)) (k : ℤ) : Option Pt :=
  (d.find? (fun p => p.1 == k)).map (fun p => p.2)

def pyEqPt (a b : Pt) : Bool := pyEqF a.1 b.1 && pyEqF a.2 b.2

def dupCoordMsg (v1 v2 : ℤ) (c : Pt) : String :=
  "Vertices " ++ intDec v1 ++ " and " ++ intDec v2 ++
    " share identical coordinates (" ++ pyReprF c.1 ++ ", " ++ pyReprF c.2 ++ ")."

/-- The duplicate-coordinate check: iterate `id_to_coord` in order, keyed by
Python float equality (so `nan` coordinates never compare equal). -/
def dupCoordErrors (d : List (ℤ × Pt)) : List String :=
  (d.foldl (fun (st : List (Pt × ℤ) × List String) kv =>
    match st.1.find? (fun e => pyEqPt e.1 kv.2) with
    | some e => (st.1, st.2 ++ [dupCoordMsg e.2 kv.1 kv.2])
    | none => (st.1 ++ [(kv.2, kv.1)], st.2)) ([], [])).2

/-- A built polygon: name, coordinate ring, own vertex-ID set. -/
abbrev SPoly := String × List Pt × List ℤ

def createMsg (name msg : String) : String :=
  "Polygon '" ++ name ++ "' could not be created: " ++ msg ++ "."

def invalidPolyMsg (name : String) : String :=
  "Polygon '" ++ name ++
    "' is not a valid (simple) polygon: it may be self-intersecting, malformed or have overlapping edges."

def multMsg (name : String) : String :=
  "Polygon '" ++ name ++ "' lists the same vertex ID twice."

def insideMsg (vid : ℤ) (name : String) : String :=
  "Vertex " ++ intDec vid ++ " lies strictly inside polygon '" ++ name ++ "'."

def onEdgeMsg (vid : ℤ) (name : String) : String :=
  "Vertex " ++ intDec vid ++ " lies on an edge of polygon '" ++ name ++
    "' (but is not an endpoint)."

def overlapMsg (a b : String) (ar : ℚ) : String :=
  "Polygons '" ++ a ++ "' and '" ++ b ++ "' overlap (area ≈ " ++ fmtE3 ar ++ " km²)."

def gapMsg (ar : ℚ) : String :=
  "The polygons leave gap(s) totalling ≈ " ++ fmtE3 ar ++
    " km² inside the bounding rectangle."

def leakMsg (ar : ℚ) : String :=
  "The polygons extend outside the bounding rectangle by ≈ " ++ fmtE3 ar ++ " km²."

def multiPolyMsg : String :=
  "Combined polygons do not form a single contiguous shape (MultiPolygon detected)."

def notRectMsg : String :=
  "The combined shape of polygons is not a perfect rectangle matching the bounding box."

/-- Look up every referenced vertex ID; the first missing one is the
`KeyError` the comprehension raises. -/
def lookupAll (d : List (ℤ × Pt)) : List ℤ → Except ℤ (List Pt)
  | [] => .ok []
  | i :: is =>
    match lookupCoord d i with
    | none => .error i
    | some c =>
      match lookupAll d is with
      | .error e => .error e
      | .ok cs => .ok (c :: cs)

/-- The geometry-construction loop: per polygon, a construction exception
becomes an error and skips the polygon; an invalid (non-simple) polygon is
flagged but kept.  A missing vertex ID raises `KeyError`. -/
def buildPolys (g : GeoLib) (d : List (ℤ × Pt)) :
    List Pgn → Except String (List String × List SPoly)
  | [] => .ok ([], [])
  | (name, ids) :: rest =>
    match lookupAll d ids with
    | .error vid => .error ("KeyError: " ++ intDec vid)
    | .ok coords =>
      let contrib : List String × List SPoly :=
        match g.construct coords with
        | some exc => ([createMsg name exc], [])
        | none =>
          ((if g.isValidP coords then [] else [invalidPolyMsg name]),
           [(name, coords, ids)])
      match buildPolys g d rest with
      | .error e => .error e
      | .ok (es, sps) => .ok (contrib.1 ++ es, contrib.2 ++ sps)

/-- Vertex-multiplicity check: a polygon whose ID list has a repeat. -/
def multErrors (ps : List Pgn) : List String :=
  ps.filterMap fun p => if p.2.Nodup then none else some (multMsg p.1)

def listJoin {α : Type} : List (List α) → List α
  | [] => []
  | l :: ls => l ++ listJoin ls

/-- Vertex containment/touching check over every (vertex, polygon) pair. -/
def touchErrors (g : GeoLib) (d : List (ℤ × Pt)) (sps : List SPoly) : List String :=
  listJoin (d.map fun kv =>
    sps.filterMap fun sp =>
      if kv.1 ∈ sp.2.2 then none
      else if g.containsP sp.2.1 kv.2 then some (insideMsg kv.1 sp.1)
      else if g.touchesP sp.2.1 kv.2 then some (onEdgeMsg kv.1 sp.1)
      else none)

/-- Ordered pairs `i < j` in list order. -/
def ordPairs {α : Type} : List α → List (α × α)
  | [] => []
  | a :: rest => rest.map (fun b => (a, b)) ++ ordPairs rest

/-- Pairwise overlap check. -/
def overlapErrors (g : GeoLib) (sps : List SPoly) (tol : ℚ) : List String :=
  (ordPairs sps).filterMap fun pr =>
    let ar := g.interArea pr.1.2.1 pr.2.2.1
    if ar > tol then some (overlapMsg pr.1.1 pr.2.1 ar) else none

/-- Python `min` over a nonempty float list (first minimal under `<`). -/
def pyMinL : List PyF → PyF
  | [] => .fin 0
  | x :: xs => xs.foldl (fun acc y => if pyLtF y acc then y else acc) x

/-- Python `max` over a nonempty float list. -/
def pyMaxL : List PyF → PyF
  | [] => .fin 0
  | x :: xs => xs.foldl (fun acc y => if pyLtF acc y then y else acc) x

/-- The bounding rectangle ring, in the source's corner order. -/
def boundingOf (minx maxx minz maxz : PyF) : List Pt :=
  [(minx, maxz), (maxx, maxz), (maxx, minz), (minx, minz)]

/-- Gap and leak checks against the bounding rectangle. -/
def gapLeakErrors (g : GeoLib) (polys : List (List Pt)) (bounding : List Pt)
    (tol : ℚ) : List String :=
  (if ¬ g.gapsEmpty polys bounding ∧ g.gapsArea polys bounding > tol then
    [gapMsg (g.gapsArea polys bounding)] else []) ++
  (if ¬ g.leaksEmpty polys bounding ∧ g.leaksArea polys bounding > tol then
    [leakMsg (g.leaksArea polys bounding)] else [])

/-- Exact-tiling check: single contiguous polygon, symmetric difference
within tolerance. -/
def tilingErrors (g : GeoLib) (polys : List (List Pt)) (bounding : List Pt)
    (tol : ℚ) : List String :=
  if ¬ g.unionIsPolygon polys then [multiPolyMsg]
  else if g.symmDiffArea polys bounding > tol then [notRectMsg]
  else []

/-- `validate_cross_section_topology`, generic in the geometry library.
Uncaught Python exceptions (`KeyError` on an undeclared vertex ID, the
`ValueError` of `min` on an empty sequence) are `Except.error`. -/
def validate_cross_section_topology (g : GeoLib) (text : String) (tol : ℚ) :
    Except String (Bool × List String) :=
  match parse_text text with
  | .error e => .ok (false, ["Unexpected parse failure: " ++ e])
  | .ok (vs, ps) =>
    let d := idToCoord vs
    let dErrs := dupCoordErrors d
    match buildPolys g d ps with
    | .error e => .error e
    | .ok (bErrs, sps) =>
      let pre := dErrs ++ bErrs
      if pre ≠ [] then .ok (false, pre)
      else
        let mErrs := multErrors ps
        let tErrs := touchErrors g d sps
        let oErrs := overlapErrors g sps tol
        if vs.isEmpty then .error "min() arg is an empty sequence"
        else
          let xs := vs.map (fun v => v.2.1)
          let zs := vs.map (fun v => v.2.2)
          let bounding := boundingOf (pyMinL xs) (pyMaxL xs) (pyMinL zs) (pyMaxL zs)
          let polys := sps.map (fun sp => sp.2.1)
          let errs := mErrs ++ tErrs ++ oErrs ++
            gapLeakErrors g polys bounding tol ++ tilingErrors g polys bounding tol
          .ok (errs = [], errs)

/-! ## An exact rational geometry instance

`rgeo` implements the `GeoLib` interface with exact rational arithmetic:
ring simplicity by pairwise segment tests, point location by ray casting,
and Boolean areas by convex clipping with inclusion–exclusion (adequate for
the convex configurations evaluated concretely; non-finite coordinates are
outside its scope and are mapped to 0). -/

def toQ : PyF → ℚ
  | .fin q => q
  | _ => 0

def ptQ (p : Pt) : ℚ × ℚ := (toQ p.1, toQ p.2)

/-- Cross product of `a - o` and `b - o`: positive iff `o,a,b` turn left. -/
def crossQ (o a b : ℚ × ℚ) : ℚ :=
  (a.1 - o.1) * (b.2 - o.2) - (a.2 - o.2) * (b.1 - o.1)

/-- Dot product of `a - o` and `b - o`. -/
def dotQ (o a b : ℚ × ℚ) : ℚ :=
  (a.1 - o.1) * (b.1 - o.1) + (a.2 - o.2) * (b.2 - o.2)

/-- Whether `p` lies on the closed segment `a b`. -/
def onSegQ (p a b : ℚ × ℚ) : Bool :=
  crossQ a b p = 0 && min a.1 b.1 ≤ p.1 && p.1 ≤ max a.1 b.1 &&
    min a.2 b.2 ≤ p.2 && p.2 ≤ max a.2 b.2

/-- The closed edge list of a ring (last point joined to the first). -/
def ringEdges (ps : List (ℚ × ℚ)) : List ((ℚ × ℚ) × (ℚ × ℚ)) :=
  ps.zip (ps.drop 1 ++ ps.take 1)

def onBoundaryQ (pt : ℚ × ℚ) (ps : List (ℚ × ℚ)) : Bool :=
  (ringEdges ps).any fun e => onSegQ pt e.1 e.2

/-- Even-odd ray casting for a point not on the boundary. -/
def rayCastQ (ps : List (ℚ × ℚ)) (pt : ℚ × ℚ) : Bool :=
  (ringEdges ps).foldl (fun acc e =>
    let a := e.1
    let b := e.2
    if (decide (a.2 > pt.2)) ≠ (decide (b.2 > pt.2)) then
      let xin := a.1 + (pt.2 - a.2) * (b.1 - a.1) / (b.2 - a.2)
      if pt.1 < xin then !acc else acc
    else acc) false

/-- Strict interior membership. -/
def containsQpt (ps : List (ℚ × ℚ)) (pt : ℚ × ℚ) : Bool :=
  !onBoundaryQ pt ps && rayCastQ ps pt

/-- Twice the signed area (shoelace). -/
def shoelace2 (ps : List (ℚ × ℚ)) : ℚ :=
  (ringEdges ps).foldl (fun s e => s + (e.1.1 * e.2.2 - e.2.1 * e.1.2)) 0

/-- Absolute area of a ring. -/
def areaQ (ps : List (ℚ × ℚ)) : ℚ := qabs (shoelace2 ps) / 2

/-- Remove consecutive duplicate points. -/
def dedupConsec : List (ℚ × ℚ) → List (ℚ × ℚ)
  | [] => []
  | [x] => [x]
  | x :: y :: rest =>
    if x = y then dedupConsec (y :: rest) else x :: dedupConsec (y :: rest)

/-- Drop a closing point equal to the head. -/
def dropClose (l : List (ℚ × ℚ)) : List (ℚ × ℚ) :=
  if l.length ≥ 2 ∧ l.getLast? = l.head? then l.dropLast else l

/-- Whether two closed segments intersect at all (properly or at a point). -/
def segTouchQ (a b c d : ℚ × ℚ) : Bool :=
  let d1 := crossQ c d a
  let d2 := crossQ c d b
  let d3 := crossQ a b c
  let d4 := crossQ a b d
  (((d1 > 0 && d2 < 0) || (d1 < 0 && d2 > 0)) &&
   ((d3 > 0 && d4 < 0) || (d3 < 0 && d4 > 0))) ||
  onSegQ c a b || onSegQ d a b || onSegQ a c d || onSegQ b c d

/-- Two ring edges sharing exactly the corner `shared` are fine unless the
ring backtracks collinearly there. -/
def adjacentOk (prev shared next : ℚ × ℚ) : Bool :=
  !(crossQ shared prev next = 0 && dotQ shared prev next > 0)

/-- Ring validity: after collapsing duplicates, at least three points,
nonzero area, non-adjacent edges disjoint, adjacent edges not overlapping. -/
def isValidRing (coords : List (ℚ × ℚ)) : Bool :=
  let ps := dropClose (dedupConsec coords)
  let n := ps.length
  if n < 3 then false
  else
    shoelace2 ps ≠ 0 &&
    (let es := ringEdges ps
     let def0 : (ℚ × ℚ) × (ℚ × ℚ) := ((0, 0), (0, 0))
     (List.range n).all fun i => (List.range n).all fun j =>
       if i < j then
         let ei := es.getD i def0
         let ej := es.getD j def0
         if j = i + 1 then adjacentOk ei.1 ei.2 ej.2
         else if i = 0 ∧ j = n - 1 then adjacentOk ej.1 ei.1 ei.2
         else !segTouchQ ei.1 ei.2 ej.1 ej.2
       else true)

/-- Orient a ring counterclockwise. -/
def ccwOf (ps : List (ℚ × ℚ)) : List (ℚ × ℚ) :=
  if shoelace2 ps < 0 then ps.reverse else ps

/-- Sutherland–Hodgman: clip a subject ring against the left half-plane of
the directed line `a → b`. -/
def clipHalf (a b : ℚ × ℚ) (subj : List (ℚ × ℚ)) : List (ℚ × ℚ) :=
  (ringEdges subj).foldl (fun out e =>
    let p := e.1
    let q := e.2
    let cp := crossQ a b p
    let cq := crossQ a b q
    let t := cp / (cp - cq)
    let inter := (p.1 + t * (q.1 - p.1), p.2 + t * (q.2 - p.2))
    if cq ≥ 0 then
      if cp ≥ 0 then out ++ [q] else out ++ [inter, q]
    else
      if cp ≥ 0 then out ++ [inter] else out) []

/-- Intersection of a subject ring with a convex clip ring. -/
def clipPoly (subj clip : List (ℚ × ℚ)) : List (ℚ × ℚ) :=
  (ringEdges (ccwOf clip)).foldl (fun s e => clipHalf e.1 e.2 s) subj

/-- Area of `base ∩ ⋂ ps` (convex operands). -/
def capAreaFrom (base : List (ℚ × ℚ)) (ps : List (List (ℚ × ℚ))) : ℚ :=
  areaQ (ps.foldl clipPoly base)

/-- Area of `base ∩ ⋃ ps` by inclusion–exclusion (convex operands). -/
def coverArea (base : List (ℚ × ℚ)) (ps : List (List (ℚ × ℚ))) : ℚ :=
  (ps.sublists.filter (fun S => S ≠ [])).foldl
    (fun s S =>
      s + (if S.length % 2 = 1 then capAreaFrom base S else -capAreaFrom base S)) 0

/-- Area of `⋃ ps` by inclusion–exclusion (convex operands). -/
def unionAreaQ (ps : List (List (ℚ × ℚ))) : ℚ :=
  (ps.sublists.filter (fun S => S ≠ [])).foldl
    (fun s S =>
      s + (match S with
        | [] => 0
        | p :: rest =>
          if S.length % 2 = 1 then capAreaFrom p rest else -capAreaFrom p rest)) 0

/-- Whether two collinear-overlap edges share a segment of positive length. -/
def edgeOverlapPos (e f : (ℚ × ℚ) × (ℚ × ℚ)) : Bool :=
  crossQ e.1 e.2 f.1 = 0 && crossQ e.1 e.2 f.2 = 0 &&
  (if e.1.1 = e.2.1 then
    min (max e.1.2 e.2.2) (max f.1.2 f.2.2) > max (min e.1.2 e.2.2) (min f.1.2 f.2.2)
  else
    min (max e.1.1 e.2.1) (max f.1.1 f.2.1) > max (min e.1.1 e.2.1) (min f.1.1 f.2.1))

/-- Positive-measure contact between two rings: overlapping areas or a
shared boundary segment of positive length. -/
def contactB (a b : List (ℚ × ℚ)) : Bool :=
  areaQ (clipPoly a b) > 0 ||
  (ringEdges a).any fun e => (ringEdges b).any fun f => edgeOverlapPos e f

/-- One expansion step of reachability over the contact graph. -/
def growStep (ps : List (List (ℚ × ℚ))) (cur : List ℕ) : List ℕ :=
  (List.range ps.length).filter fun j =>
    j ∈ cur ∨ cur.any fun i => contactB (ps.getD i []) (ps.getD j [])

def iterGrow (ps : List (List (ℚ × ℚ))) : ℕ → List ℕ → List ℕ
  | 0, cur => cur
  | k + 1, cur => iterGrow ps k (growStep ps cur)

/-- Whether the union of the rings is a single contiguous polygon: one
ring, or all rings connected through positive-measure contact.  (Unions
touching only at isolated points are outside the modelled scope.) -/
def unionIsPolygonB (ps : List (List (ℚ × ℚ))) : Bool :=
  match ps with
  | [] => false
  | [_] => true
  | _ => (iterGrow ps ps.length [0]).length = ps.length

/-- The exact rational geometry instance. -/
def rgeo : GeoLib where
  construct coords :=
    if coords.length = 0 ∨ 3 ≤ coords.length then none
    else some "A linearring requires at least 4 coordinates."
  isValidP coords := isValidRing (coords.map ptQ)
  containsP coords pt := containsQpt (coords.map ptQ) (ptQ pt)
  touchesP coords pt := onBoundaryQ (ptQ pt) (coords.map ptQ)
  interArea a b := areaQ (clipPoly (a.map ptQ) (b.map ptQ))
  gapsEmpty ps rect :=
    areaQ (rect.map ptQ) - coverArea (rect.map ptQ) (ps.map (List.map ptQ)) = 0
  gapsArea ps rect :=
    areaQ (rect.map ptQ) - coverArea (rect.map ptQ) (ps.map (List.map ptQ))
  leaksEmpty ps rect :=
    unionAreaQ (ps.map (List.map ptQ)) -
      coverArea (rect.map ptQ) (ps.map (List.map ptQ)) = 0
  leaksArea ps rect :=
    unionAreaQ (ps.map (List.map ptQ)) -
      coverArea (rect.map ptQ) (ps.map (List.map ptQ))
  unionIsPolygon ps := unionIsPolygonB (ps.map (List.map ptQ))
  symmDiffArea ps rect :=
    unionAreaQ (ps.map (List.map ptQ)) + areaQ (rect.map ptQ) -
      2 * coverArea (rect.map ptQ) (ps.map (List.map ptQ))

/-! ## Serialization (for the round-trip property) -/

/-- Modelled from the spec: the repository contains no serializer; §8's
round-trip property re-serializes "the parsed vertices/polygons into the
line grammar", i.e. one `id x z` line per vertex in order followed by one
`name id1 ... idN` line per polygon in order. -/
def vtxLine (v : Vtx) : String :=
  joinWith " " [intDec v.1, pyReprF v.2.1, pyReprF v.2.2]

def pgnLine (p : Pgn) : String :=
  joinWith " " (p.1 :: p.2.map intDec)

def serializeDoc (vs : List Vtx) (ps : List Pgn) : String :=
  joinWith "\n" (vs.map vtxLine ++ ps.map pgnLine)

/-! ## Concrete documents used in the claim-level evaluations -/

/-- The default tolerance `1e-8`. -/
def tol0 : ℚ := 1 / 100000000

/-- Two vertices sharing coordinates plus a valid triangle. -/
def tDup : String := "1 0 0\n2 0 0\n3 1 0\n4 1 1\nA 1 3 4"

def vsDup : List Vtx :=
  [(1, .fin 0, .fin 0), (2, .fin 0, .fin 0), (3, .fin 1, .fin 0), (4, .fin 1, .fin 1)]

def psDup : List Pgn := [("A", [1, 3, 4])]

def spsDup : List SPoly :=
  [("A", [(.fin 0, .fin 0), (.fin 1, .fin 0), (.fin 1, .fin 1)], [1, 3, 4])]

/-- A single square polygon exactly covering its bounding rectangle. -/
def tSq : String := "1 0 0\n2 2 0\n3 2 2\n4 0 2\nA 1 2 3 4"

def vsSq : List Vtx :=
  [(1, .fin 0, .fin 0), (2, .fin 2, .fin 0), (3, .fin 2, .fin 2), (4, .fin 0, .fin 2)]

def psSq : List Pgn := [("A", [1, 2, 3, 4])]

def spsSq : List SPoly :=
  [("A", [(.fin 0, .fin 0), (.fin 2, .fin 0), (.fin 2, .fin 2), (.fin 0, .fin 2)], [1, 2, 3, 4])]

/-- The square plus an unused vertex widening the bounding rectangle: the
only defects are a gap of area 2 and the resulting imperfect tiling. -/
def tGap : String := "1 0 0\n2 2 0\n3 2 2\n4 0 2\n5 3 0\nA 1 2 3 4"

def isOkE {α : Type} : Except String α → Bool
  | .ok _ => true
  | .error _ => false

/-- The per-line outcomes of the parser, in line order from line `n`. -/
def lineOutsFrom (n : ℕ) : List String → List (Except String (Option (Vtx ⊕ Pgn)))
  | [] => []
  | l :: ls => parseLine n l :: lineOutsFrom (n + 1) ls

def vtxOf : Except String (Option (Vtx ⊕ Pgn)) → Option Vtx
  | .ok (some (.inl v)) => some v
  | _ => none

def pgnOf : Except String (Option (Vtx ⊕ Pgn)) → Option Pgn
  | .ok (some (.inr p)) => some p
  | _ => none

/-- The loop state of the format validator on a document. -/
def fmtState (text : String) : FmtSt := fmtFold 1 fmtInit (pySplitlines text)

/-- The vertex IDs referenced by polygons but never declared, in the order
the validator reports them. -/
def undeclaredIds (text : String) : List ℤ :=
  (sortInts (fmtState text).used).filter (fun v => v ∉ (fmtState text).vids)

/-- The declared vertex IDs never referenced, in the order the validator
reports them. -/
def unusedIds (text : String) : List ℤ :=
  sortInts ((fmtState text).vids.filter (fun v => v ∉ (fmtState text).used))

/-- Whether the last vertex-or-polygon-shaped line of `lines` is
polygon-shaped (starting from `b` when there is none).  This is the
denotation of the `polygons_updated` flag: it is set by polygon lines and
cleared by the vertex line that fires the diagnostic. -/
def lastKindFrom (b : Bool) (lines : List String) : Bool :=
  lines.foldl (fun acc raw => match fmtLineKind raw with | some k => k | none => acc) b

/-- The distinct polygon names (first tokens of polygon-shaped lines) in
first-appearance order, continuing from `acc`. -/
def polyNamesFrom (acc : List String) (lines : List String) : List String :=
  lines.foldl (fun acc raw =>
    match fmtLineKind raw with
    | some true => setInsertS acc ((pyTokens (pyStrip (stripComment raw))).getD 0 "")
    | _ => acc) acc

/-- All distinct polygon names appearing in `lines`, in order. -/
def polyNamesOf (lines : List String) : List String := polyNamesFrom [] lines

/-- The vertex-line error messages that do not depend on the polygon
flag: duplicate-ID and coordinate diagnostics. -/
def vertexLineBaseErrs (vids : List ℤ) (n : ℕ) (raw : String) : List String :=
  let parts := pyTokens (pyStrip (stripComment raw))
  let vid : ℤ := (natOfDigits (parts.getD 0 "").data : ℕ)
  (if vid ∈ vids then [dupVidMsg n vid] else []) ++
  (if pyFloatParse (parts.getD 1 "") = none then [badXMsg n (parts.getD 1 "")] else []) ++
  (if pyFloatParse (parts.getD 2 "") = none then [badZMsg n (parts.getD 2 "")] else [])

/-- A head condition under which a digit group stops cleanly. -/
def groupStops : List Char → Prop
  | [] => True
  | c :: _ => isDigitA c = false ∧ c ≠ '_'

/-- Invariant satisfied by every parser-produced vertex. -/
def goodV (v : Vtx) : Prop :=
  0 ≤ v.1 ∧ (∀ q, v.2.1 = .fin q → ∃ K, q.den ∣ 10 ^ K) ∧
    (∀ q, v.2.2 = .fin q → ∃ K, q.den ∣ 10 ^ K)

/-- Invariant satisfied by every parser-produced polygon. -/
def goodP (p : Pgn) : Prop :=
  p.1.data ≠ [] ∧ (∀ c ∈ p.1.data, pyWsChar c = false ∧ c ≠ '#') ∧
    p.1.data.count '^' ≤ 1 ∧ p.2 ≠ [] ∧ (pyIsdigit p.1 = true → p.2.length ≠ 2)

theorem qpow10_eq (n : ℕ) : qpow10 n = (10 : ℚ) ^ n := by
  induction n with
  | zero => rfl
  | succ n ih => rw [qpow10, ih, pow_succ]; ring

theorem pow10Z_eq (e : ℤ) : pow10Z e = (10 : ℚ) ^ e := by
  cases e with
  | ofNat n => rw [pow10Z, qpow10_eq]; exact (zpow_natCast (10 : ℚ) n).symm
  | negSucc n =>
    rw [pow10Z, qpow10_eq, zpow_negSucc, one_div]

/-! ## Claim C1 -/

/-- C1 (counterexample).  The claim says that whenever every ring builds
into a valid simple polygon, all six checks run and their messages are
concatenated, and in particular a duplicate-coordinate finding does not
suppress the later checks.  On `tDup` every ring constructs into a valid
simple polygon (geometry construction yields no errors), yet the result
carries only the duplicate-coordinate message, while the
containment/touching check — had it been attempted — reports that vertex 2
lies on polygon `A`.  The early return at `if errors:` fires on
duplicate-coordinate findings, not only on construction failures. -/
theorem C1_counterexample :
    parse_text tDup = .ok (vsDup, psDup) ∧
    buildPolys rgeo (idToCoord vsDup) psDup = .ok ([], spsDup) ∧
    validate_cross_section_topology rgeo tDup tol0 =
      .ok (false, [dupCoordMsg 1 2 (.fin 0, .fin 0)]) ∧
    touchErrors rgeo (idToCoord vsDup) spsDup = [onEdgeMsg 2 "A"] := by
  refine ⟨?_, ?_, ?_, ?_⟩ <;> with_unfolding_all rfl

/-- C1 (amended).  After a successful parse, the validator returns early
with all errors accumulated so far whenever the duplicate-coordinate check
or geometry construction (including per-polygon validity) produced any
error — so duplicate-coordinate findings suppress the later checks.  Only
when both produced none does it run the remaining five checks
(multiplicity, containment/touching, overlap, gap/leak, tiling) and
concatenate their messages in that fixed order, with `is_valid` true iff
the concatenation is empty. -/
theorem C1_gate_and_fixed_order (g : GeoLib) (text : String) (tol : ℚ)
    (vs : List Vtx) (ps : List Pgn) (berrs : List String) (sps : List SPoly)
    (hp : parse_text text = .ok (vs, ps))
    (hb : buildPolys g (idToCoord vs) ps = .ok (berrs, sps)) :
    (dupCoordErrors (idToCoord vs) ++ berrs ≠ [] →
      validate_cross_section_topology g text tol =
        .ok (false, dupCoordErrors (idToCoord vs) ++ berrs)) ∧
    (dupCoordErrors (idToCoord vs) ++ berrs = [] → vs ≠ [] →
      validate_cross_section_topology g text tol =
        (let d := idToCoord vs
         let xs := vs.map fun v => v.2.1
         let zs := vs.map fun v => v.2.2
         let bounding := boundingOf (pyMinL xs) (pyMaxL xs) (pyMinL zs) (pyMaxL zs)
         let polys := sps.map fun sp => sp.2.1
         let errs := multErrors ps ++ touchErrors g d sps ++ overlapErrors g sps tol ++
           gapLeakErrors g polys bounding tol ++ tilingErrors g polys bounding tol
         .ok (errs = [], errs))) := by
  constructor
  · intro hne
    unfold validate_cross_section_topology
    rw [hp]
    simp only [hb]
    rw [if_pos hne]
  · intro hemp hvs
    unfold validate_cross_section_topology
    rw [hp]
    simp only [hb]
    rw [if_neg (by simp [hemp])]
    have hie : vs.isEmpty = false := by
      cases vs with
      | nil => exact absurd rfl hvs
      | cons a l => rfl
    simp only [hie, Bool.false_eq_true, if_false]

/-- C1 (witness): the amended theorem applied to the exactly-tiling square
document, whose post-gate checks all succeed. -/
theorem C1_witness :
    validate_cross_section_topology rgeo tSq tol0 = .ok (true, []) := by
  have h := (C1_gate_and_fixed_order rgeo tSq tol0 vsSq psSq [] spsSq
    (by with_unfolding_all rfl) (by with_unfolding_all rfl)).2
    (by with_unfolding_all rfl) (by with_unfolding_all decide)
  rw [h]
  with_unfolding_all rfl

/-! ## Claim C2 -/

/-- C2 (the claim is right, the code is wrong).  `validate_topology` is
documented and specified to always return an `(is_valid, errors)` pair, but
on an empty (or comment-only) text `min(xs)` raises an uncaught
`ValueError`, and on a polygon referencing an undeclared vertex ID the
lookup `id_to_coord[vid]` raises an uncaught `KeyError` — the guard that
was meant to make these unreachable is commented out in the source. -/
theorem C2_uncaught_exceptions :
    validate_cross_section_topology rgeo "" tol0 =
      .error "min() arg is an empty sequence" ∧
    validate_cross_section_topology rgeo "A 1 2" tol0 =
      .error "KeyError: 1" := by
  refine ⟨?_, ?_⟩ <;> with_unfolding_all rfl

/-! ## Claim C3 -/

/-- C3 (counterexample).  The claim says a 2-token line with an all-digit
first token, or a 4-token line with an all-digit first token, is rejected
with an unrecognized-line error.  In the code the polygon branch accepts
any 2-or-more-token line that is not a vertex line, regardless of whether
the first token is numeric: both lines parse as polygons. -/
theorem C3_counterexample :
    parse_text "5 3" = .ok ([], [("5", [3])]) ∧
    parse_text "1 2 3 4" = .ok ([], [("1", [2, 3, 4])]) := by
  refine ⟨?_, ?_⟩ <;> with_unfolding_all rfl

/-! ### String lemmas for distinguishing the parser's error messages -/

theorem strData_append (s t : String) : (s ++ t).data = s.data ++ t.data := by
  cases s; cases t; rfl

theorem strExt {s t : String} (h : s.data = t.data) : s = t := by
  cases s; cases t; exact congrArg String.mk h

theorem append_head_ne {c1 c2 : Char} {r1 r2 s t : List Char} (hc : c1 ≠ c2) :
    (c1 :: r1) ++ s ≠ (c2 :: r2) ++ t := by
  simp [hc]

theorem caret_ne_unrec (n : ℕ) (name body : String) :
    caretMsg n name ≠ unrecMsg n body := by
  intro h
  have hd := congrArg String.data h
  simp only [caretMsg, unrecMsg, lineTag, strData_append, List.append_assoc] at hd
  exact append_head_ne (by decide)
    (List.append_cancel_left (List.append_cancel_left (List.append_cancel_left hd)))

theorem ids_ne_unrec (n : ℕ) (body : String) : idsMsg n body ≠ unrecMsg n body := by
  intro h
  have hd := congrArg String.data h
  simp only [idsMsg, unrecMsg, lineTag, strData_append, List.append_assoc] at hd
  exact append_head_ne (by decide)
    (List.append_cancel_left (List.append_cancel_left (List.append_cancel_left hd)))

theorem float_ne_unrec (n : ℕ) (tok body : String) :
    floatErrMsg tok ≠ unrecMsg n body := by
  intro h
  have hd := congrArg String.data h
  simp only [floatErrMsg, unrecMsg, lineTag, strData_append, List.append_assoc] at hd
  exact append_head_ne (by decide) hd

/-! ### Token non-emptiness for stripped non-blank lines -/

theorem tokensAux_ne_nil : ∀ (l cur : List Char), cur ≠ [] → tokensAux l cur ≠ []
  | [], cur, h => by simp [tokensAux, h]
  | c :: cs, cur, h => by
    simp only [tokensAux]
    by_cases hw : pyWsChar c = true
    · rw [if_pos hw, if_neg h]
      simp
    · rw [if_neg hw]
      exact tokensAux_ne_nil cs (c :: cur) (by simp)

theorem dropWhile_head_false {p : Char → Bool} :
    ∀ (l : List Char) (c : Char) (t : List Char), l.dropWhile p = c :: t → p c = false
  | [], c, t, h => by simp [List.dropWhile] at h
  | x :: xs, c, t, h => by
    rw [List.dropWhile] at h
    cases hx : p x with
    | true => rw [hx] at h; exact dropWhile_head_false xs c t h
    | false =>
      rw [hx] at h
      cases h
      exact hx

theorem pyStrip_data_prefix (s : String) :
    (pyStrip s).data <+: (s.data.dropWhile pyWsChar) := by
  show ((s.data.dropWhile pyWsChar).reverse.dropWhile pyWsChar).reverse <+:
    s.data.dropWhile pyWsChar
  obtain ⟨t, ht⟩ :=
    List.dropWhile_suffix (l := (s.data.dropWhile pyWsChar).reverse) (p := pyWsChar)
  exact ⟨t.reverse, by rw [← List.reverse_append, ht, List.reverse_reverse]⟩

theorem pyStrip_head_not_ws (s : String) {c : Char} {rest : List Char}
    (h : (pyStrip s).data = c :: rest) : pyWsChar c = false := by
  obtain ⟨t, ht⟩ := pyStrip_data_prefix s
  rw [h] at ht
  exact dropWhile_head_false s.data c (rest ++ t) (by rw [← ht]; simp)

theorem pyTokens_pyStrip_ne_nil (s : String) (h : (pyStrip s).data ≠ []) :
    pyTokens (pyStrip s) ≠ [] := by
  rcases hd : (pyStrip s).data with _ | ⟨c, rest⟩
  · exact absurd hd h
  · have hw := pyStrip_head_not_ws s hd
    unfold pyTokens
    rw [hd]
    simp only [tokensAux, hw, Bool.false_eq_true, if_false]
    have := tokensAux_ne_nil rest [c] (by simp)
    intro hnil
    rw [List.map_eq_nil_iff] at hnil
    exact this hnil

/-- The polygon branch never produces the unrecognized-line error. -/
theorem parsePolyLine_ne_unrec (n : ℕ) (body name : String) (toks : List String) :
    parsePolyLine n body name toks ≠ .error (unrecMsg n body) := by
  unfold parsePolyLine
  by_cases hc : name.data.count '^' > 1
  · rw [if_pos hc]
    intro h
    injection h with h'
    exact caret_ne_unrec n name body h'
  · rw [if_neg hc]
    cases hm : toks.mapM pyIntParse with
    | none =>
      intro h
      injection h with h'
      exact ids_ne_unrec n body h'
    | some ids =>
      intro h
      exact Except.noConfusion h

/-- C3 (amended).  A non-blank, non-comment line fails with the
unrecognized-line error exactly when it has a single token; and every line
of two or more tokens that is not a vertex line (three tokens with
all-digit first token) is dispatched to the polygon branch, regardless of
whether its first token is purely numeric. -/
theorem C3_amended (n : ℕ) (raw : String)
    (hne : (pyStrip (stripComment raw)).data ≠ []) :
    (parseLine n raw = .error (unrecMsg n (pyStrip (stripComment raw))) ↔
      (pyTokens (pyStrip (stripComment raw))).length = 1) ∧
    (∀ a b rest, pyTokens (pyStrip (stripComment raw)) = a :: b :: rest →
      ¬(rest.length = 1 ∧ pyIsdigit a = true) →
      parseLine n raw = parsePolyLine n (pyStrip (stripComment raw)) a (b :: rest)) := by
  have h0 : (pyTokens (pyStrip (stripComment raw))).length ≠ 0 := by
    intro hz
    exact pyTokens_pyStrip_ne_nil _ hne (List.length_eq_zero.mp hz)
  constructor
  · constructor
    · intro h
      simp only [parseLine] at h
      rw [if_neg hne] at h
      by_cases h3 : (pyTokens (pyStrip (stripComment raw))).length = 3 ∧
          pyIsdigit ((pyTokens (pyStrip (stripComment raw))).getD 0 "") = true
      · rw [if_pos h3] at h
        cases hx : pyFloatParse ((pyTokens (pyStrip (stripComment raw))).getD 1 "") with
        | none =>
          simp only [hx] at h
          injection h with h'
          exact absurd h' (float_ne_unrec n _ _)
        | some xv =>
          simp only [hx] at h
          cases hz : pyFloatParse ((pyTokens (pyStrip (stripComment raw))).getD 2 "") with
          | none =>
            simp only [hz] at h
            injection h with h'
            exact absurd h' (float_ne_unrec n _ _)
          | some zv =>
            simp only [hz] at h
            exact Except.noConfusion h
      · rw [if_neg h3] at h
        by_cases h2 : 2 ≤ (pyTokens (pyStrip (stripComment raw))).length
        · rw [if_pos h2] at h
          exact absurd h (parsePolyLine_ne_unrec n _ _ _)
        · omega
    · intro hlen
      simp only [parseLine]
      rw [if_neg hne, if_neg (by rw [hlen]; rintro ⟨h3, _⟩; exact absurd h3 (by decide)),
        if_neg (by omega)]
  · intro a b rest htk hnv
    have hlen : (pyTokens (pyStrip (stripComment raw))).length = rest.length + 2 := by
      rw [htk]; simp
    have h3 : ¬((pyTokens (pyStrip (stripComment raw))).length = 3 ∧
        pyIsdigit ((pyTokens (pyStrip (stripComment raw))).getD 0 "") = true) := by
      rintro ⟨hl, hd⟩
      apply hnv
      refine ⟨by omega, ?_⟩
      rw [htk] at hd
      simpa using hd
    simp only [parseLine]
    rw [if_neg hne, if_neg h3, if_pos (by omega), htk]
    rfl

/-- C3 (witness): the single-token line `lonely` fails with the
unrecognized-line error; the two-token numeric-name line `5 3` does not. -/
theorem C3_witness :
    parseLine 1 "lonely" = .error (unrecMsg 1 "lonely") ∧
    parseLine 1 "5 3" = parsePolyLine 1 "5 3" "5" ["3"] := by
  constructor
  · exact (C3_amended 1 "lonely" (by with_unfolding_all decide)).1.mpr
      (by with_unfolding_all rfl)
  · exact (C3_amended 1 "5 3" (by with_unfolding_all decide)).2 "5" "3" []
      (by with_unfolding_all rfl) (by intro h; exact absurd h.1 (by decide))

/-! ## Claim C4 -/

/-- The line loop processes a concatenation sequentially: after a
successfully parsed prefix, the rest is parsed with shifted line numbers
and the results are concatenated. -/
theorem parseLines_append_ok (l1 : List String) : ∀ (n : ℕ) (l2 : List String)
    (acc : List Vtx × List Pgn), parseLines n l1 = .ok acc →
    parseLines n (l1 ++ l2) =
      match parseLines (n + l1.length) l2 with
      | .error e => .error e
      | .ok r => .ok (acc.1 ++ r.1, acc.2 ++ r.2) := by
  induction l1 with
  | nil =>
    intro n l2 acc h
    simp only [parseLines] at h
    injection h with h'
    subst h'
    simp only [List.nil_append, List.length_nil, Nat.add_zero]
    cases hr : parseLines n l2 with
    | error e => rfl
    | ok r => simp
  | cons l ls ih =>
    intro n l2 acc h
    simp only [parseLines] at h
    cases hpl : parseLine n l with
    | error e => rw [hpl] at h; exact Except.noConfusion h
    | ok r =>
      rw [hpl] at h
      cases hrest : parseLines (n + 1) ls with
      | error e => rw [hrest] at h; exact Except.noConfusion h
      | ok vp =>
        rw [hrest] at h
        injection h with h'
        subst h'
        show parseLines n (l :: (ls ++ l2)) = _
        simp only [parseLines, hpl]
        rw [ih (n + 1) l2 vp hrest]
        have hn : n + (l :: ls).length = n + 1 + ls.length := by
          simp only [List.length_cons]; omega
        rw [hn]
        cases parseLines (n + 1 + ls.length) l2 with
        | error e => rfl
        | ok r2 =>
          cases r with
          | none => simp
          | some vr =>
            cases vr with
            | inl v => simp
            | inr p => simp

/-- If a stripped line is blank its token list is empty. -/
theorem pyTokens_of_blank (s : String) (h : (pyStrip s).data = []) :
    pyTokens (pyStrip s) = [] := by
  unfold pyTokens
  rw [h]
  rfl

/-- C4 (counterexample).  The claim says the parse error on a malformed
vertex coordinate names the offending line number.  The error raised is
`float()`'s bare `ValueError`, which names only the token: the message is
identical whether the bad line is line 1 or line 2. -/
theorem C4_counterexample :
    parse_text "7 abc 2" = .error (floatErrMsg "abc") ∧
    parse_text "0 0 0\n7 abc 2" = .error (floatErrMsg "abc") ∧
    floatErrMsg "abc" = "could not convert string to float: 'abc'" := by
  refine ⟨?_, ?_, ?_⟩ <;> with_unfolding_all rfl

/-- C4 (amended).  For every text whose lines split as a successfully
parsed prefix followed by a vertex-shaped line (three tokens, all-digit
first) whose second — or, that parsing, whose third — token is not a valid
float literal, `parse` fails; the error is `float()`'s conversion message,
which names the offending token and is independent of the line number. -/
theorem C4_amended (text : String) (pre rest : List String) (raw tok : String)
    (acc : List Vtx × List Pgn)
    (hsplit : pySplitlines text = pre ++ raw :: rest)
    (hpre : parseLines 1 pre = .ok acc)
    (hlen : (pyTokens (pyStrip (stripComment raw))).length = 3)
    (hd : pyIsdigit ((pyTokens (pyStrip (stripComment raw))).getD 0 "") = true)
    (htok : (pyFloatParse ((pyTokens (pyStrip (stripComment raw))).getD 1 "") = none ∧
              tok = (pyTokens (pyStrip (stripComment raw))).getD 1 "") ∨
            ((∃ v, pyFloatParse ((pyTokens (pyStrip (stripComment raw))).getD 1 "") = some v) ∧
              pyFloatParse ((pyTokens (pyStrip (stripComment raw))).getD 2 "") = none ∧
              tok = (pyTokens (pyStrip (stripComment raw))).getD 2 "")) :
    parse_text text = .error (floatErrMsg tok) := by
  have hne : (pyStrip (stripComment raw)).data ≠ [] := by
    intro hblank
    rw [pyTokens_of_blank _ hblank] at hlen
    exact absurd hlen (by decide)
  have hline : parseLine (1 + pre.length) raw = .error (floatErrMsg tok) := by
    simp only [parseLine]
    rw [if_neg hne, if_pos ⟨hlen, hd⟩]
    rcases htok with ⟨hx, htk⟩ | ⟨⟨v, hx⟩, hz, htk⟩
    · rw [hx, htk]
    · rw [hx]
      simp only [hz]
      rw [htk]
  unfold parse_text
  rw [hsplit, parseLines_append_ok pre 1 (raw :: rest) acc hpre]
  simp only [parseLines, hline]

/-- C4 (witness): the amended theorem applied to a document whose second
line has the malformed x-coordinate `q`. -/
theorem C4_witness : parse_text "0 0 0\n7 q 1" = .error (floatErrMsg "q") := by
  exact C4_amended "0 0 0\n7 q 1" ["0 0 0"] [] "7 q 1" "q"
    ([(0, .fin 0, .fin 0)], []) (by with_unfolding_all rfl)
    (by with_unfolding_all rfl) (by with_unfolding_all rfl)
    (by with_unfolding_all rfl) (Or.inl ⟨by with_unfolding_all rfl, by with_unfolding_all rfl⟩)

/-! ## Claim C9 -/

/-- The line loop succeeds iff every line succeeds in isolation, and then
returns every per-line vertex and polygon in source order. -/
theorem parseLines_per_line (ls : List String) : ∀ n : ℕ,
    ((∀ o ∈ lineOutsFrom n ls, isOkE o = true) →
      parseLines n ls = .ok ((lineOutsFrom n ls).filterMap vtxOf,
        (lineOutsFrom n ls).filterMap pgnOf)) ∧
    (isOkE (parseLines n ls) = true → ∀ o ∈ lineOutsFrom n ls, isOkE o = true) := by
  induction ls with
  | nil =>
    intro n
    exact ⟨fun _ => rfl, fun _ o ho => absurd ho (by simp [lineOutsFrom])⟩
  | cons l ls ih =>
    intro n
    constructor
    · intro h
      have hl : isOkE (parseLine n l) = true := h _ (by simp [lineOutsFrom])
      cases hpl : parseLine n l with
      | error e => rw [hpl] at hl; exact absurd hl (by simp [isOkE])
      | ok r =>
        have hrec := (ih (n + 1)).1 (fun o ho => h o (by simp [lineOutsFrom, ho]))
        simp only [parseLines, hpl, hrec, lineOutsFrom]
        cases r with
        | none => simp [vtxOf, pgnOf, hpl]
        | some vr =>
          cases vr with
          | inl v => simp [vtxOf, pgnOf, hpl]
          | inr p => simp [vtxOf, pgnOf, hpl]
    · intro h o ho
      cases hpl : parseLine n l with
      | error e => simp only [parseLines, hpl] at h; simp [isOkE] at h
      | ok r =>
        simp only [parseLines, hpl] at h
        cases hrest : parseLines (n + 1) ls with
        | error e => rw [hrest] at h; simp [isOkE] at h
        | ok vp =>
          have hrec := (ih (n + 1)).2 (by rw [hrest]; rfl)
          simp only [lineOutsFrom, List.mem_cons] at ho
          rcases ho with rfl | ho
          · rw [hpl]; rfl
          · exact hrec o ho

/-- C9: `parse` has no cross-line failure conditions.  It succeeds exactly
when every line succeeds in isolation — duplicate vertex IDs, duplicate
polygon names and references to undeclared vertex IDs are all accepted —
and on success it returns every per-line vertex and polygon, duplicates
included, in source order. -/
theorem C9_no_cross_line_conditions (text : String) :
    ((∀ o ∈ lineOutsFrom 1 (pySplitlines text), isOkE o = true) →
      parse_text text = .ok ((lineOutsFrom 1 (pySplitlines text)).filterMap vtxOf,
        (lineOutsFrom 1 (pySplitlines text)).filterMap pgnOf)) ∧
    (isOkE (parse_text text) = true →
      ∀ o ∈ lineOutsFrom 1 (pySplitlines text), isOkE o = true) :=
  parseLines_per_line (pySplitlines text) 1

/-- C9 (witness): a document with a duplicated vertex declaration, a
duplicated polygon name, a polygon repeating a vertex ID, and a reference
to an undeclared vertex ID parses successfully with everything kept in
source order. -/
theorem C9_witness :
    parse_text "1 0 0\n1 0 0\nA 1 1\nA 9" =
      .ok ([(1, .fin 0, .fin 0), (1, .fin 0, .fin 0)], [("A", [1, 1]), ("A", [9])]) := by
  have h := (C9_no_cross_line_conditions "1 0 0\n1 0 0\nA 1 1\nA 9").1
    (by with_unfolding_all decide)
  rw [h]
  with_unfolding_all rfl

/-! ## Claim C6 -/

theorem overlapErrors_nil_mono (g : GeoLib) (sps : List SPoly) {t1 t2 : ℚ}
    (h12 : t1 ≤ t2) (h : overlapErrors g sps t1 = []) : overlapErrors g sps t2 = [] := by
  unfold overlapErrors at h ⊢
  rw [List.filterMap_eq_nil_iff] at h ⊢
  intro pr hpr
  have hp := h pr hpr
  by_cases hc : g.interArea pr.1.2.1 pr.2.2.1 > t2
  · exact absurd hp (by simp [lt_of_le_of_lt h12 hc])
  · simp [hc]

theorem gapLeakErrors_nil_mono (g : GeoLib) (polys : List (List Pt)) (bounding : List Pt)
    {t1 t2 : ℚ} (h12 : t1 ≤ t2) (h : gapLeakErrors g polys bounding t1 = []) :
    gapLeakErrors g polys bounding t2 = [] := by
  unfold gapLeakErrors at h ⊢
  rw [List.append_eq_nil] at h
  obtain ⟨h1, h2⟩ := h
  have hg : ¬(¬g.gapsEmpty polys bounding ∧ g.gapsArea polys bounding > t1) := by
    intro hc; rw [if_pos hc] at h1; exact List.cons_ne_nil _ _ h1
  have hl : ¬(¬g.leaksEmpty polys bounding ∧ g.leaksArea polys bounding > t1) := by
    intro hc; rw [if_pos hc] at h2; exact List.cons_ne_nil _ _ h2
  rw [if_neg (fun hc => hg ⟨hc.1, lt_of_le_of_lt h12 hc.2⟩),
    if_neg (fun hc => hl ⟨hc.1, lt_of_le_of_lt h12 hc.2⟩)]
  rfl

theorem tilingErrors_nil_mono (g : GeoLib) (polys : List (List Pt)) (bounding : List Pt)
    {t1 t2 : ℚ} (h12 : t1 ≤ t2) (h : tilingErrors g polys bounding t1 = []) :
    tilingErrors g polys bounding t2 = [] := by
  unfold tilingErrors at h ⊢
  by_cases hu : ¬g.unionIsPolygon polys
  · rw [if_pos hu] at h; exact absurd h (List.cons_ne_nil _ _)
  · rw [if_neg hu] at h ⊢
    by_cases hs : g.symmDiffArea polys bounding > t1
    · rw [if_pos hs] at h; exact absurd h (List.cons_ne_nil _ _)
    · rw [if_neg (fun hc => hs (lt_of_le_of_lt h12 hc))]

/-- If the topology validator reports a valid result at tolerance `t1`, it
does so at every larger tolerance. -/
theorem vt_tol_monotone (g : GeoLib) (text : String) (t1 t2 : ℚ) (es : List String)
    (h12 : t1 ≤ t2)
    (h : validate_cross_section_topology g text t1 = .ok (true, es)) :
    validate_cross_section_topology g text t2 = .ok (true, []) := by
  unfold validate_cross_section_topology at h ⊢
  cases hp : parse_text text with
  | error e => simp only [hp] at h; simp at h
  | ok vp =>
    obtain ⟨vs, ps⟩ := vp
    simp only [hp] at h ⊢
    cases hb : buildPolys g (idToCoord vs) ps with
    | error e => simp only [hb] at h; exact Except.noConfusion h
    | ok bsp =>
      obtain ⟨berrs, sps⟩ := bsp
      simp only [hb] at h ⊢
      by_cases hpre : dupCoordErrors (idToCoord vs) ++ berrs ≠ []
      · rw [if_pos hpre] at h; simp at h
      · rw [if_neg hpre] at h ⊢
        by_cases hvs : vs.isEmpty = true
        · rw [if_pos hvs] at h; exact Except.noConfusion h
        · rw [if_neg hvs] at h ⊢
          injection h with h'
          rw [Prod.mk.injEq] at h'
          have hnil := of_decide_eq_true h'.1
          rw [List.append_eq_nil] at hnil
          obtain ⟨hnil, htil⟩ := hnil
          rw [List.append_eq_nil] at hnil
          obtain ⟨hnil, hgl⟩ := hnil
          rw [List.append_eq_nil] at hnil
          obtain ⟨hnil, hov⟩ := hnil
          rw [List.append_eq_nil] at hnil
          obtain ⟨hm, ht⟩ := hnil
          have he2 : multErrors ps ++
              touchErrors g (idToCoord vs) sps ++
              overlapErrors g sps t2 ++
              gapLeakErrors g (sps.map fun sp => sp.2.1)
                (boundingOf (pyMinL (vs.map fun v => v.2.1)) (pyMaxL (vs.map fun v => v.2.1))
                  (pyMinL (vs.map fun v => v.2.2)) (pyMaxL (vs.map fun v => v.2.2))) t2 ++
              tilingErrors g (sps.map fun sp => sp.2.1)
                (boundingOf (pyMinL (vs.map fun v => v.2.1)) (pyMaxL (vs.map fun v => v.2.1))
                  (pyMinL (vs.map fun v => v.2.2)) (pyMaxL (vs.map fun v => v.2.2))) t2 = [] := by
            rw [hm, ht, overlapErrors_nil_mono g sps h12 hov,
              gapLeakErrors_nil_mono g _ _ h12 hgl, tilingErrors_nil_mono g _ _ h12 htil]
            rfl
          rw [he2]
          simp

/-- C6: increasing the tolerance never invalidates a valid topology result
(for any geometry library), and for the concrete document `tGap`, whose
only defects are a gap of area 2 and the imperfect tiling it causes, the
result is invalid at the default tolerance and valid at tolerance 3. -/
theorem C6_tolerance_monotonicity :
    (∀ (g : GeoLib) (text : String) (t1 t2 : ℚ) (es : List String), t1 ≤ t2 →
      validate_cross_section_topology g text t1 = .ok (true, es) →
      validate_cross_section_topology g text t2 = .ok (true, [])) ∧
    validate_cross_section_topology rgeo tGap tol0 =
      .ok (false, [gapMsg 2, notRectMsg]) ∧
    validate_cross_section_topology rgeo tGap 3 = .ok (true, []) := by
  refine ⟨fun g text t1 t2 es h12 h => vt_tol_monotone g text t1 t2 es h12 h, ?_, ?_⟩ <;>
    with_unfolding_all rfl

/-- C6 (witness): the monotonicity part applied at tolerances `0 ≤ 1` to
the exactly-tiling square document. -/
theorem C6_witness :
    validate_cross_section_topology rgeo tSq 1 = .ok (true, []) := by
  exact C6_tolerance_monotonicity.1 rgeo tSq 0 1 [] (by norm_num)
    (by with_unfolding_all rfl)

/-! ## Claim C8 -/

theorem splitNlAux_cons_ne (c : Char) (cs cur : List Char) (hc : c ≠ '\n') :
    splitNlAux (c :: cs) cur = splitNlAux cs (c :: cur) := by
  simp [splitNlAux, hc]

theorem splitNlAux_no_nl (l : List Char) : ∀ (cur : List Char), '\n' ∉ cur →
    ∀ s ∈ splitNlAux l cur, '\n' ∉ s.data := by
  induction l with
  | nil =>
    intro cur hcur s hs
    simp only [splitNlAux, List.mem_singleton] at hs
    subst hs
    simpa using hcur
  | cons c cs ih =>
    intro cur hcur s hs
    by_cases hc : c = '\n'
    · subst hc
      simp only [splitNlAux, List.mem_cons] at hs
      rcases hs with rfl | hs
      · simpa using hcur
      · exact ih [] (by simp) s hs
    · rw [splitNlAux_cons_ne _ _ _ hc] at hs
      refine ih (c :: cur) ?_ s hs
      intro hmem
      rcases List.mem_cons.mp hmem with h | h
      · exact hc h.symm
      · exact hcur h

theorem splitNl_no_nl (s : String) : ∀ l ∈ splitNl s, '\n' ∉ l.data :=
  splitNlAux_no_nl s.data [] (by simp)

theorem splitNlAux_of_no_nl (l : List Char) : ∀ (cur : List Char), '\n' ∉ l →
    splitNlAux l cur = [String.mk (cur.reverse ++ l)] := by
  induction l with
  | nil => intro cur _; simp [splitNlAux]
  | cons c cs ih =>
    intro cur h
    have hc : c ≠ '\n' := fun hh => h (by simp [hh])
    rw [splitNlAux_cons_ne _ _ _ hc, ih (c :: cur) (fun hh => h (by simp [hh]))]
    simp

theorem splitNlAux_break (x : List Char) : ∀ (cur r : List Char), '\n' ∉ x →
    splitNlAux (x ++ '\n' :: r) cur =
      String.mk (cur.reverse ++ x) :: splitNlAux r [] := by
  induction x with
  | nil => intro cur r _; simp [splitNlAux]
  | cons c cs ih =>
    intro cur r h
    have hc : c ≠ '\n' := fun hh => h (by simp [hh])
    rw [List.cons_append, splitNlAux_cons_ne _ _ _ hc,
      ih (c :: cur) r (fun hh => h (by simp [hh]))]
    simp

/-- Joining newline-free lines with `"\n"` and splitting again is the
identity. -/
theorem splitNl_joinWith (ls : List String) (hne : ls ≠ [])
    (h : ∀ l ∈ ls, '\n' ∉ l.data) : splitNl (joinWith "\n" ls) = ls := by
  induction ls with
  | nil => exact absurd rfl hne
  | cons x ys ih =>
    cases ys with
    | nil =>
      simp only [joinWith, splitNl]
      rw [splitNlAux_of_no_nl x.data [] (h x (by simp))]
      simp [strExt]
    | cons y rest =>
      simp only [joinWith, splitNl]
      have hx : '\n' ∉ x.data := h x (by simp)
      have hdata : (x ++ "\n" ++ joinWith "\n" (y :: rest)).data =
          x.data ++ '\n' :: (joinWith "\n" (y :: rest)).data := by
        rw [strData_append, strData_append]
        have hnl : ("\n" : String).data = ['\n'] := by with_unfolding_all rfl
        rw [hnl, List.append_assoc]
        rfl
      rw [hdata, splitNlAux_break x.data [] _ hx]
      have := ih (by simp) (fun l hl => h l (by simp [hl]))
      simp only [splitNl] at this
      rw [this]
      simp

theorem clampLevel_bounds (z : ℤ) : 1 ≤ clampLevel z ∧ clampLevel z ≤ 6 := by
  unfold clampLevel
  omega

theorem dropWhile_all_append {p : Char → Bool} (l1 l2 : List Char)
    (h : ∀ c ∈ l1, p c = true) : (l1 ++ l2).dropWhile p = l2.dropWhile p := by
  induction l1 with
  | nil => rfl
  | cons c cs ih =>
    rw [List.cons_append, List.dropWhile_cons, if_pos (h c (by simp))]
    exact ih (fun c hc => h c (by simp [hc]))

theorem dropWhile_cons_false {p : Char → Bool} (c : Char) (l : List Char)
    (h : p c = false) : (c :: l).dropWhile p = c :: l := by
  rw [List.dropWhile_cons, if_neg (by simp [h])]

theorem takeWhile_replicate_append {p : Char → Bool} (k : ℕ) (a : Char) (r : List Char)
    (ha : p a = true) (hr : r.takeWhile p = []) :
    (List.replicate k a ++ r).takeWhile p = List.replicate k a := by
  induction k with
  | zero => simpa using hr
  | succ k ih =>
    rw [List.replicate_succ, List.cons_append, List.takeWhile_cons, if_pos ha, ih]

theorem takeWhile_mem_prop {p : Char → Bool} : ∀ (l : List Char) (c : Char),
    c ∈ l.takeWhile p → p c = true := by
  intro l
  induction l with
  | nil => intro c hc; simp at hc
  | cons x xs ih =>
    intro c hc
    rw [List.takeWhile_cons] at hc
    by_cases hx : p x = true
    · rw [if_pos (by simp [hx])] at hc
      rcases List.mem_cons.mp hc with rfl | hc
      · exact hx
      · exact ih c hc
    · rw [if_neg (by simpa using hx)] at hc
      simp at hc

theorem splitNlAux_ne_nil : ∀ (l cur : List Char), splitNlAux l cur ≠ [] := by
  intro l
  induction l with
  | nil => intro cur; simp [splitNlAux]
  | cons c cs ih =>
    intro cur
    by_cases hc : c = '\n'
    · subst hc; simp [splitNlAux]
    · rw [splitNlAux_cons_ne _ _ _ hc]; exact ih _

theorem splitNl_ne_nil (s : String) : splitNl s ≠ [] := splitNlAux_ne_nil s.data []

theorem filterMap_map_option {α β γ : Type} (g : β → γ) (f : α → Option β)
    (l : List α) : l.filterMap (fun x => (f x).map g) = (l.filterMap f).map g := by
  induction l with
  | nil => rfl
  | cons x xs ih =>
    cases hf : f x with
    | none => simp [List.filterMap_cons, hf, ih]
    | some b => simp [List.filterMap_cons, hf, ih]

theorem foldl_min_map (f : ℕ → ℕ) (hf : ∀ a b : ℕ, a ≤ b → f a ≤ f b) :
    ∀ (xs : List ℕ) (a : ℕ), List.foldl min (f a) (xs.map f) = f (List.foldl min a xs) := by
  intro xs
  induction xs with
  | nil => intro a; rfl
  | cons x ys ih =>
    intro a
    have hmin : min (f a) (f x) = f (min a x) := by
      rcases le_total a x with h | h
      · rw [min_eq_left (hf _ _ h), min_eq_left h]
      · rw [min_eq_right (hf _ _ h), min_eq_right h]
    simp only [List.map_cons, List.foldl_cons, hmin, ih]

theorem listMinN_map_mono (f : ℕ → ℕ) (hf : ∀ a b : ℕ, a ≤ b → f a ≤ f b) :
    ∀ (l : List ℕ), l ≠ [] → listMinN (l.map f) = f (listMinN l) := by
  intro l hl
  cases l with
  | nil => exact absurd rfl hl
  | cons x xs => exact foldl_min_map f hf xs x

theorem clampLevel_mono (off : ℤ) (a b : ℕ) (hab : a ≤ b) :
    clampLevel ((a : ℤ) + off) ≤ clampLevel ((b : ℤ) + off) := by
  unfold clampLevel
  omega

theorem takeWhile_all_append {p : Char → Bool} (l1 l2 : List Char)
    (h : ∀ c ∈ l1, p c = true) : (l1 ++ l2).takeWhile p = l1 ++ l2.takeWhile p := by
  induction l1 with
  | nil => rfl
  | cons c cs ih =>
    rw [List.cons_append, List.takeWhile_cons, if_pos (by simp [h c (by simp)]),
      ih (fun x hx => h x (by simp [hx])), List.cons_append]

theorem takeWhile_append_indep {p : Char → Bool} :
    ∀ (l X : List Char), l.takeWhile p ≠ l → (l ++ X).takeWhile p = l.takeWhile p
  | [], _, h => absurd rfl h
  | c :: t, X, h => by
    cases hp : p c with
    | true =>
      have ht : t.takeWhile p ≠ t := by
        intro he
        exact h (by rw [List.takeWhile_cons, if_pos (by simp [hp]), he])
      rw [List.cons_append, List.takeWhile_cons, if_pos (by simp [hp]),
        takeWhile_append_indep t X ht, List.takeWhile_cons, if_pos (by simp [hp])]
    | false =>
      rw [List.cons_append, List.takeWhile_cons, if_neg (by simp [hp]),
        List.takeWhile_cons, if_neg (by simp [hp])]

theorem dropWhile_append_indep {p : Char → Bool} :
    ∀ (l X : List Char), l.dropWhile p ≠ [] → (l ++ X).dropWhile p = l.dropWhile p ++ X
  | [], _, h => absurd rfl h
  | c :: t, X, h => by
    cases hp : p c with
    | true =>
      have ht : t.dropWhile p ≠ [] := by
        intro he
        exact h (by rw [List.dropWhile_cons, if_pos (by simp [hp]), he])
      rw [List.cons_append, List.dropWhile_cons, if_pos (by simp [hp]),
        dropWhile_append_indep t X ht, List.dropWhile_cons, if_pos (by simp [hp])]
    | false =>
      rw [List.cons_append, List.dropWhile_cons, if_neg (by simp [hp]),
        List.dropWhile_cons, if_neg (by simp [hp]), List.cons_append]

theorem takeWhile_length_split {p : Char → Bool} (l : List Char) :
    (l.takeWhile p).length + (l.dropWhile p).length = l.length := by
  rw [← List.length_append, List.takeWhile_append_dropWhile]

/-- Full characterization of a successful match attempt. -/
theorem mdMatchAt_some_elim (cs pre : List Char) (h : ℕ) (suf rest : List Char)
    (hm : mdMatchAt cs = some (pre, h, suf, rest)) :
    pre = cs.takeWhile pyWsChar ∧
    h = ((cs.dropWhile pyWsChar).takeWhile (fun c => c = '#')).length ∧
    1 ≤ h ∧ h ≤ 6 ∧
    suf = ((cs.dropWhile pyWsChar).dropWhile (fun c => c = '#')).takeWhile pyWsChar ++
      (((cs.dropWhile pyWsChar).dropWhile (fun c => c = '#')).dropWhile pyWsChar).takeWhile
        (fun x => x ≠ '\n') ∧
    rest = (((cs.dropWhile pyWsChar).dropWhile (fun c => c = '#')).dropWhile pyWsChar).dropWhile
      (fun x => x ≠ '\n') ∧
    ∃ c t, (cs.dropWhile pyWsChar).dropWhile (fun c => c = '#') = c :: t ∧ pyWsChar c = true := by
  unfold mdMatchAt at hm
  simp only [] at hm
  by_cases h0 : ((cs.dropWhile pyWsChar).takeWhile (fun c => c = '#')).length = 0 ∨
      6 < ((cs.dropWhile pyWsChar).takeWhile (fun c => c = '#')).length
  · rw [if_pos h0] at hm
    exact absurd hm (by simp)
  · rw [if_neg h0] at hm
    cases hr2 : (cs.dropWhile pyWsChar).dropWhile (fun c => c = '#') with
    | nil =>
      rw [hr2] at hm
      exact absurd hm (by simp)
    | cons c t =>
      rw [hr2] at hm
      simp only [] at hm
      by_cases hw : pyWsChar c = true
      · rw [if_pos hw] at hm
        have hinj := Option.some.inj hm
        obtain ⟨hpre, hrest'⟩ := Prod.mk.injEq .. |>.mp hinj
        obtain ⟨hh, hrest''⟩ := Prod.mk.injEq .. |>.mp hrest'
        obtain ⟨hsuf, hrest⟩ := Prod.mk.injEq .. |>.mp hrest''
        exact ⟨hpre.symm, hh.symm, by omega, by omega, hsuf.symm, hrest.symm, c, t, rfl, hw⟩
      · rw [if_neg hw] at hm
        exact absurd hm (by simp)

/-- Characterization of a failed match attempt: it depends only on the
text after the leading whitespace run. -/
theorem mdMatchAt_none_iff (cs : List Char) :
    mdMatchAt cs = none ↔
      (((cs.dropWhile pyWsChar).takeWhile (fun c => c = '#')).length = 0 ∨
       6 < ((cs.dropWhile pyWsChar).takeWhile (fun c => c = '#')).length ∨
       (cs.dropWhile pyWsChar).dropWhile (fun c => c = '#') = [] ∨
       ∃ c t, (cs.dropWhile pyWsChar).dropWhile (fun c => c = '#') = c :: t ∧
         pyWsChar c = false) := by
  unfold mdMatchAt
  simp only []
  by_cases h0 : ((cs.dropWhile pyWsChar).takeWhile (fun c => c = '#')).length = 0 ∨
      6 < ((cs.dropWhile pyWsChar).takeWhile (fun c => c = '#')).length
  · rw [if_pos h0]
    simp only [true_iff]
    rcases h0 with h0 | h0
    · exact Or.inl h0
    · exact Or.inr (Or.inl h0)
  · rw [if_neg h0]
    push_neg at h0
    cases hr2 : (cs.dropWhile pyWsChar).dropWhile (fun c => c = '#') with
    | nil => simp [h0.1]
    | cons c t =>
      simp only []
      by_cases hw : pyWsChar c = true
      · rw [if_pos hw]
        simp only [reduceCtorEq, false_iff]
        push_neg
        refine ⟨h0.1, h0.2, by simp, ?_⟩
        intro c' t' he
        injection he with h1 _
        subst h1
        rw [hw]
        simp
      · rw [if_neg hw]
        simp only [true_iff]
        exact Or.inr (Or.inr (Or.inr ⟨c, t, rfl, by simpa using hw⟩))

theorem mdMatchAt_none_congr (a b : List Char)
    (h : a.dropWhile pyWsChar = b.dropWhile pyWsChar) :
    mdMatchAt a = none ↔ mdMatchAt b = none := by
  rw [mdMatchAt_none_iff, mdMatchAt_none_iff, h]

theorem mdMatchAt_nil : mdMatchAt [] = none := rfl

/-- A match consumes at least its hash run. -/
theorem mdMatchAt_rest_len (cs pre : List Char) (h : ℕ) (suf rest : List Char)
    (hm : mdMatchAt cs = some (pre, h, suf, rest)) : rest.length < cs.length := by
  obtain ⟨-, hh, h1, -, -, hrest, -⟩ := mdMatchAt_some_elim cs pre h suf rest hm
  have e1 := takeWhile_length_split (p := pyWsChar) cs
  have e2 := takeWhile_length_split (p := fun c => c = '#') (cs.dropWhile pyWsChar)
  have e3 := takeWhile_length_split (p := pyWsChar)
    ((cs.dropWhile pyWsChar).dropWhile (fun c => c = '#'))
  have e4 := takeWhile_length_split (p := fun x => x ≠ '\n')
    (((cs.dropWhile pyWsChar).dropWhile (fun c => c = '#')).dropWhile pyWsChar)
  have e5 : rest.length =
      ((((cs.dropWhile pyWsChar).dropWhile (fun c => c = '#')).dropWhile
        pyWsChar).dropWhile (fun x => x ≠ '\n')).length := by rw [hrest]
  omega

theorem mdScanAux_succ_cons (fuel : ℕ) (c : Char) (cs : List Char) :
    mdScanAux (fuel + 1) (c :: cs) =
      (match mdMatchAt (c :: cs) with
       | some (pre, h, suf, rest) =>
         .hit pre h suf ::
           (match rest with
            | [] => []
            | nl :: more => .txt [nl] :: mdScanAux fuel more)
       | none =>
         match (c :: cs).dropWhile (fun x => x ≠ '\n') with
         | [] => [.txt (c :: cs)]
         | nl :: more =>
           .txt ((c :: cs).takeWhile (fun x => x ≠ '\n') ++ [nl]) :: mdScanAux fuel more) := rfl

/-- The scan is independent of the fuel once the fuel exceeds the text
length. -/
theorem mdScanAux_fuel : ∀ (f g : ℕ) (cs : List Char), cs.length < f → cs.length < g →
    mdScanAux f cs = mdScanAux g cs := by
  intro f
  induction f with
  | zero => intro g cs hf; omega
  | succ f ih =>
    intro g cs hf hg
    cases g with
    | zero => omega
    | succ g =>
      cases cs with
      | nil => rfl
      | cons c cs' =>
        have hcc : (c :: cs').length = cs'.length + 1 := rfl
        rw [mdScanAux_succ_cons f, mdScanAux_succ_cons g]
        cases hm : mdMatchAt (c :: cs') with
        | some q =>
          obtain ⟨pre, h, suf, rest⟩ := q
          simp only []
          cases hr : rest with
          | nil => rfl
          | cons nl more =>
            have hlen := mdMatchAt_rest_len (c :: cs') pre h suf (nl :: more) (by rw [← hr]; exact hm)
            have hml : (nl :: more).length = more.length + 1 := rfl
            simp only []
            rw [ih g more (by omega) (by omega)]
        | none =>
          simp only []
          cases hd : (c :: cs').dropWhile (fun x => x ≠ '\n') with
          | nil => rfl
          | cons nl more =>
            have e1 := takeWhile_length_split (p := fun x => x ≠ '\n') (c :: cs')
            have hml : more.length + 1 = ((c :: cs').dropWhile (fun x => x ≠ '\n')).length := by
              rw [hd]
              rfl
            simp only []
            rw [ih g more (by omega) (by omega)]

theorem mdSegs_match (cs pre : List Char) (h : ℕ) (suf rest : List Char)
    (hm : mdMatchAt cs = some (pre, h, suf, rest)) :
    mdSegs cs = .hit pre h suf ::
      (match rest with
       | [] => []
       | nl :: more => .txt [nl] :: mdSegs more) := by
  cases cs with
  | nil => exact absurd hm (by rw [mdMatchAt_nil]; simp)
  | cons c cs' =>
    show mdScanAux ((c :: cs').length + 1) (c :: cs') = _
    simp only [List.length_cons]
    rw [mdScanAux_succ_cons, hm]
    simp only []
    cases hr : rest with
    | nil => rfl
    | cons nl more =>
      have hlen := mdMatchAt_rest_len (c :: cs') pre h suf rest hm
      rw [hr] at hlen
      simp only [List.length_cons] at hlen
      simp only []
      rw [mdScanAux_fuel (cs'.length + 1) (more.length + 1) more (by omega) (by omega)]
      rfl

theorem mdSegs_skip (cs : List Char) (hm : mdMatchAt cs = none) (hne : cs ≠ []) :
    mdSegs cs =
      (match cs.dropWhile (fun x => x ≠ '\n') with
       | [] => [.txt cs]
       | nl :: more => .txt (cs.takeWhile (fun x => x ≠ '\n') ++ [nl]) :: mdSegs more) := by
  cases cs with
  | nil => exact absurd rfl hne
  | cons c cs' =>
    show mdScanAux ((c :: cs').length + 1) (c :: cs') = _
    simp only [List.length_cons]
    rw [mdScanAux_succ_cons, hm]
    simp only []
    cases hd : (c :: cs').dropWhile (fun x => x ≠ '\n') with
    | nil => rfl
    | cons nl more =>
      have hlen : more.length + 1 ≤ cs'.length + 1 := by
        have e1 := takeWhile_length_split (p := fun x => x ≠ '\n') (c :: cs')
        rw [hd] at e1
        simp only [List.length_cons] at e1
        omega
      simp only []
      rw [mdScanAux_fuel (cs'.length + 1) (more.length + 1) more (by omega) (by omega)]
      rfl

theorem mdSegs_nil : mdSegs [] = [] := rfl

/-- Structural invariants of the groups of a successful match. -/
theorem mdMatchAt_inv (cs pre : List Char) (h : ℕ) (suf rest : List Char)
    (hm : mdMatchAt cs = some (pre, h, suf, rest)) :
    (∀ c ∈ pre, pyWsChar c = true) ∧ 1 ≤ h ∧ h ≤ 6 ∧
    (∃ wsr content, suf = wsr ++ content ∧ wsr ≠ [] ∧
      (∀ c ∈ wsr, pyWsChar c = true) ∧ (∀ c ∈ content, c ≠ '\n') ∧
      (∀ c t', content = c :: t' → pyWsChar c = false) ∧
      (content = [] → rest = [])) ∧
    (rest = [] ∨ ∃ m, rest = '\n' :: m) := by
  obtain ⟨hpre, hh, hl1, hl6, hsuf, hrest, c0, t0, hr2, hw0⟩ :=
    mdMatchAt_some_elim cs pre h suf rest hm
  have hr3 : ((cs.dropWhile pyWsChar).dropWhile (fun c => c = '#')).dropWhile pyWsChar =
      (c0 :: t0).dropWhile pyWsChar := by rw [hr2]
  refine ⟨?_, hl1, hl6,
    ⟨((cs.dropWhile pyWsChar).dropWhile (fun c => c = '#')).takeWhile pyWsChar,
     (((cs.dropWhile pyWsChar).dropWhile (fun c => c = '#')).dropWhile pyWsChar).takeWhile
       (fun x => x ≠ '\n'), hsuf, ?_, ?_, ?_, ?_, ?_⟩, ?_⟩
  · intro c hc
    rw [hpre] at hc
    exact List.mem_takeWhile_imp hc
  · rw [hr2, List.takeWhile_cons, if_pos (by simp [hw0])]
    simp
  · intro c hc
    exact List.mem_takeWhile_imp hc
  · intro c hc
    have hp := List.mem_takeWhile_imp hc
    simpa using hp
  · intro c t' hct
    rcases hR3 : ((cs.dropWhile pyWsChar).dropWhile (fun c => c = '#')).dropWhile pyWsChar with
      _ | ⟨a, r⟩
    · rw [hR3] at hct
      exact absurd hct.symm (by simp)
    · have ha := dropWhile_head_false _ a r hR3
      rw [hR3, List.takeWhile_cons] at hct
      by_cases han : a = '\n'
      · rw [if_neg (by simp [han])] at hct
        exact absurd hct.symm (by simp)
      · rw [if_pos (by simp [han])] at hct
        injection hct with h1 _
        subst h1
        exact ha
  · intro hce
    rw [hrest]
    rcases hR3 : ((cs.dropWhile pyWsChar).dropWhile (fun c => c = '#')).dropWhile pyWsChar with
      _ | ⟨a, r⟩
    · rfl
    · exfalso
      have ha := dropWhile_head_false _ a r hR3
      have han : a ≠ '\n' := by
        intro he
        rw [he] at ha
        exact absurd ha (by decide)
      rw [hR3, List.takeWhile_cons, if_pos (by simp [han])] at hce
      exact List.noConfusion hce
  · rw [hrest]
    cases hd : (((cs.dropWhile pyWsChar).dropWhile (fun c => c = '#')).dropWhile
        pyWsChar).dropWhile (fun x => x ≠ '\n') with
    | nil => exact Or.inl rfl
    | cons d m =>
      have hdf := dropWhile_head_false _ d m hd
      have hdn : d = '\n' := by simpa using hdf
      subst hdn
      exact Or.inr ⟨m, rfl⟩

/-- Introduction form of a successful match from its takeWhile/dropWhile
decomposition. -/
theorem mdMatchAt_some_intro (cs pre : List Char) (h' : ℕ) (w0 : Char)
    (tail wsr content R : List Char)
    (h1 : cs.takeWhile pyWsChar = pre)
    (h2 : ((cs.dropWhile pyWsChar).takeWhile (fun c => c = '#')).length = h')
    (hl1 : 1 ≤ h') (hl6 : h' ≤ 6)
    (h3 : (cs.dropWhile pyWsChar).dropWhile (fun c => c = '#') = w0 :: tail)
    (hw : pyWsChar w0 = true)
    (h4 : (w0 :: tail).takeWhile pyWsChar = wsr)
    (h5 : ((w0 :: tail).dropWhile pyWsChar).takeWhile (fun x => x ≠ '\n') = content)
    (h6 : ((w0 :: tail).dropWhile pyWsChar).dropWhile (fun x => x ≠ '\n') = R) :
    mdMatchAt cs = some (pre, h', wsr ++ content, R) := by
  unfold mdMatchAt
  simp only []
  rw [h3]
  simp only []
  rw [h2, if_neg (by omega), if_pos hw, h1, h4, h5, h6]

/-- Rebuilding a match whose hash run has been replaced by `h'` hashes
(`1 ≤ h' ≤ 6`) matches again with the same groups. -/
theorem mdMatchAt_rebuild (pre : List Char) (h' : ℕ) (wsr content R : List Char)
    (hpre : ∀ c ∈ pre, pyWsChar c = true) (hl1 : 1 ≤ h') (hl6 : h' ≤ 6)
    (hwsr : wsr ≠ []) (hwsrw : ∀ c ∈ wsr, pyWsChar c = true)
    (hcont : ∀ c ∈ content, c ≠ '\n')
    (hchead : ∀ c t', content = c :: t' → pyWsChar c = false)
    (hcr : content = [] → R = [])
    (hRs : R = [] ∨ ∃ m, R = '\n' :: m) :
    mdMatchAt (pre ++ List.replicate h' '#' ++ (wsr ++ content) ++ R) =
      some (pre, h', wsr ++ content, R) := by
  obtain ⟨w0, wt, hwsr0⟩ : ∃ w0 wt, wsr = w0 :: wt := by
    cases wsr
    · exact absurd rfl hwsr
    · exact ⟨_, _, rfl⟩
  have hw0 : pyWsChar w0 = true := hwsrw w0 (by rw [hwsr0]; simp)
  have hw0h : w0 ≠ '#' := by
    intro he
    rw [he] at hw0
    exact absurd hw0 (by decide)
  have hrep : List.replicate h' '#' = '#' :: List.replicate (h' - 1) '#' := by
    cases h' with
    | zero => omega
    | succ k => simp [List.replicate_succ]
  have e2 : (pre ++ List.replicate h' '#' ++ (wsr ++ content) ++ R).dropWhile pyWsChar =
      List.replicate h' '#' ++ ((wsr ++ content) ++ R) := by
    rw [List.append_assoc, List.append_assoc, dropWhile_all_append pre _ hpre, hrep,
      List.cons_append, List.dropWhile_cons, if_neg (by decide), ← List.cons_append, ← hrep]
  have e1 : (pre ++ List.replicate h' '#' ++ (wsr ++ content) ++ R).takeWhile pyWsChar = pre := by
    rw [List.append_assoc, List.append_assoc, takeWhile_all_append pre _ hpre, hrep,
      List.cons_append, List.takeWhile_cons, if_neg (by decide), List.append_nil]
  have e3 : (List.replicate h' '#' ++ ((wsr ++ content) ++ R)).takeWhile (fun c => c = '#') =
      List.replicate h' '#' := by
    apply takeWhile_replicate_append
    · simp
    · rw [hwsr0, List.cons_append, List.cons_append, List.takeWhile_cons,
        if_neg (by simp [hw0h])]
  have e4 : (List.replicate h' '#' ++ ((wsr ++ content) ++ R)).dropWhile (fun c => c = '#') =
      w0 :: ((wt ++ content) ++ R) := by
    rw [dropWhile_all_append _ _ (by intro c hc; simp [List.eq_of_mem_replicate hc]),
      hwsr0, List.cons_append, List.cons_append, dropWhile_cons_false _ _ (by simp [hw0h])]
  have hcw : (content ++ R).takeWhile pyWsChar = [] := by
    cases hcc : content with
    | nil =>
      rw [hcr hcc]
      rfl
    | cons a r =>
      have ha := hchead a r hcc
      rw [List.cons_append, List.takeWhile_cons, if_neg (by simp [ha])]
  have hdw : (content ++ R).dropWhile pyWsChar = content ++ R := by
    cases hcc : content with
    | nil =>
      rw [hcr hcc]
      rfl
    | cons a r =>
      have ha := hchead a r hcc
      rw [List.cons_append, dropWhile_cons_false _ _ ha, ← List.cons_append]
  have e5 : (w0 :: ((wt ++ content) ++ R)).takeWhile pyWsChar = wsr := by
    have hx : (w0 :: ((wt ++ content) ++ R)) = (w0 :: wt) ++ (content ++ R) := by simp
    rw [hx, takeWhile_all_append _ _ (by rw [← hwsr0]; exact hwsrw), hcw, List.append_nil]
    exact hwsr0.symm
  have e6 : (w0 :: ((wt ++ content) ++ R)).dropWhile pyWsChar = content ++ R := by
    have hx : (w0 :: ((wt ++ content) ++ R)) = (w0 :: wt) ++ (content ++ R) := by simp
    rw [hx, dropWhile_all_append _ _ (by rw [← hwsr0]; exact hwsrw), hdw]
  have e7 : (content ++ R).takeWhile (fun x => x ≠ '\n') = content := by
    rw [takeWhile_all_append content _ (by intro c hc; simp [hcont c hc])]
    rcases hRs with hR0 | ⟨m, hm'⟩
    · rw [hR0]
      simp
    · rw [hm', List.takeWhile_cons, if_neg (by simp), List.append_nil]
  have e8 : (content ++ R).dropWhile (fun x => x ≠ '\n') = R := by
    rw [dropWhile_all_append content _ (by intro c hc; simp [hcont c hc])]
    rcases hRs with hR0 | ⟨m, hm'⟩
    · rw [hR0]
      rfl
    · rw [hm', dropWhile_cons_false _ _ (by simp)]
  apply mdMatchAt_some_intro _ pre h' w0 ((wt ++ content) ++ R) wsr content R e1
  · rw [e2, e3, List.length_replicate]
  · exact hl1
  · exact hl6
  · rw [e2, e4]
  · exact hw0
  · exact e5
  · rw [e6, e7]
  · rw [e6, e8]

theorem all_of_dropWhile_nil {p : Char → Bool} (l : List Char) (h : l.dropWhile p = []) :
    ∀ c ∈ l, p c = true := by
  intro c hc
  have hsp := List.takeWhile_append_dropWhile (p := p) (l := l)
  rw [h, List.append_nil] at hsp
  rw [← hsp] at hc
  exact List.mem_takeWhile_imp hc

/-- For a line containing a non-whitespace character, the match decision
at its line start does not depend on the following lines. -/
theorem mdMatchAt_line_local (line T T' : List Char)
    (hnw : line.dropWhile pyWsChar ≠ [])
    (hnone : mdMatchAt (line ++ '\n' :: T) = none) :
    mdMatchAt (line ++ '\n' :: T') = none := by
  have hdw : ∀ X : List Char,
      (line ++ '\n' :: X).dropWhile pyWsChar = line.dropWhile pyWsChar ++ '\n' :: X :=
    fun X => dropWhile_append_indep line ('\n' :: X) hnw
  by_cases hall : (line.dropWhile pyWsChar).takeWhile (fun c => c = '#') =
      line.dropWhile pyWsChar
  · -- the text after the leading whitespace is a pure hash run
    have hallh : ∀ c ∈ line.dropWhile pyWsChar, (fun c => decide (c = '#')) c = true := by
      intro c hc
      rw [← hall] at hc
      exact List.mem_takeWhile_imp (p := fun c => decide (c = '#')) hc
    have hts : ∀ X : List Char,
        ((line.dropWhile pyWsChar ++ '\n' :: X).takeWhile (fun c => c = '#')).length =
          (line.dropWhile pyWsChar).length := by
      intro X
      rw [takeWhile_all_append _ _ hallh, List.takeWhile_cons, if_neg (by simp),
        List.append_nil]
    have hlen6 : 6 < (line.dropWhile pyWsChar).length := by
      rcases (mdMatchAt_none_iff (line ++ '\n' :: T)).mp hnone with h0 | h0 | h0 | h0
      · rw [hdw, hts] at h0
        exact absurd (List.length_eq_zero.mp h0) hnw
      · rwa [hdw, hts] at h0
      · rw [hdw, dropWhile_all_append _ _ hallh,
          dropWhile_cons_false _ _ (by simp)] at h0
        exact absurd h0 (by simp)
      · obtain ⟨c, t, heq, hwf⟩ := h0
        rw [hdw, dropWhile_all_append _ _ hallh,
          dropWhile_cons_false _ _ (by simp)] at heq
        injection heq with h1 _
        subst h1
        exact absurd hwf (by decide)
    rw [mdMatchAt_none_iff, hdw, hts]
    exact Or.inr (Or.inl hlen6)
  · -- the hash run stops inside the line
    have hdne : (line.dropWhile pyWsChar).dropWhile (fun c => c = '#') ≠ [] := by
      intro he
      apply hall
      have hsp := List.takeWhile_append_dropWhile (p := fun c => decide (c = '#'))
        (l := line.dropWhile pyWsChar)
      rw [he, List.append_nil] at hsp
      exact hsp
    have hts : ∀ X : List Char,
        (line.dropWhile pyWsChar ++ '\n' :: X).takeWhile (fun c => c = '#') =
          (line.dropWhile pyWsChar).takeWhile (fun c => c = '#') :=
      fun X => takeWhile_append_indep _ ('\n' :: X) hall
    have hds : ∀ X : List Char,
        (line.dropWhile pyWsChar ++ '\n' :: X).dropWhile (fun c => c = '#') =
          (line.dropWhile pyWsChar).dropWhile (fun c => c = '#') ++ '\n' :: X :=
      fun X => dropWhile_append_indep _ ('\n' :: X) hdne
    obtain ⟨e0, et, hed⟩ : ∃ e0 et, (line.dropWhile pyWsChar).dropWhile (fun c => c = '#') =
        e0 :: et := by
      cases hc : (line.dropWhile pyWsChar).dropWhile (fun c => c = '#')
      · exact absurd hc hdne
      · exact ⟨_, _, rfl⟩
    rw [mdMatchAt_none_iff, hdw, hts, hds, hed]
    rcases (mdMatchAt_none_iff (line ++ '\n' :: T)).mp hnone with h0 | h0 | h0 | h0
    · rw [hdw, hts] at h0
      exact Or.inl h0
    · rw [hdw, hts] at h0
      exact Or.inr (Or.inl h0)
    · rw [hdw, hds, hed] at h0
      exact absurd h0 (by simp)
    · obtain ⟨c, t, heq, hwf⟩ := h0
      rw [hdw, hds, hed] at heq
      rw [List.cons_append] at heq
      injection heq with h1 _
      subst h1
      exact Or.inr (Or.inr (Or.inr ⟨e0, et ++ '\n' :: T', by rw [List.cons_append], hwf⟩))

/-- Rescanning the rendered, shifted segment list reproduces the shifted
segments, and a failed match at a scan position stays failed after the
shift is applied to the remaining text. -/
theorem mdSegs_render (off : ℤ) : ∀ (n : ℕ) (cs : List Char), cs.length ≤ n →
    mdSegs (mdRender ((mdSegs cs).map (shiftSeg off))) = (mdSegs cs).map (shiftSeg off) ∧
    (mdMatchAt cs = none →
      mdMatchAt (mdRender ((mdSegs cs).map (shiftSeg off))) = none) := by
  intro n
  induction n with
  | zero =>
    intro cs hlen
    have hcs : cs = [] := List.length_eq_zero.mp (Nat.le_antisymm hlen (Nat.zero_le _))
    subst hcs
    exact ⟨rfl, fun _ => rfl⟩
  | succ n ih =>
    intro cs hlen
    cases cs with
    | nil => exact ⟨rfl, fun _ => rfl⟩
    | cons c0 cs0 =>
      cases hm : mdMatchAt (c0 :: cs0) with
      | some q =>
        obtain ⟨pre, h, suf, rest⟩ := q
        refine ⟨?_, fun hc => absurd hc (by simp)⟩
        obtain ⟨hpre, hl1, hl6, ⟨wsr, content, hsufd, hwsrne, hwsrw, hcont, hchead, hcr⟩,
          hRshape⟩ := mdMatchAt_inv (c0 :: cs0) pre h suf rest hm
        have hsegs := mdSegs_match (c0 :: cs0) pre h suf rest hm
        obtain ⟨hcl1, hcl6⟩ := clampLevel_bounds ((h : ℤ) + off)
        rcases hRshape with hr0 | ⟨m, hrm⟩
        · subst hr0
          simp only [] at hsegs
          have hmm' := mdMatchAt_rebuild pre (clampLevel ((h : ℤ) + off)) wsr content []
            hpre hcl1 hcl6 hwsrne hwsrw hcont hchead (fun _ => rfl) (Or.inl rfl)
          rw [List.append_nil] at hmm'
          rw [hsegs]
          simp only [List.map_cons, List.map_nil, shiftSeg, mdRender, List.append_nil]
          rw [hsufd, mdSegs_match _ _ _ _ _ hmm']
        · subst hrm
          simp only [] at hsegs
          have hrl := mdMatchAt_rest_len (c0 :: cs0) pre h suf ('\n' :: m) hm
          have hlen' : m.length ≤ n := by
            have hb1 : ('\n' :: m).length = m.length + 1 := rfl
            have hb2 : (c0 :: cs0).length = cs0.length + 1 := rfl
            omega
          obtain ⟨ihA, ihB⟩ := ih m hlen'
          have hmm' := mdMatchAt_rebuild pre (clampLevel ((h : ℤ) + off)) wsr content
            ('\n' :: mdRender ((mdSegs m).map (shiftSeg off)))
            hpre hcl1 hcl6 hwsrne hwsrw hcont hchead
            (fun hce => absurd (hcr hce) (by simp))
            (Or.inr ⟨mdRender ((mdSegs m).map (shiftSeg off)), rfl⟩)
          rw [hsegs]
          simp only [List.map_cons, shiftSeg, mdRender, List.singleton_append]
          rw [hsufd, mdSegs_match _ _ _ _ _ hmm']
          simp only []
          rw [ihA]
      | none =>
        have hne : (c0 :: cs0) ≠ [] := by simp
        have hsegs := mdSegs_skip (c0 :: cs0) hm hne
        cases hd : (c0 :: cs0).dropWhile (fun x => x ≠ '\n') with
        | nil =>
          rw [hd] at hsegs
          simp only [] at hsegs
          refine ⟨?_, fun _ => ?_⟩
          · rw [hsegs]
            simp only [List.map_cons, List.map_nil, shiftSeg, mdRender, List.append_nil]
            exact hsegs
          · rw [hsegs]
            simp only [List.map_cons, List.map_nil, shiftSeg, mdRender, List.append_nil]
            exact hm
        | cons nl more =>
          have hnl : nl = '\n' := by
            have hf := dropWhile_head_false (p := fun x => decide (x ≠ '\n')) _ nl more hd
            simpa using hf
          subst hnl
          rw [hd] at hsegs
          simp only [] at hsegs
          have hdecomp : c0 :: cs0 =
              (c0 :: cs0).takeWhile (fun x => x ≠ '\n') ++ '\n' :: more := by
            rw [← hd, List.takeWhile_append_dropWhile]
          have hlen' : more.length ≤ n := by
            have e1 := takeWhile_length_split (p := fun x => x ≠ '\n') (c0 :: cs0)
            rw [hd] at e1
            have hb1 : ('\n' :: more).length = more.length + 1 := rfl
            have hb2 : (c0 :: cs0).length = cs0.length + 1 := rfl
            omega
          obtain ⟨ihA, ihB⟩ := ih more hlen'
          have hlineT : ∀ c ∈ (c0 :: cs0).takeWhile (fun x => x ≠ '\n'),
              (fun x => decide (x ≠ '\n')) c = true := by
            intro c hc
            exact List.mem_takeWhile_imp (p := fun x => decide (x ≠ '\n')) hc
          have hBkey : mdMatchAt ((c0 :: cs0).takeWhile (fun x => x ≠ '\n') ++
              '\n' :: mdRender ((mdSegs more).map (shiftSeg off))) = none := by
            by_cases hzw : ((c0 :: cs0).takeWhile (fun x => x ≠ '\n')).dropWhile pyWsChar = []
            · have hlinews : ∀ c ∈ (c0 :: cs0).takeWhile (fun x => x ≠ '\n'),
                  pyWsChar c = true := all_of_dropWhile_nil _ hzw
              have hlinews' : ∀ c ∈ (c0 :: cs0).takeWhile (fun x => x ≠ '\n') ++ ['\n'],
                  pyWsChar c = true := by
                intro c hc
                rcases List.mem_append.mp hc with hc | hc
                · exact hlinews c hc
                · simp only [List.mem_singleton] at hc
                  subst hc
                  decide
              have hcongr1 : ((c0 :: cs0).takeWhile (fun x => x ≠ '\n') ++
                  '\n' :: more).dropWhile pyWsChar = more.dropWhile pyWsChar := by
                rw [List.append_cons]
                exact dropWhile_all_append _ more hlinews'
              have hmore : mdMatchAt more = none :=
                (mdMatchAt_none_congr _ more hcongr1).mp (by rw [← hdecomp]; exact hm)
              have hcongr2 : ((c0 :: cs0).takeWhile (fun x => x ≠ '\n') ++
                  '\n' :: mdRender ((mdSegs more).map (shiftSeg off))).dropWhile pyWsChar =
                  (mdRender ((mdSegs more).map (shiftSeg off))).dropWhile pyWsChar := by
                rw [List.append_cons]
                exact dropWhile_all_append _ _ hlinews'
              exact (mdMatchAt_none_congr _ _ hcongr2).mpr (ihB hmore)
            · exact mdMatchAt_line_local _ more _ hzw (by rw [← hdecomp]; exact hm)
          have hsegs2 : mdSegs ((c0 :: cs0).takeWhile (fun x => x ≠ '\n') ++
              '\n' :: mdRender ((mdSegs more).map (shiftSeg off))) =
              .txt ((c0 :: cs0).takeWhile (fun x => x ≠ '\n') ++ ['\n']) ::
                mdSegs (mdRender ((mdSegs more).map (shiftSeg off))) := by
            have hne2 : (c0 :: cs0).takeWhile (fun x => x ≠ '\n') ++
                '\n' :: mdRender ((mdSegs more).map (shiftSeg off)) ≠ [] := by simp
            rw [mdSegs_skip _ hBkey hne2]
            have hdw2 : ((c0 :: cs0).takeWhile (fun x => x ≠ '\n') ++
                '\n' :: mdRender ((mdSegs more).map (shiftSeg off))).dropWhile
                  (fun x => x ≠ '\n') =
                '\n' :: mdRender ((mdSegs more).map (shiftSeg off)) := by
              rw [dropWhile_all_append _ _ hlineT, dropWhile_cons_false _ _ (by decide)]
            have htw2 : ((c0 :: cs0).takeWhile (fun x => x ≠ '\n') ++
                '\n' :: mdRender ((mdSegs more).map (shiftSeg off))).takeWhile
                  (fun x => x ≠ '\n') =
                (c0 :: cs0).takeWhile (fun x => x ≠ '\n') := by
              have h0 : ('\n' :: mdRender ((mdSegs more).map (shiftSeg off))).takeWhile
                  (fun x => x ≠ '\n') = [] := by
                rw [List.takeWhile_cons, if_neg (by decide)]
              rw [takeWhile_all_append _ _ hlineT, h0, List.append_nil]
            rw [hdw2]
            simp only []
            rw [htw2]
          refine ⟨?_, fun _ => ?_⟩
          · rw [hsegs]
            simp only [List.map_cons, shiftSeg, mdRender]
            rw [List.append_assoc, List.singleton_append, hsegs2, ihA]
          · rw [hsegs]
            simp only [List.map_cons, shiftSeg, mdRender]
            rw [List.append_assoc, List.singleton_append]
            exact hBkey

theorem filterMap_shift (off : ℤ) (ss : List MdSeg) :
    (ss.map (shiftSeg off)).filterMap segLevel =
      (ss.filterMap segLevel).map (fun h : ℕ => clampLevel ((h : ℤ) + off)) := by
  induction ss with
  | nil => rfl
  | cons s ss ih =>
    cases s with
    | txt t => simpa [List.filterMap_cons, shiftSeg, segLevel] using ih
    | hit pre h suf => simp [List.filterMap_cons, shiftSeg, segLevel, ih]

theorem clampLevel_eq_self (z : ℤ) (h1 : 1 ≤ z) (h6 : z ≤ 6) : (clampLevel z : ℤ) = z := by
  unfold clampLevel
  omega

theorem mdLevels_eq (md : String) : (mdSegs md.data).filterMap segLevel = mdLevels md := rfl

theorem mdLevels_mk (cs : List Char) :
    mdLevels (String.mk cs) = (mdSegs cs).filterMap segLevel := rfl

/-- **C8, counterexample to the claimed per-line reading.** The source
pattern is applied with `re.MULTILINE` and its `\s+` after the hash run
also matches `'\n'`.  In `"##\nfoo"` no single line is a heading under
the per-line reading (`lineHeadingLevel` is `none` on both lines), yet
the program finds a match spanning the newline and returns the text
unchanged instead of raising "No Markdown headers found".  In
`"# A\n##\n### B"` the line `"### B"` is a level-3 heading under the
per-line reading, but it is swallowed into the previous match's suffix
group and comes back unshifted while the other headings move. -/
theorem C8_counterexample :
    (splitNl "##\nfoo" = ["##", "foo"] ∧
     lineHeadingLevel "##" = none ∧ lineHeadingLevel "foo" = none ∧
     adjust_markdown_headers "##\nfoo" 2 = .ok "##\nfoo") ∧
    (lineHeadingLevel "### B" = some 3 ∧
     adjust_markdown_headers "# A\n##\n### B" 2 = .ok "## A\n###\n### B") := by
  exact ⟨⟨by with_unfolding_all rfl, by with_unfolding_all rfl, by with_unfolding_all rfl,
    by with_unfolding_all rfl⟩, by with_unfolding_all rfl, by with_unfolding_all rfl⟩

/-- **C8 (amended).** `adjust_markdown_headers` succeeds exactly when the
desired level is in `1..6` and the multiline pattern finds at least one
match in the text (a match's `\s+` may consume the newline after the
hash run, so a bare hash line followed by another line counts, and the
following line is absorbed into the suffix).  On success, the output's
match levels are the input's match levels each shifted by
`level - min depth` and clamped to `1..6`, and the minimum output match
level equals the requested level. -/
theorem C8_amended (md : String) (level : ℤ) :
    ((∃ s, adjust_markdown_headers md level = .ok s) ↔
      ((1 ≤ level ∧ level ≤ 6) ∧ mdLevels md ≠ [])) ∧
    ∀ s, adjust_markdown_headers md level = .ok s →
      mdLevels s =
        (mdLevels md).map
          (fun h : ℕ => clampLevel ((h : ℤ) + (level - (listMinN (mdLevels md) : ℤ)))) ∧
      (listMinN (mdLevels s) : ℤ) = level := by
  constructor
  · constructor
    · rintro ⟨s, hs⟩
      unfold adjust_markdown_headers at hs
      simp only [] at hs
      by_cases hr : 1 ≤ level ∧ level ≤ 6
      · rw [if_neg (not_not_intro hr)] at hs
        by_cases hl : mdLevels md = []
        · rw [if_pos hl] at hs
          exact absurd hs (by simp)
        · exact ⟨hr, hl⟩
      · rw [if_pos hr] at hs
        exact absurd hs (by simp)
    · rintro ⟨hr, hl⟩
      refine ⟨String.mk (mdRender ((mdSegs md.data).map
        (shiftSeg (level - (listMinN (mdLevels md) : ℤ))))), ?_⟩
      unfold adjust_markdown_headers
      simp only []
      rw [if_neg (not_not_intro hr), if_neg hl]
  · intro s hs
    unfold adjust_markdown_headers at hs
    simp only [] at hs
    by_cases hr : 1 ≤ level ∧ level ≤ 6
    · rw [if_neg (not_not_intro hr)] at hs
      by_cases hl : mdLevels md = []
      · rw [if_pos hl] at hs
        exact absurd hs (by simp)
      · rw [if_neg hl] at hs
        have hX : s = String.mk (mdRender ((mdSegs md.data).map
            (shiftSeg (level - (listMinN (mdLevels md) : ℤ))))) := (Except.ok.inj hs).symm
        have hres := (mdSegs_render (level - (listMinN (mdLevels md) : ℤ))
          md.data.length md.data le_rfl).1
        have hlev1 : mdLevels s = (mdLevels md).map
            (fun h : ℕ => clampLevel ((h : ℤ) + (level - (listMinN (mdLevels md) : ℤ)))) := by
          rw [hX, mdLevels_mk, hres, filterMap_shift, mdLevels_eq]
        refine ⟨hlev1, ?_⟩
        have hmin : listMinN ((mdLevels md).map
            (fun h : ℕ => clampLevel ((h : ℤ) + (level - (listMinN (mdLevels md) : ℤ))))) =
            clampLevel ((listMinN (mdLevels md) : ℤ) +
              (level - (listMinN (mdLevels md) : ℤ))) :=
          listMinN_map_mono _ (fun a b hab => clampLevel_mono _ a b hab) _ hl
        have hminv : (listMinN (mdLevels md) : ℤ) +
            (level - (listMinN (mdLevels md) : ℤ)) = level := by ring
        rw [hlev1, hmin, hminv]
        exact clampLevel_eq_self level hr.1 hr.2
    · rw [if_pos hr] at hs
      exact absurd hs (by simp)

/-- **C8 witness.** For `"## A\n# B"` at desired level `3`: levels
`[2, 1]`, minimum `1`, offset `2`, output `"#### A\n### B"` with levels
`[4, 3]` and minimum `3`. -/
theorem C8_witness :
    mdLevels "#### A\n### B" = [4, 3] ∧
    (listMinN (mdLevels "#### A\n### B") : ℤ) = 3 := by
  have h := (C8_amended "## A\n# B" 3).2 "#### A\n### B" (by with_unfolding_all rfl)
  refine ⟨?_, h.2⟩
  rw [h.1]
  with_unfolding_all rfl

/-! ## Claim C5 -/

theorem setInsertI_nodup {l : List ℤ} (x : ℤ) (h : l.Nodup) :
    (setInsertI l x).Nodup := by
  unfold setInsertI
  by_cases hx : x ∈ l
  · rw [if_pos hx]; exact h
  · rw [if_neg hx]
    exact List.Nodup.append h (List.nodup_singleton x)
      (fun a ha hax => hx (by rwa [List.mem_singleton.mp hax] at ha))

theorem foldl_setInsertI_nodup : ∀ (xs : List ℤ) (l : List ℤ), l.Nodup →
    (xs.foldl setInsertI l).Nodup := by
  intro xs
  induction xs with
  | nil => intro l h; exact h
  | cons x ys ih => intro l h; exact ih _ (setInsertI_nodup x h)

theorem fmtStep_nodup (n : ℕ) (st : FmtSt) (raw : String)
    (hv : st.vids.Nodup) (hu : st.used.Nodup) :
    (fmtStep n st raw).vids.Nodup ∧ (fmtStep n st raw).used.Nodup := by
  unfold fmtStep
  by_cases hb : (pyStrip (stripComment raw)).data = []
  · rw [if_pos hb]; exact ⟨hv, hu⟩
  · rw [if_neg hb]
    by_cases h3 : (pyTokens (pyStrip (stripComment raw))).length = 3 ∧
        pyIsdigit ((pyTokens (pyStrip (stripComment raw))).getD 0 "") = true
    · rw [if_pos h3]; exact ⟨setInsertI_nodup _ hv, hu⟩
    · rw [if_neg h3]
      by_cases h2 : 2 ≤ (pyTokens (pyStrip (stripComment raw))).length
      · rw [if_pos h2]; exact ⟨hv, foldl_setInsertI_nodup _ _ hu⟩
      · rw [if_neg h2]; exact ⟨hv, hu⟩

theorem fmtFold_nodup : ∀ (ls : List String) (n : ℕ) (st : FmtSt),
    st.vids.Nodup → st.used.Nodup →
    (fmtFold n st ls).vids.Nodup ∧ (fmtFold n st ls).used.Nodup := by
  intro ls
  induction ls with
  | nil => intro n st hv hu; exact ⟨hv, hu⟩
  | cons l ls ih =>
    intro n st hv hu
    obtain ⟨hv', hu'⟩ := fmtStep_nodup n st l hv hu
    exact ih (n + 1) _ hv' hu'

theorem sortInts_sorted (l : List ℤ) : List.Sorted (· ≤ ·) (sortInts l) :=
  List.sorted_insertionSort _ l

theorem sortInts_perm (l : List ℤ) : List.Perm (sortInts l) l :=
  List.perm_insertionSort _ l

theorem pairwise_lt_of_sorted_nodup {l : List ℤ}
    (hs : List.Sorted (· ≤ ·) l) (hn : l.Nodup) : List.Pairwise (· < ·) l :=
  (List.Pairwise.and hs hn).imp (fun h => lt_of_le_of_ne h.1 h.2)

theorem filterMap_undecl (vids : List ℤ) : ∀ (l : List ℤ),
    l.filterMap (fun v => if v ∈ vids then none else some (undeclMsg v)) =
      (l.filter (fun v => v ∉ vids)).map undeclMsg := by
  intro l
  induction l with
  | nil => rfl
  | cons x xs ih =>
    by_cases hx : x ∈ vids
    · simp [List.filterMap_cons, List.filter_cons, hx, ih]
    · simp [List.filterMap_cons, List.filter_cons, hx, ih]

/-- C5: the format validator reports one message per undeclared referenced
vertex ID, in strictly ascending order; a single aggregate message for the
unused declared IDs, listed in strictly ascending order; and `is_valid` is
true exactly when the error list is empty. -/
theorem C5_undeclared_unused_reporting (text : String) :
    ((validate_cross_section_format text).1 = true ↔
      (validate_cross_section_format text).2 = []) ∧
    (validate_cross_section_format text).2 =
      (fmtState text).errs ++
      ((if (fmtState text).vids = [] then [noVertsMsg] else []) ++
       (if (fmtState text).pnames = [] then [noPolysMsg] else []) ++
       (undeclaredIds text).map undeclMsg ++
       (if unusedIds text = [] then [] else [unusedMsg (unusedIds text)])) ∧
    List.Pairwise (· < ·) (undeclaredIds text) ∧
    (∀ v : ℤ, v ∈ undeclaredIds text ↔
      v ∈ (fmtState text).used ∧ v ∉ (fmtState text).vids) ∧
    List.Pairwise (· < ·) (unusedIds text) ∧
    (∀ v : ℤ, v ∈ unusedIds text ↔
      v ∈ (fmtState text).vids ∧ v ∉ (fmtState text).used) := by
  obtain ⟨hvn, hun⟩ :=
    fmtFold_nodup (pySplitlines text) 1 fmtInit (by simp [fmtInit]) (by simp [fmtInit])
  refine ⟨?_, ?_, ?_, ?_, ?_, ?_⟩
  · exact decide_eq_true_iff
  · show (fmtState text).errs ++ fmtTailErrs (fmtState text) = _
    unfold fmtTailErrs
    rw [filterMap_undecl]
    unfold undeclaredIds unusedIds
    simp [List.append_assoc]
  · exact pairwise_lt_of_sorted_nodup
      (List.Pairwise.filter _ (sortInts_sorted (fmtState text).used))
      (List.Nodup.filter _ (((sortInts_perm _).nodup_iff).mpr hun))
  · intro v
    unfold undeclaredIds
    rw [List.mem_filter, (sortInts_perm _).mem_iff]
    simp
  · exact pairwise_lt_of_sorted_nodup (sortInts_sorted _)
      (((sortInts_perm _).nodup_iff).mpr (List.Nodup.filter _ hvn))
  · intro v
    unfold unusedIds
    rw [(sortInts_perm _).mem_iff, List.mem_filter]
    simp

/-! ## Claim C10 -/

theorem setInsertS_ne_nil (l : List String) (x : String) : setInsertS l x ≠ [] := by
  unfold setInsertS
  by_cases hx : x ∈ l
  · rw [if_pos hx]
    intro h
    rw [h] at hx
    simp at hx
  · rw [if_neg hx]
    simp

/-- The loop's `polygons_updated` flag equals `lastKindFrom`, its name set
equals `polyNamesFrom`, and the flag implies a nonempty name set. -/
theorem fmtFold_flag_names : ∀ (ls : List String) (n : ℕ) (st : FmtSt),
    (st.pupd = true → st.pnames ≠ []) →
    (fmtFold n st ls).pupd = lastKindFrom st.pupd ls ∧
    (fmtFold n st ls).pnames = polyNamesFrom st.pnames ls ∧
    ((fmtFold n st ls).pupd = true → (fmtFold n st ls).pnames ≠ []) := by
  intro ls
  induction ls with
  | nil => intro n st h; exact ⟨rfl, rfl, h⟩
  | cons l ls ih =>
    intro n st h
    show (fmtFold (n + 1) (fmtStep n st l) ls).pupd = _ ∧
      (fmtFold (n + 1) (fmtStep n st l) ls).pnames = _ ∧ _
    have hstep : (fmtStep n st l).pupd =
        (match fmtLineKind l with | some k => k | none => st.pupd) ∧
        (fmtStep n st l).pnames =
        (match fmtLineKind l with
          | some true => setInsertS st.pnames ((pyTokens (pyStrip (stripComment l))).getD 0 "")
          | _ => st.pnames) ∧
        ((fmtStep n st l).pupd = true → (fmtStep n st l).pnames ≠ []) := by
      unfold fmtStep fmtLineKind
      by_cases hb : (pyStrip (stripComment l)).data = []
      · rw [if_pos hb, if_pos hb]
        exact ⟨rfl, rfl, h⟩
      · rw [if_neg hb, if_neg hb]
        by_cases h3 : (pyTokens (pyStrip (stripComment l))).length = 3 ∧
            pyIsdigit ((pyTokens (pyStrip (stripComment l))).getD 0 "") = true
        · rw [if_pos h3, if_pos h3]
          refine ⟨?_, rfl, ?_⟩
          · show (if st.pnames ≠ [] ∧ st.pupd = true then false else st.pupd) = false
            by_cases hp : st.pupd = true
            · rw [if_pos ⟨h hp, hp⟩]
            · rw [if_neg (fun hc => hp hc.2)]
              exact Bool.eq_false_iff.mpr hp
          · intro hp
            show st.pnames ≠ []
            apply h
            by_cases hcond : st.pnames ≠ [] ∧ st.pupd = true
            · exact hcond.2
            · rw [if_neg hcond] at hp
              exact hp
        · rw [if_neg h3, if_neg h3]
          by_cases h2 : 2 ≤ (pyTokens (pyStrip (stripComment l))).length
          · rw [if_pos h2, if_pos h2]
            exact ⟨rfl, rfl, fun _ => setInsertS_ne_nil _ _⟩
          · rw [if_neg h2, if_neg h2]
            exact ⟨rfl, rfl, h⟩
    obtain ⟨hp, hn, himp⟩ := hstep
    have hrec := ih (n + 1) (fmtStep n st l) himp
    refine ⟨?_, ?_, hrec.2.2⟩
    · rw [hrec.1, hp]
      cases hk : fmtLineKind l with
      | none => simp only [lastKindFrom, List.foldl_cons, hk]
      | some b => simp only [lastKindFrom, List.foldl_cons, hk]
    · rw [hrec.2.1, hn]
      cases hk : fmtLineKind l with
      | none => simp only [polyNamesFrom, List.foldl_cons, hk]
      | some b =>
        cases b <;> simp only [polyNamesFrom, List.foldl_cons, hk]

/-- C10: at a vertex-shaped line, the "defined before all vertices are
defined" diagnostic is appended after the line's own errors exactly when
the nearest preceding vertex-or-polygon line is polygon-shaped (so it
fires at the first vertex line after each polygon block, at most once per
block), and its message lists every distinct polygon name seen so far in
the document, not only the names of the nearest block. -/
theorem C10_before_diagnostic (pre : List String) (raw : String) (n : ℕ)
    (h3 : (pyTokens (pyStrip (stripComment raw))).length = 3 ∧
      pyIsdigit ((pyTokens (pyStrip (stripComment raw))).getD 0 "") = true) :
    (fmtFold 1 fmtInit pre).pnames = polyNamesOf pre ∧
    fmtLineErrs (fmtFold 1 fmtInit pre) n raw =
      vertexLineBaseErrs (fmtFold 1 fmtInit pre).vids n raw ++
        (if lastKindFrom false pre = true then [beforeMsg (polyNamesOf pre)] else []) := by
  have hne : (pyStrip (stripComment raw)).data ≠ [] := by
    intro hblank
    rw [pyTokens_of_blank _ hblank] at h3
    exact absurd h3.1 (by decide)
  obtain ⟨hpupd, hpnames, himp⟩ :=
    fmtFold_flag_names pre 1 fmtInit (by intro h; exact absurd h (by simp [fmtInit]))
  have hnames : (fmtFold 1 fmtInit pre).pnames = polyNamesOf pre := hpnames
  have hpupd' : (fmtFold 1 fmtInit pre).pupd = lastKindFrom false pre := hpupd
  refine ⟨hnames, ?_⟩
  simp only [fmtLineErrs, vertexLineBaseErrs]
  rw [if_neg hne, if_pos h3, hnames]
  cases hlast : lastKindFrom false pre with
  | true =>
    have hpu : (fmtFold 1 fmtInit pre).pupd = true := hpupd'.trans hlast
    have hpn : polyNamesOf pre ≠ [] := by
      rw [← hnames]
      exact himp hpu
    have hcond : polyNamesOf pre ≠ [] ∧ (fmtFold 1 fmtInit pre).pupd = true := ⟨hpn, hpu⟩
    rw [if_pos hcond]
    simp
  | false =>
    have hnd : ¬(polyNamesOf pre ≠ [] ∧ (fmtFold 1 fmtInit pre).pupd = true) := by
      intro hc
      have h2 := hc.2
      rw [hpupd', hlast] at h2
      exact Bool.false_ne_true h2
    rw [if_neg hnd]
    simp

/-! ## Claim C7: digit-string round trips -/

theorem digitChar10_val (d : ℕ) (hd : d < 10) :
    isDigitA (digitChar10 d) = true ∧ digitVal (digitChar10 d) = d := by
  interval_cases d <;> exact ⟨by decide, by decide⟩

theorem natOfDigits_append_one (ds : List Char) (c : Char) :
    natOfDigits (ds ++ [c]) = 10 * natOfDigits ds + digitVal c := by
  unfold natOfDigits
  rw [List.foldl_append]
  rfl

theorem natOfDigits_cons_zero (t : List Char) :
    natOfDigits ('0' :: t) = natOfDigits t := by
  show List.foldl _ (10 * 0 + digitVal '0') t = List.foldl _ 0 t
  have h0 : 10 * 0 + digitVal '0' = 0 := by decide
  rw [h0]

theorem natOfDigits_replicate_zero (z : ℕ) (t : List Char) :
    natOfDigits (List.replicate z '0' ++ t) = natOfDigits t := by
  induction z with
  | zero => rfl
  | succ z ih => rw [List.replicate_succ, List.cons_append, natOfDigits_cons_zero, ih]

theorem decDigitsAux_spec : ∀ (fuel n : ℕ), n < 10 ^ fuel → fuel ≠ 0 →
    decDigitsAux fuel n ≠ [] ∧ (∀ c ∈ decDigitsAux fuel n, isDigitA c = true) ∧
    natOfDigits (decDigitsAux fuel n) = n := by
  intro fuel
  induction fuel with
  | zero => intro n _ hf; exact absurd rfl hf
  | succ fuel ih =>
    intro n hn _
    by_cases h10 : n < 10
    · refine ⟨by simp [decDigitsAux, h10], ?_, ?_⟩
      · intro c hc
        simp only [decDigitsAux, if_pos h10, List.mem_singleton] at hc
        subst hc
        exact (digitChar10_val n h10).1
      · simp only [decDigitsAux, if_pos h10]
        show 10 * 0 + digitVal (digitChar10 n) = n
        rw [(digitChar10_val n h10).2]
        omega
    · have hdiv : n / 10 < 10 ^ fuel := by
        rw [Nat.div_lt_iff_lt_mul (by norm_num)]
        calc n < 10 ^ (fuel + 1) := hn
        _ = 10 ^ fuel * 10 := by ring
      have hf : fuel ≠ 0 := by
        intro hf0
        rw [hf0] at hdiv
        omega
      obtain ⟨hne, hdig, hval⟩ := ih (n / 10) hdiv hf
      simp only [decDigitsAux, if_neg h10]
      refine ⟨by simp, ?_, ?_⟩
      · intro c hc
        rcases List.mem_append.mp hc with hc | hc
        · exact hdig c hc
        · rw [List.mem_singleton.mp hc]
          exact (digitChar10_val (n % 10) (Nat.mod_lt n (by norm_num))).1
      · rw [natOfDigits_append_one, hval,
          (digitChar10_val (n % 10) (Nat.mod_lt n (by norm_num))).2]
        omega

theorem decDigits_spec (n : ℕ) :
    decDigits n ≠ [] ∧ (∀ c ∈ decDigits n, isDigitA c = true) ∧
    natOfDigits (decDigits n) = n := by
  apply decDigitsAux_spec (n + 1) n ?_ (Nat.succ_ne_zero n)
  calc n < 2 ^ n := Nat.lt_two_pow n
  _ ≤ 10 ^ n := Nat.pow_le_pow_left (by norm_num) n
  _ < 10 ^ (n + 1) := Nat.pow_lt_pow_right (by norm_num) (Nat.lt_succ_self n)

theorem natDec_spec (n : ℕ) :
    pyIsdigit (natDec n) = true ∧ natOfDigits (natDec n).data = n := by
  obtain ⟨hne, hdig, hval⟩ := decDigits_spec n
  refine ⟨?_, hval⟩
  unfold pyIsdigit natDec
  rw [Bool.and_eq_true, List.all_eq_true]
  exact ⟨by simpa using hne, hdig⟩

theorem intDec_nonneg (z : ℤ) (hz : 0 ≤ z) : intDec z = natDec z.toNat := by
  unfold intDec
  rw [if_neg (not_lt.mpr hz)]
  congr 1
  omega

/-- Characters that never need sign/underscore special-casing. -/
theorem digit_ne_special (c : Char) (h : isDigitA c = true) :
    c ≠ '-' ∧ c ≠ '+' ∧ c ≠ '_' ∧ c ≠ '.' := by
  refine ⟨?_, ?_, ?_, ?_⟩ <;> (intro he; subst he; exact absurd h (by decide))

theorem parseSign_other (c : Char) (t : List Char) (h1 : c ≠ '-') (h2 : c ≠ '+') :
    parseSign (c :: t) = (false, c :: t) := by
  simp [parseSign, h1, h2]

theorem duTail_cons_digit (c : Char) (t : List Char) (hc : isDigitA c = true) :
    duTail (c :: t) = ((c :: (duTail t).1, (duTail t).2)) := by
  have hne : c ≠ '_' := (digit_ne_special c hc).2.2.1
  cases t with
  | nil => simp [duTail, hc]
  | cons a t' => simp [duTail, hne, hc]

theorem parseDG_cons (c : Char) (rest : List Char) :
    parseDigitGroup (c :: rest) =
      if isDigitA c = true then (c :: (duTail rest).1, (duTail rest).2)
      else ([], c :: rest) := by
  rcases h : duTail rest with ⟨ds, r⟩
  simp [parseDigitGroup, h]

theorem duTail_exact (ds : List Char) (r : List Char)
    (hds : ∀ c ∈ ds, isDigitA c = true) (hr : groupStops r) :
    duTail (ds ++ r) = (ds, r) := by
  induction ds with
  | nil =>
    cases r with
    | nil => rfl
    | cons c t =>
      obtain ⟨hc, hu⟩ := hr
      cases t with
      | nil => simp [duTail, hc, hu]
      | cons a t' => simp [duTail, hc, hu]
  | cons d dsT ih =>
    rw [List.cons_append, duTail_cons_digit d _ (hds d (by simp)),
      ih (fun c hc => hds c (by simp [hc]))]

theorem parseDG_exact (ds : List Char) (r : List Char) (hne : ds ≠ [])
    (hds : ∀ c ∈ ds, isDigitA c = true) (hr : groupStops r) :
    parseDigitGroup (ds ++ r) = (ds, r) := by
  cases ds with
  | nil => exact absurd rfl hne
  | cons d dsT =>
    rw [List.cons_append, parseDG_cons, if_pos (hds d (by simp)),
      duTail_exact dsT r (fun c hc => hds c (by simp [hc])) hr]

theorem parseDG_stop (r : List Char) (hr : groupStops r) :
    parseDigitGroup r = ([], r) := by
  cases r with
  | nil => rfl
  | cons c t =>
    rw [parseDG_cons, if_neg (by simp [hr.1])]

theorem pyIntParse_natDec (n : ℕ) : pyIntParse (natDec n) = some (n : ℤ) := by
  obtain ⟨hne, hdig, hval⟩ := decDigits_spec n
  rcases hds : decDigits n with _ | ⟨c, t⟩
  · exact absurd hds hne
  · have hcd : isDigitA c = true := hdig c (by rw [hds]; simp)
    have hall : ∀ x ∈ c :: t, isDigitA x = true := fun x hx => hdig x (by rw [hds]; exact hx)
    have hsign : parseSign (natDec n).data = (false, c :: t) := by
      show parseSign (decDigits n) = _
      rw [hds]
      exact parseSign_other c t (digit_ne_special c hcd).1 (digit_ne_special c hcd).2.1
    have hpg : parseDigitGroup (c :: t) = (c :: t, []) := by
      have h := parseDG_exact (c :: t) [] (by simp) hall trivial
      rwa [List.append_nil] at h
    have hv : natOfDigits (c :: t) = n := by rw [← hds]; exact hval
    simp only [pyIntParse, hsign, hpg, hv]
    simp

theorem pyIntParse_intDec (z : ℤ) : pyIntParse (intDec z) = some z := by
  by_cases hz : 0 ≤ z
  · rw [intDec_nonneg z hz, pyIntParse_natDec]
    congr 1
    omega
  · obtain ⟨hne, hdig, hval⟩ := decDigits_spec z.natAbs
    rcases hds : decDigits z.natAbs with _ | ⟨c, t⟩
    · exact absurd hds hne
    · have hall : ∀ x ∈ c :: t, isDigitA x = true := fun x hx => hdig x (by rw [hds]; exact hx)
      have hid : intDec z = "-" ++ natDec z.natAbs := by
        unfold intDec
        rw [if_pos (by omega)]
      have hdata : (intDec z).data = '-' :: (c :: t) := by
        rw [hid, strData_append]
        show ('-' :: []) ++ decDigits z.natAbs = _
        rw [hds]
        rfl
      have hsign : parseSign (intDec z).data = (true, c :: t) := by rw [hdata]; rfl
      have hpg : parseDigitGroup (c :: t) = (c :: t, []) := by
        have h := parseDG_exact (c :: t) [] (by simp) hall trivial
        rwa [List.append_nil] at h
      have hv : natOfDigits (c :: t) = z.natAbs := by rw [← hds]; exact hval
      simp only [pyIntParse, hsign, hpg, hv]
      simp only [ne_eq, reduceCtorEq, not_false_eq_true, and_self, if_true, if_pos]
      congr 1
      omega

theorem lowerA_digit (c : Char) (hc : isDigitA c = true) : lowerA c = c := by
  unfold isDigitA at hc
  rw [Bool.and_eq_true] at hc
  have h9 : c ≤ '9' := of_decide_eq_true hc.2
  unfold lowerA
  rw [if_neg]
  simp only [Bool.and_eq_true, decide_eq_true_eq, not_and]
  intro hA
  exact absurd (le_trans hA h9) (by decide)

theorem digit_ne_letters (c : Char) (hc : isDigitA c = true) :
    c ≠ 'i' ∧ c ≠ 'n' := by
  unfold isDigitA at hc
  rw [Bool.and_eq_true] at hc
  have h9 : c ≤ '9' := of_decide_eq_true hc.2
  constructor <;> (intro he; subst he; exact absurd h9 (by decide))

/-- A character list starting with a digit is not (case-insensitively) one
of the keywords `inf`, `infinity`, `nan`. -/
theorem digit_no_keyword (c : Char) (t : List Char) (hc : isDigitA c = true) :
    ¬((c :: t).map lowerA = "inf".data ∨ (c :: t).map lowerA = "infinity".data) ∧
    ¬((c :: t).map lowerA = "nan".data) := by
  have hl := lowerA_digit c hc
  have hinfd : ("inf" : String).data = 'i' :: "nf".data := rfl
  have hinfyd : ("infinity" : String).data = 'i' :: "nfinity".data := rfl
  have hnand : ("nan" : String).data = 'n' :: "an".data := rfl
  constructor
  · rintro (h | h)
    · rw [List.map_cons, hl, hinfd] at h
      injection h with h1 _
      exact absurd h1 (digit_ne_letters c hc).1
    · rw [List.map_cons, hl, hinfyd] at h
      injection h with h1 _
      exact absurd h1 (digit_ne_letters c hc).1
  · intro h
    rw [List.map_cons, hl, hnand] at h
    injection h with h1 _
    exact absurd h1 (digit_ne_letters c hc).2

/-- `pyFloatCore` on a canonical decimal `ds1.ds2` of digit groups. -/
theorem pyFloatCore_decimal (neg : Bool) (ds1 ds2 : List Char)
    (h1 : ds1 ≠ []) (hd1 : ∀ c ∈ ds1, isDigitA c = true)
    (h2 : ds2 ≠ []) (hd2 : ∀ c ∈ ds2, isDigitA c = true) :
    pyFloatCore neg (ds1 ++ '.' :: ds2) = some (mkFinF neg ds1 ds2 0) := by
  rcases hds1 : ds1 with _ | ⟨c, t⟩
  · exact absurd hds1 h1
  · subst hds1
    have hcd : isDigitA c = true := hd1 c (by simp)
    have hkw := digit_no_keyword c (t ++ '.' :: ds2) hcd
    unfold pyFloatCore
    rw [List.cons_append]
    rw [if_neg hkw.1, if_neg hkw.2]
    have hpg1 : parseDigitGroup ((c :: t) ++ '.' :: ds2) = (c :: t, '.' :: ds2) :=
      parseDG_exact (c :: t) ('.' :: ds2) (by simp) hd1 ⟨by decide, by decide⟩
    rw [List.cons_append] at hpg1
    have hpg2 : parseDigitGroup ds2 = (ds2, []) := by
      have h := parseDG_exact ds2 [] h2 hd2 trivial
      rwa [List.append_nil] at h
    simp only [hpg1, hpg2]
    rw [if_neg (by simp)]

/-- If the denominator divides some power of ten, `findScale` finds a
suitable scale within its search range. -/
theorem findScale_some {d : ℕ} (hd : d ≠ 0) {K : ℕ} (h : d ∣ 10 ^ K) :
    ∃ k, findScale d = some k ∧ d ∣ 10 ^ k := by
  have h25 : d ∣ 2 ^ K * 5 ^ K := by
    rwa [show (10 : ℕ) = 2 * 5 from rfl, mul_pow] at h
  obtain ⟨d1, d2, hd1, hd2, hdeq⟩ := exists_dvd_and_dvd_of_dvd_mul h25
  obtain ⟨a, -, ha⟩ := (Nat.dvd_prime_pow Nat.prime_two).mp hd1
  obtain ⟨b, -, hb⟩ := (Nat.dvd_prime_pow Nat.prime_five).mp hd2
  subst ha; subst hb
  have hdpos : 0 < d := Nat.pos_of_ne_zero hd
  have h2a : 2 ^ a ≤ d := Nat.le_of_dvd hdpos ⟨5 ^ b, hdeq⟩
  have h5b : 5 ^ b ≤ d := Nat.le_of_dvd hdpos ⟨2 ^ a, by rw [hdeq]; ring⟩
  have h2b : 2 ^ b ≤ d := le_trans (Nat.pow_le_pow_left (by norm_num) b) h5b
  have hal : a ≤ d.log2 := (Nat.le_log2 hd).mpr h2a
  have hbl : b ≤ d.log2 := (Nat.le_log2 hd).mpr h2b
  have hdvd0 : d ∣ 10 ^ max a b := by
    rw [show (10 : ℕ) = 2 * 5 from rfl, mul_pow, hdeq]
    exact mul_dvd_mul (pow_dvd_pow 2 (le_max_left a b)) (pow_dvd_pow 5 (le_max_right a b))
  have hmem : max a b ∈ List.range (d.log2 + 2) := List.mem_range.mpr (by omega)
  have hsome : (findScale d).isSome := by
    unfold findScale
    rw [List.find?_isSome]
    exact ⟨max a b, hmem, by simpa using hdvd0⟩
  obtain ⟨k, hk⟩ := Option.isSome_iff_exists.mp hsome
  refine ⟨k, hk, ?_⟩
  unfold findScale at hk
  have hp := List.find?_some hk
  simpa using hp

theorem scaled_int (q : ℚ) (k : ℕ) (hk : q.den ∣ 10 ^ k) :
    q * qpow10 k = ((q.num * ((10 ^ k) / q.den : ℕ) : ℤ) : ℚ) := by
  have hden : (q.den : ℚ) ≠ 0 := Nat.cast_ne_zero.mpr q.den_nz
  have hqd : (q.num : ℚ) = q * (q.den : ℚ) := (div_eq_iff hden).mp (Rat.num_div_den q)
  set c := 10 ^ k / q.den with hcdef
  have hc : q.den * c = 10 ^ k := Nat.mul_div_cancel' hk
  have h10 : qpow10 k = (((10 : ℕ) ^ k : ℕ) : ℚ) := by rw [qpow10_eq]; push_cast; ring
  rw [h10, ← hc]
  push_cast
  rw [hqd]
  ring

theorem scaled_nonneg (q : ℚ) (hq : 0 ≤ q) (k : ℕ) : 0 ≤ (q * qpow10 k).num := by
  rw [Rat.num_nonneg]
  apply mul_nonneg hq
  rw [qpow10_eq]
  positivity

/-- Casting the scaled numerator back recovers the scaled rational. -/
theorem scaled_toNat (q : ℚ) (hq : 0 ≤ q) (k : ℕ) (hk : q.den ∣ 10 ^ k) :
    (((q * qpow10 k).num.toNat : ℕ) : ℚ) = q * qpow10 k := by
  have h1 : ((q * qpow10 k).num.toNat : ℤ) = (q * qpow10 k).num :=
    Int.toNat_of_nonneg (scaled_nonneg q hq k)
  have h2 : ((q * qpow10 k).num : ℚ) = q * qpow10 k := by
    rw [scaled_int q k hk, Rat.num_intCast]
  have h3 : (((q * qpow10 k).num.toNat : ℕ) : ℚ) =
      (((q * qpow10 k).num.toNat : ℤ) : ℚ) := (Int.cast_natCast _).symm
  rw [h3, h1, h2]

theorem mul_pow10_cancel (q x : ℚ) (k : ℕ) (hx : x = q * qpow10 k) :
    x * pow10Z (0 - (k : ℤ)) = q := by
  subst hx
  rw [qpow10_eq, pow10Z_eq, zero_sub, zpow_neg, zpow_natCast,
    mul_assoc, mul_inv_cancel₀ (by positivity), mul_one]

theorem mkFinF_eq (neg : Bool) (ds1 ds2 : List Char) (q : ℚ)
    (h : ((natOfDigits (ds1 ++ ds2) : ℕ) : ℚ) * pow10Z (0 - (ds2.length : ℤ)) = q) :
    mkFinF neg ds1 ds2 0 = .fin (if neg then -q else q) := by
  simp only [mkFinF]
  rw [h]

/-- The rendering of a nonnegative rational whose denominator divides a
power of ten starts with a digit and parses back to the exact value. -/
theorem decOfNonnegQ_good (q : ℚ) (hq : 0 ≤ q) (K : ℕ) (hdvd : q.den ∣ 10 ^ K) :
    (∃ c t, (decOfNonnegQ q).data = c :: t ∧ isDigitA c = true) ∧
    (∀ neg, pyFloatCore neg (decOfNonnegQ q).data =
      some (.fin (if neg then -q else q))) ∧
    ∀ c ∈ (decOfNonnegQ q).data, isDigitA c = true ∨ c = '.' := by
  obtain ⟨k, hfs, hk⟩ := findScale_some q.den_nz hdvd
  have hNq : (((q * qpow10 k).num.toNat : ℕ) : ℚ) = q * qpow10 k :=
    scaled_toNat q hq k hk
  set N : ℕ := (q * qpow10 k).num.toNat with hN
  obtain ⟨hdne, hddig, hdval⟩ := decDigits_spec N
  by_cases hk0 : k = 0
  · subst hk0
    have hout : (decOfNonnegQ q).data = decDigits N ++ '.' :: ['0'] := by
      unfold decOfNonnegQ
      rw [hfs]
      show (String.mk (decDigits N) ++ ".0").data = _
      rw [strData_append]
    have hqN : ((N : ℕ) : ℚ) = q := by
      rw [hNq]
      show q * 1 = q
      rw [mul_one]
    have hval : ((natOfDigits (decDigits N ++ ['0']) : ℕ) : ℚ) *
        pow10Z (0 - (([('0' : Char)].length : ℕ) : ℤ)) = q := by
      rw [natOfDigits_append_one, hdval, show digitVal '0' = 0 from rfl, Nat.add_zero]
      have hp : pow10Z (0 - ((([('0' : Char)].length : ℕ) : ℤ))) = 1 / 10 := by
        norm_num
        show pow10Z (-1) = 1 / 10
        rw [show (-1 : ℤ) = Int.negSucc 0 from rfl]
        show (1 : ℚ) / (10 * 1) = 1 / 10
        norm_num
      rw [hp, ← hqN]
      push_cast
      ring
    refine ⟨?_, ?_, ?_⟩
    · rcases hds : decDigits N with _ | ⟨c, t⟩
      · exact absurd hds hdne
      · exact ⟨c, t ++ '.' :: ['0'], by rw [hout, hds, List.cons_append],
          hddig c (by rw [hds]; simp)⟩
    · intro neg
      rw [hout, pyFloatCore_decimal neg (decDigits N) ['0'] hdne hddig (by simp)
        (by intro c hc; simp at hc; subst hc; decide),
        mkFinF_eq neg (decDigits N) ['0'] q hval]
    · intro c hc
      rw [hout] at hc
      rcases List.mem_append.mp hc with hm | hm
      · exact Or.inl (hddig c hm)
      · simp only [List.mem_cons, List.not_mem_nil, or_false] at hm
        rcases hm with hm | hm <;> subst hm
        · exact Or.inr rfl
        · exact Or.inl (by decide)
  · set ds := decDigits N with hds
    set padded := List.replicate (k + 1 - ds.length) '0' ++ ds with hpad
    have hL : k + 1 ≤ padded.length := by
      rw [hpad, List.length_append, List.length_replicate]
      omega
    set A := padded.take (padded.length - k) with hA
    set B := padded.drop (padded.length - k) with hB
    have hout : (decOfNonnegQ q).data = A ++ '.' :: B := by
      unfold decOfNonnegQ
      rw [hfs]
      show (if k = 0 then String.mk ds ++ ".0" else
        String.mk A ++ "." ++ String.mk B).data = _
      rw [if_neg hk0, strData_append, strData_append]
      show A ++ ['.'] ++ B = A ++ '.' :: B
      simp
    have hAlen : A.length = padded.length - k := by
      rw [hA, List.length_take]
      omega
    have hBlen : B.length = k := by
      rw [hB, List.length_drop]
      omega
    have hAne : A ≠ [] := by
      have : 0 < A.length := by omega
      exact List.length_pos.mp this
    have hBne : B ≠ [] := by
      have : 0 < B.length := by omega
      exact List.length_pos.mp this
    have hpdig : ∀ c ∈ padded, isDigitA c = true := by
      intro c hc
      rw [hpad] at hc
      rcases List.mem_append.mp hc with h | h
      · rw [List.eq_of_mem_replicate h]; decide
      · exact hddig c h
    have hAdig : ∀ c ∈ A, isDigitA c = true :=
      fun c hc => hpdig c (List.take_subset _ _ hc)
    have hBdig : ∀ c ∈ B, isDigitA c = true :=
      fun c hc => hpdig c (List.drop_subset _ _ hc)
    have hvalN : natOfDigits (A ++ B) = N := by
      rw [hA, hB, List.take_append_drop, hpad, natOfDigits_replicate_zero, hdval]
    have hval : ((natOfDigits (A ++ B) : ℕ) : ℚ) * pow10Z (0 - (B.length : ℤ)) = q := by
      rw [hvalN, hBlen]
      exact mul_pow10_cancel q ((N : ℕ) : ℚ) k hNq
    refine ⟨?_, ?_, ?_⟩
    · rcases hAc : A with _ | ⟨c, t⟩
      · exact absurd hAc hAne
      · exact ⟨c, t ++ '.' :: B, by rw [hout, hAc, List.cons_append],
          hAdig c (by rw [hAc]; simp)⟩
    · intro neg
      rw [hout, pyFloatCore_decimal neg A B hAne hAdig hBne hBdig,
        mkFinF_eq neg A B q hval]
    · intro c hc
      rw [hout] at hc
      rcases List.mem_append.mp hc with hm | hm
      · exact Or.inl (hAdig c hm)
      · rcases List.mem_cons.mp hm with hm | hm
        · exact Or.inr hm
        · exact Or.inl (hBdig c hm)

/-- Every finite `pyFloatCore` result is a `mkFinF` value. -/
theorem pyFloatCore_fin (neg : Bool) (cs : List Char) (q : ℚ)
    (h : pyFloatCore neg cs = some (.fin q)) :
    ∃ ds1 ds2 ex, mkFinF neg ds1 ds2 ex = .fin q := by
  unfold pyFloatCore at h
  simp only [] at h
  repeat' split at h
  all_goals
    first
      | exact ⟨_, _, _, Option.some.inj h⟩
      | simp at h

theorem den_dvd_pow10_of_eq_div (q : ℚ) (m : ℤ) (n : ℕ)
    (h : q = (m : ℚ) / (10 : ℚ) ^ n) : q.den ∣ 10 ^ n := by
  have h2 : q = Rat.divInt m (10 ^ n) := by
    rw [Rat.divInt_eq_div, h]
    push_cast
    ring
  have h3 := Rat.den_dvd m ((10 : ℤ) ^ n)
  rw [← h2] at h3
  have h4 : (q.den : ℤ) ∣ ((10 ^ n : ℕ) : ℤ) := by push_cast; exact h3
  exact_mod_cast h4

theorem pow10Z_den (m : ℕ) (e : ℤ) : ∃ K, ((m : ℚ) * pow10Z e).den ∣ 10 ^ K := by
  cases e with
  | ofNat n =>
    refine ⟨0, ?_⟩
    have hv : (m : ℚ) * pow10Z (.ofNat n) = ((m * 10 ^ n : ℕ) : ℚ) := by
      show (m : ℚ) * qpow10 n = _
      rw [qpow10_eq]
      push_cast
      ring
    rw [hv, Rat.den_natCast]
    exact one_dvd _
  | negSucc n =>
    refine ⟨n + 1, ?_⟩
    apply den_dvd_pow10_of_eq_div _ (m : ℤ) (n + 1)
    show (m : ℚ) * pow10Z (.negSucc n) = _
    rw [show pow10Z (.negSucc n) = 1 / qpow10 (n + 1) from rfl, qpow10_eq]
    push_cast
    ring

/-- `mkFinF` only produces rationals whose denominator divides a power of
ten. -/
theorem mkFinF_den (neg : Bool) (ds1 ds2 : List Char) (ex : ℤ) (q : ℚ)
    (h : mkFinF neg ds1 ds2 ex = .fin q) : ∃ K, q.den ∣ 10 ^ K := by
  obtain ⟨K, hK⟩ := pow10Z_den (natOfDigits (ds1 ++ ds2)) (ex - (ds2.length : ℤ))
  refine ⟨K, ?_⟩
  simp only [mkFinF, PyF.fin.injEq] at h
  cases neg with
  | false =>
    rw [if_neg (by decide)] at h
    rw [← h]
    exact hK
  | true =>
    rw [if_pos rfl] at h
    rw [← h, Rat.den_neg_eq_den]
    exact hK

/-- Every finite float produced by `pyFloatParse` has a denominator
dividing a power of ten. -/
theorem pyFloatParse_den (s : String) (f : PyF) (h : pyFloatParse s = some f) :
    ∀ q, f = .fin q → ∃ K, q.den ∣ 10 ^ K := by
  intro q hq
  subst hq
  unfold pyFloatParse at h
  rcases hps : parseSign s.data with ⟨neg, cs⟩
  rw [hps] at h
  obtain ⟨ds1, ds2, ex, hm⟩ := pyFloatCore_fin neg cs q h
  exact mkFinF_den neg ds1 ds2 ex q hm

/-- Parsing back the rendering of a float value recovers it exactly when
every finite value has a denominator dividing a power of ten (which holds
for all parser-produced floats). -/
theorem pyFloatParse_pyReprF (f : PyF)
    (h : ∀ q, f = .fin q → ∃ K, q.den ∣ 10 ^ K) :
    pyFloatParse (pyReprF f) = some f := by
  cases f with
  | pinf => with_unfolding_all rfl
  | ninf => with_unfolding_all rfl
  | pnan => with_unfolding_all rfl
  | fin q =>
    obtain ⟨K, hK⟩ := h q rfl
    by_cases hq : q < 0
    · have hrepr : pyReprF (.fin q) = "-" ++ decOfNonnegQ (-q) := by
        simp only [pyReprF, if_pos hq]
      obtain ⟨-, hcore, -⟩ := decOfNonnegQ_good (-q) (by linarith) K
        (by rw [Rat.den_neg_eq_den]; exact hK)
      rw [hrepr]
      unfold pyFloatParse
      have hdata : ("-" ++ decOfNonnegQ (-q)).data = '-' :: (decOfNonnegQ (-q)).data := by
        rw [strData_append]
        rfl
      rw [hdata]
      show pyFloatCore true (decOfNonnegQ (-q)).data = some (.fin q)
      rw [hcore true]
      simp
    · have hq' : 0 ≤ q := le_of_not_lt hq
      have hrepr : pyReprF (.fin q) = decOfNonnegQ q := by
        simp only [pyReprF, if_neg hq]
      obtain ⟨⟨c, t, hct, hcd⟩, hcore, -⟩ := decOfNonnegQ_good q hq' K hK
      rw [hrepr]
      unfold pyFloatParse
      rw [hct, parseSign_other c t (digit_ne_special c hcd).1 (digit_ne_special c hcd).2.1]
      show pyFloatCore false (c :: t) = some (.fin q)
      rw [← hct, hcore false]
      simp

theorem strMk (s : String) : String.mk s.data = s := by
  cases s
  rfl

theorem mapMkData (l : List String) : l.map (fun s => String.mk s.data) = l := by
  induction l with
  | nil => rfl
  | cons x t ih => simp [strMk, ih]

theorem lineBr_imp_ws (c : Char) (h : pyLineBr c = true) : pyWsChar c = true := by
  unfold pyLineBr at h
  unfold pyWsChar
  simp only [Bool.or_eq_true, decide_eq_true_eq] at h ⊢
  rcases h with ((((((h | h) | h) | h) | h) | h) | h) <;> subst h <;> decide

theorem digit_not_ws (c : Char) (h : isDigitA c = true) : pyWsChar c = false := by
  cases hw : pyWsChar c
  · rfl
  · exfalso
    unfold pyWsChar at hw
    simp only [Bool.or_eq_true, decide_eq_true_eq] at hw
    rcases hw with (((((((((hw | hw) | hw) | hw) | hw) | hw) | hw) | hw) | hw) | hw) <;>
      subst hw <;> exact absurd h (by decide)

theorem digit_not_hash (c : Char) (h : isDigitA c = true) : c ≠ '#' := by
  intro he
  subst he
  exact absurd h (by decide)

theorem not_break_of_not_ws (c : Char) (h : pyWsChar c = false) : pyLineBr c = false := by
  cases hb : pyLineBr c
  · rfl
  · have hw := lineBr_imp_ws c hb
    rw [h] at hw
    exact absurd hw (by simp)

theorem takeWhile_all {p : Char → Bool} :
    ∀ (l : List Char), (∀ c ∈ l, p c = true) → l.takeWhile p = l
  | [], _ => rfl
  | c :: t, h => by
    rw [List.takeWhile_cons, if_pos (h c (by simp)), takeWhile_all t (fun x hx => h x (by simp [hx]))]

theorem stripComment_noop (s : String) (h : ∀ c ∈ s.data, c ≠ '#') :
    stripComment s = s := by
  apply strExt
  show s.data.takeWhile _ = s.data
  exact takeWhile_all s.data (fun c hc => by simp [h c hc])

theorem pyStrip_eq_self (s : String)
    (h1 : ∀ c t, s.data = c :: t → pyWsChar c = false)
    (h2 : ∀ c t, s.data.reverse = c :: t → pyWsChar c = false) :
    pyStrip s = s := by
  apply strExt
  show ((s.data.dropWhile pyWsChar).reverse.dropWhile pyWsChar).reverse = s.data
  have hd1 : s.data.dropWhile pyWsChar = s.data := by
    cases hc : s.data with
    | nil => simp
    | cons c t => rw [List.dropWhile_cons, if_neg (by simp [h1 c t hc])]
  rw [hd1]
  have hd2 : s.data.reverse.dropWhile pyWsChar = s.data.reverse := by
    cases hc : s.data.reverse with
    | nil => simp
    | cons c t => rw [List.dropWhile_cons, if_neg (by simp [h2 c t hc])]
  rw [hd2, List.reverse_reverse]

/-- Consuming a whitespace-free prefix just accumulates it. -/
theorem tokensAux_shift (a : List Char) (h : ∀ c ∈ a, pyWsChar c = false) :
    ∀ (cs cur : List Char), tokensAux (a ++ cs) cur = tokensAux cs (a.reverse ++ cur) := by
  induction a with
  | nil => intro cs cur; simp
  | cons c a' ih =>
    intro cs cur
    have hc : pyWsChar c = false := h c (by simp)
    rw [List.cons_append]
    show tokensAux (c :: (a' ++ cs)) cur = _
    simp only [tokensAux, hc, Bool.false_eq_true, if_false]
    rw [ih (fun x hx => h x (by simp [hx])) cs (c :: cur)]
    simp

/-- Tokenizing a space-join of nonempty whitespace-free tokens. -/
theorem tokensAux_join : ∀ (parts : List String),
    (∀ p ∈ parts, p.data ≠ [] ∧ ∀ c ∈ p.data, pyWsChar c = false) →
    tokensAux (joinWith " " parts).data [] = parts.map String.data := by
  intro parts
  induction parts with
  | nil => intro _; with_unfolding_all rfl
  | cons x t ih =>
    intro h
    obtain ⟨hxne, hxw⟩ := h x (by simp)
    cases t with
    | nil =>
      show tokensAux x.data [] = [x.data]
      have hs := tokensAux_shift x.data hxw [] []
      rw [List.append_nil] at hs
      rw [hs]
      simp only [tokensAux, List.append_nil]
      rw [if_neg (by simp [hxne])]
      simp
    | cons y t' =>
      have hd : (joinWith " " (x :: y :: t')).data =
          x.data ++ (' ' :: (joinWith " " (y :: t')).data) := by
        show (x ++ " " ++ joinWith " " (y :: t')).data = _
        rw [strData_append, strData_append]
        have hsp : (" " : String).data = [' '] := by with_unfolding_all rfl
        rw [hsp]
        simp
      rw [hd, tokensAux_shift x.data hxw _ []]
      simp only [tokensAux]
      rw [if_pos (by decide), if_neg (by simp [hxne])]
      rw [ih (fun l hl => h l (by simp [hl]))]
      simp

theorem pyTokens_join (parts : List String)
    (h : ∀ p ∈ parts, p.data ≠ [] ∧ ∀ c ∈ p.data, pyWsChar c = false) :
    pyTokens (joinWith " " parts) = parts := by
  unfold pyTokens
  rw [tokensAux_join parts h, List.map_map]
  have hco : (String.mk ∘ String.data) = (fun s => String.mk s.data) := rfl
  rw [hco, mapMkData]

theorem joinWith_sp_ne_nil (parts : List String) (hne : parts ≠ [])
    (h : ∀ p ∈ parts, p.data ≠ [] ∧ ∀ c ∈ p.data, pyWsChar c = false) :
    (joinWith " " parts).data ≠ [] := by
  intro hd
  have h0 : pyTokens (joinWith " " parts) = [] := by
    unfold pyTokens
    rw [hd]
    rfl
  rw [pyTokens_join parts h] at h0
  exact hne h0

/-- The first and last characters of a space-join of whitespace-free
tokens are not whitespace. -/
theorem joinWith_sp_ends (parts : List String)
    (h : ∀ p ∈ parts, p.data ≠ [] ∧ ∀ c ∈ p.data, pyWsChar c = false) :
    (∀ c t, (joinWith " " parts).data = c :: t → pyWsChar c = false) ∧
    (∀ c t, (joinWith " " parts).data.reverse = c :: t → pyWsChar c = false) := by
  induction parts with
  | nil =>
    have hd : (joinWith " " ([] : List String)).data = [] := by with_unfolding_all rfl
    constructor <;> intro c t hc <;> rw [hd] at hc <;> simp at hc
  | cons x t ih =>
    obtain ⟨hxne, hxw⟩ := h x (by simp)
    cases t with
    | nil =>
      have hd : (joinWith " " [x]).data = x.data := rfl
      constructor <;> intro c u hc <;> rw [hd] at hc
      · exact hxw c (by rw [hc]; simp)
      · refine hxw c ?_
        have hm : c ∈ x.data.reverse := by rw [hc]; simp
        simpa using hm
    | cons y t' =>
      have ihh := ih (fun l hl => h l (by simp [hl]))
      have hd : (joinWith " " (x :: y :: t')).data =
          x.data ++ (' ' :: (joinWith " " (y :: t')).data) := by
        show (x ++ " " ++ joinWith " " (y :: t')).data = _
        rw [strData_append, strData_append]
        have hsp : (" " : String).data = [' '] := by with_unfolding_all rfl
        rw [hsp]
        simp
      constructor
      · intro c u hc
        rw [hd] at hc
        rcases hxd : x.data with _ | ⟨c0, t0⟩
        · exact absurd hxd hxne
        · rw [hxd, List.cons_append] at hc
          injection hc with h1 _
          subst h1
          exact hxw c0 (by rw [hxd]; simp)
      · intro c u hc
        rw [hd] at hc
        rw [List.reverse_append, List.reverse_cons] at hc
        have hJne : (joinWith " " (y :: t')).data ≠ [] :=
          joinWith_sp_ne_nil _ (by simp) (fun l hl => h l (by simp [hl]))
        rcases hJd : (joinWith " " (y :: t')).data.reverse with _ | ⟨c1, u1⟩
        · exact absurd (by simpa using hJd) hJne
        · rw [hJd, List.cons_append, List.cons_append] at hc
          injection hc with h1 _
          subst h1
          exact ihh.2 c1 u1 hJd

/-- Splitting steps of `splitlines` on non-break characters and on a
newline. -/
theorem splitlinesAux_cons_nb (c : Char) (hc : pyLineBr c = false) (cs acc : List Char) :
    splitlinesAux (c :: cs) acc = splitlinesAux cs (c :: acc) := by
  have hd : c ≠ '\x0d' := by
    intro h
    subst h
    exact absurd hc (by decide)
  cases cs with
  | nil => simp [splitlinesAux, hc]
  | cons d cs' => simp [splitlinesAux, hc, hd]

theorem splitlinesAux_nl (cs acc : List Char) :
    splitlinesAux ('\n' :: cs) acc = acc.reverse :: splitlinesAux cs [] := by
  cases cs with
  | nil => simp [splitlinesAux, pyLineBr]
  | cons d cs' => simp [splitlinesAux, pyLineBr]

theorem splitlinesAux_shift (a : List Char) (h : ∀ c ∈ a, pyLineBr c = false) :
    ∀ (cs acc : List Char), splitlinesAux (a ++ cs) acc = splitlinesAux cs (a.reverse ++ acc) := by
  induction a with
  | nil => intro cs acc; simp
  | cons c a' ih =>
    intro cs acc
    rw [List.cons_append, splitlinesAux_cons_nb c (h c (by simp)),
      ih (fun x hx => h x (by simp [hx])) cs (c :: acc)]
    simp

/-- `splitlines` of a newline-join of nonempty break-free lines. -/
theorem splitlines_join : ∀ (ls : List String),
    (∀ l ∈ ls, l.data ≠ [] ∧ ∀ c ∈ l.data, pyLineBr c = false) →
    splitlinesAux (joinWith "\n" ls).data [] = ls.map String.data := by
  intro ls
  induction ls with
  | nil => intro _; with_unfolding_all rfl
  | cons x t ih =>
    intro h
    obtain ⟨hxne, hxw⟩ := h x (by simp)
    cases t with
    | nil =>
      show splitlinesAux x.data [] = [x.data]
      have hs := splitlinesAux_shift x.data hxw [] []
      rw [List.append_nil] at hs
      rw [hs]
      simp only [splitlinesAux, List.append_nil]
      rw [if_neg (by simp [hxne])]
      simp
    | cons y t' =>
      have hd : (joinWith "\n" (x :: y :: t')).data =
          x.data ++ ('\n' :: (joinWith "\n" (y :: t')).data) := by
        show (x ++ "\n" ++ joinWith "\n" (y :: t')).data = _
        rw [strData_append, strData_append]
        have hnl : ("\n" : String).data = ['\n'] := by with_unfolding_all rfl
        rw [hnl]
        simp
      rw [hd, splitlinesAux_shift x.data hxw, splitlinesAux_nl,
        ih (fun l hl => h l (by simp [hl]))]
      simp

theorem pySplitlines_join (ls : List String)
    (h : ∀ l ∈ ls, l.data ≠ [] ∧ ∀ c ∈ l.data, pyLineBr c = false) :
    pySplitlines (joinWith "\n" ls) = ls := by
  unfold pySplitlines
  rw [splitlines_join ls h, List.map_map]
  have hco : (String.mk ∘ String.data) = (fun s => String.mk s.data) := rfl
  rw [hco, mapMkData]

theorem intDec_good (z : ℤ) :
    (intDec z).data ≠ [] ∧ ∀ c ∈ (intDec z).data, isDigitA c = true ∨ c = '-' := by
  obtain ⟨hne, hdig, -⟩ := decDigits_spec z.natAbs
  have hd2 : (natDec z.natAbs).data = decDigits z.natAbs := rfl
  unfold intDec
  split
  · have hd : (("-" : String) ++ natDec z.natAbs).data = '-' :: decDigits z.natAbs := by
      rw [strData_append, hd2]
      have hm : ("-" : String).data = ['-'] := by with_unfolding_all rfl
      rw [hm]
      rfl
    rw [hd]
    refine ⟨by simp, ?_⟩
    intro c hc
    rcases List.mem_cons.mp hc with hm | hm
    · exact Or.inr hm
    · exact Or.inl (hdig c hm)
  · rw [hd2]
    exact ⟨hne, fun c hc => Or.inl (hdig c hc)⟩

/-- Rendered floats are nonempty and consist of safe characters: not
whitespace and not the comment character. -/
theorem pyReprF_good (f : PyF) (h : ∀ q, f = .fin q → ∃ K, q.den ∣ 10 ^ K) :
    (pyReprF f).data ≠ [] ∧
    ∀ c ∈ (pyReprF f).data, pyWsChar c = false ∧ c ≠ '#' := by
  cases f with
  | pinf =>
    have hd : (pyReprF .pinf).data = ['i', 'n', 'f'] := by with_unfolding_all rfl
    rw [hd]
    refine ⟨by simp, ?_⟩
    intro c hc
    simp only [List.mem_cons, List.not_mem_nil, or_false] at hc
    rcases hc with hc | hc | hc <;> subst hc <;> exact ⟨by decide, by decide⟩
  | ninf =>
    have hd : (pyReprF .ninf).data = ['-', 'i', 'n', 'f'] := by with_unfolding_all rfl
    rw [hd]
    refine ⟨by simp, ?_⟩
    intro c hc
    simp only [List.mem_cons, List.not_mem_nil, or_false] at hc
    rcases hc with hc | hc | hc | hc <;> subst hc <;> exact ⟨by decide, by decide⟩
  | pnan =>
    have hd : (pyReprF .pnan).data = ['n', 'a', 'n'] := by with_unfolding_all rfl
    rw [hd]
    refine ⟨by simp, ?_⟩
    intro c hc
    simp only [List.mem_cons, List.not_mem_nil, or_false] at hc
    rcases hc with hc | hc | hc <;> subst hc <;> exact ⟨by decide, by decide⟩
  | fin q =>
    obtain ⟨K, hK⟩ := h q rfl
    by_cases hq : q < 0
    · have hrepr : pyReprF (.fin q) = "-" ++ decOfNonnegQ (-q) := by
        simp only [pyReprF, if_pos hq]
      obtain ⟨-, -, hchars⟩ := decOfNonnegQ_good (-q) (by linarith) K
        (by rw [Rat.den_neg_eq_den]; exact hK)
      rw [hrepr]
      have hd : (("-" : String) ++ decOfNonnegQ (-q)).data =
          '-' :: (decOfNonnegQ (-q)).data := by
        rw [strData_append]
        have hm : ("-" : String).data = ['-'] := by with_unfolding_all rfl
        rw [hm]
        rfl
      rw [hd]
      refine ⟨by simp, ?_⟩
      intro c hc
      rcases List.mem_cons.mp hc with hm | hm
      · subst hm
        exact ⟨by decide, by decide⟩
      · rcases hchars c hm with hD | hD
        · exact ⟨digit_not_ws c hD, digit_not_hash c hD⟩
        · subst hD
          exact ⟨by decide, by decide⟩
    · have hq' : 0 ≤ q := le_of_not_lt hq
      have hrepr : pyReprF (.fin q) = decOfNonnegQ q := by
        simp only [pyReprF, if_neg hq]
      obtain ⟨⟨c0, t0, hct, -⟩, -, hchars⟩ := decOfNonnegQ_good q hq' K hK
      rw [hrepr]
      refine ⟨by rw [hct]; simp, ?_⟩
      intro c hc
      rcases hchars c hc with hD | hD
      · exact ⟨digit_not_ws c hD, digit_not_hash c hD⟩
      · subst hD
        exact ⟨by decide, by decide⟩

theorem joinWith_sp_cons₂ (x y : String) (t' : List String) :
    (joinWith " " (x :: y :: t')).data = x.data ++ (' ' :: (joinWith " " (y :: t')).data) := by
  show (x ++ " " ++ joinWith " " (y :: t')).data = _
  rw [strData_append, strData_append]
  have hsp : (" " : String).data = [' '] := by with_unfolding_all rfl
  rw [hsp]
  simp

/-- Every character of a space-join is a space or a token character. -/
theorem joinWith_sp_chars (parts : List String) :
    ∀ c ∈ (joinWith " " parts).data, c = ' ' ∨ ∃ p ∈ parts, c ∈ p.data := by
  induction parts with
  | nil =>
    intro c hc
    rw [show (joinWith " " ([] : List String)).data = [] from by with_unfolding_all rfl] at hc
    simp at hc
  | cons x t ih =>
    cases t with
    | nil =>
      intro c hc
      exact Or.inr ⟨x, by simp, hc⟩
    | cons y t' =>
      intro c hc
      rw [joinWith_sp_cons₂] at hc
      rcases List.mem_append.mp hc with hm | hm
      · exact Or.inr ⟨x, by simp, hm⟩
      · rcases List.mem_cons.mp hm with hm | hm
        · exact Or.inl hm
        · rcases ih c hm with hm' | ⟨s, hs, hcs⟩
          · exact Or.inl hm'
          · exact Or.inr ⟨s, by simp [hs], hcs⟩

theorem mapM_intDec_loop (l : List ℤ) :
    ∀ acc : List ℤ, List.mapM.loop pyIntParse (l.map intDec) acc = some (acc.reverse ++ l) := by
  induction l with
  | nil => intro acc; simp [List.mapM.loop]
  | cons z t ih =>
    intro acc
    simp [List.mapM.loop, pyIntParse_intDec z, ih]

theorem mapM_intDec (l : List ℤ) : (l.map intDec).mapM pyIntParse = some l := by
  have h := mapM_intDec_loop l []
  simpa [List.mapM] using h

/-- A serialized vertex line parses back to the vertex. -/
theorem parseLine_vtx (n : ℕ) (v : Vtx) (h0 : 0 ≤ v.1)
    (hx : ∀ q, v.2.1 = .fin q → ∃ K, q.den ∣ 10 ^ K)
    (hz : ∀ q, v.2.2 = .fin q → ∃ K, q.den ∣ 10 ^ K) :
    parseLine n (vtxLine v) = .ok (some (.inl v)) := by
  obtain ⟨hine, hichars⟩ := intDec_good v.1
  obtain ⟨hxne, hxchars⟩ := pyReprF_good v.2.1 hx
  obtain ⟨hzne, hzchars⟩ := pyReprF_good v.2.2 hz
  have hparts : ∀ p ∈ [intDec v.1, pyReprF v.2.1, pyReprF v.2.2],
      p.data ≠ [] ∧ ∀ c ∈ p.data, pyWsChar c = false := by
    intro p hp
    simp only [List.mem_cons, List.not_mem_nil, or_false] at hp
    rcases hp with hp | hp | hp <;> subst hp
    · refine ⟨hine, fun c hc => ?_⟩
      rcases hichars c hc with hD | hD
      · exact digit_not_ws c hD
      · subst hD
        decide
    · exact ⟨hxne, fun c hc => (hxchars c hc).1⟩
    · exact ⟨hzne, fun c hc => (hzchars c hc).1⟩
  have hhash : ∀ c ∈ (vtxLine v).data, c ≠ '#' := by
    intro c hc
    rcases joinWith_sp_chars _ c hc with hc' | ⟨s, hs, hcs⟩
    · subst hc'
      decide
    · simp only [List.mem_cons, List.not_mem_nil, or_false] at hs
      rcases hs with hs | hs | hs <;> subst hs
      · rcases hichars c hcs with hD | hD
        · exact digit_not_hash c hD
        · subst hD
          decide
      · exact (hxchars c hcs).2
      · exact (hzchars c hcs).2
  have hbne : (vtxLine v).data ≠ [] := joinWith_sp_ne_nil _ (by simp) hparts
  have hstrip : pyStrip (stripComment (vtxLine v)) = vtxLine v := by
    rw [stripComment_noop _ hhash]
    obtain ⟨he1, he2⟩ := joinWith_sp_ends _ hparts
    exact pyStrip_eq_self _ he1 he2
  have htoks : pyTokens (vtxLine v) = [intDec v.1, pyReprF v.2.1, pyReprF v.2.2] :=
    pyTokens_join _ hparts
  have hdig : pyIsdigit (intDec v.1) = true := by
    rw [intDec_nonneg v.1 h0]
    exact (natDec_spec v.1.toNat).1
  have hcond : ([intDec v.1, pyReprF v.2.1, pyReprF v.2.2].length = 3 ∧
      pyIsdigit ([intDec v.1, pyReprF v.2.1, pyReprF v.2.2].getD 0 "") = true) :=
    ⟨rfl, hdig⟩
  have hid : ((natOfDigits (intDec v.1).data : ℕ) : ℤ) = v.1 := by
    rw [intDec_nonneg v.1 h0]
    have hnd := (natDec_spec v.1.toNat).2
    rw [hnd]
    omega
  unfold parseLine
  rw [hstrip]
  simp only []
  rw [if_neg hbne, htoks, if_pos hcond]
  simp only [List.getD_cons_zero, List.getD_cons_succ]
  rw [pyFloatParse_pyReprF v.2.1 hx, pyFloatParse_pyReprF v.2.2 hz]
  show Except.ok (some (Sum.inl (((natOfDigits (intDec v.1).data : ℕ) : ℤ), v.2.1, v.2.2))) =
    Except.ok (some (Sum.inl v))
  rw [hid]

/-- A serialized polygon line parses back to the polygon. -/
theorem parseLine_pgn (n : ℕ) (p : Pgn)
    (hname : p.1.data ≠ []) (hnamec : ∀ c ∈ p.1.data, pyWsChar c = false ∧ c ≠ '#')
    (hcaret : p.1.data.count '^' ≤ 1)
    (hids : p.2 ≠ [])
    (hnum : pyIsdigit p.1 = true → p.2.length ≠ 2) :
    parseLine n (pgnLine p) = .ok (some (.inr p)) := by
  have hparts : ∀ s ∈ p.1 :: p.2.map intDec, s.data ≠ [] ∧ ∀ c ∈ s.data, pyWsChar c = false := by
    intro s hs
    rcases List.mem_cons.mp hs with hs | hs
    · subst hs
      exact ⟨hname, fun c hc => (hnamec c hc).1⟩
    · obtain ⟨z, hzm, rfl⟩ := List.mem_map.mp hs
      obtain ⟨hne, hch⟩ := intDec_good z
      refine ⟨hne, fun c hc => ?_⟩
      rcases hch c hc with hD | hD
      · exact digit_not_ws c hD
      · subst hD
        decide
  have hhash : ∀ c ∈ (pgnLine p).data, c ≠ '#' := by
    intro c hc
    rcases joinWith_sp_chars _ c hc with hc' | ⟨s, hs, hcs⟩
    · subst hc'
      decide
    · rcases List.mem_cons.mp hs with hs | hs
      · subst hs
        exact (hnamec c hcs).2
      · obtain ⟨z, hzm, rfl⟩ := List.mem_map.mp hs
        obtain ⟨-, hch⟩ := intDec_good z
        rcases hch c hcs with hD | hD
        · exact digit_not_hash c hD
        · subst hD
          decide
  have hbne : (pgnLine p).data ≠ [] := joinWith_sp_ne_nil _ (by simp) hparts
  have hstrip : pyStrip (stripComment (pgnLine p)) = pgnLine p := by
    rw [stripComment_noop _ hhash]
    obtain ⟨he1, he2⟩ := joinWith_sp_ends _ hparts
    exact pyStrip_eq_self _ he1 he2
  have htoks : pyTokens (pgnLine p) = p.1 :: p.2.map intDec := pyTokens_join _ hparts
  have hvcond : ¬((p.1 :: p.2.map intDec).length = 3 ∧
      pyIsdigit ((p.1 :: p.2.map intDec).getD 0 "") = true) := by
    rintro ⟨h3, hd⟩
    simp only [List.length_cons, List.length_map] at h3
    exact hnum hd (by omega)
  have h2le : 2 ≤ (p.1 :: p.2.map intDec).length := by
    simp only [List.length_cons, List.length_map]
    have hpos := List.length_pos.mpr hids
    omega
  unfold parseLine
  rw [hstrip]
  simp only []
  rw [if_neg hbne, htoks, if_neg hvcond, if_pos h2le]
  show parsePolyLine n (pgnLine p) p.1 (p.2.map intDec) = _
  unfold parsePolyLine
  rw [if_neg (by omega), mapM_intDec]

theorem pyStrip_sublist (s : String) : ∀ c ∈ (pyStrip s).data, c ∈ s.data := by
  intro c hc
  have hc0 : c ∈ ((s.data.dropWhile pyWsChar).reverse.dropWhile pyWsChar).reverse := hc
  rw [List.mem_reverse] at hc0
  have hc1 := (List.dropWhile_sublist _).subset hc0
  rw [List.mem_reverse] at hc1
  exact (List.dropWhile_sublist _).subset hc1

theorem stripComment_hash (s : String) : ∀ c ∈ (stripComment s).data, c ≠ '#' := by
  intro c hc
  have hp := List.mem_takeWhile_imp hc
  simpa using hp

/-- Tokens produced by the tokenizer are nonempty, whitespace-free, and
made of input characters. -/
theorem tokensAux_good : ∀ (cs cur : List Char), (∀ c ∈ cur, pyWsChar c = false) →
    ∀ t ∈ tokensAux cs cur, t ≠ [] ∧ ∀ c ∈ t, pyWsChar c = false ∧ (c ∈ cs ∨ c ∈ cur) := by
  intro cs
  induction cs with
  | nil =>
    intro cur hcur t ht
    simp only [tokensAux] at ht
    by_cases hc : cur = []
    · rw [if_pos hc] at ht
      simp at ht
    · rw [if_neg hc] at ht
      simp only [List.mem_singleton] at ht
      subst ht
      refine ⟨by simpa using hc, fun c hcm => ?_⟩
      rw [List.mem_reverse] at hcm
      exact ⟨hcur c hcm, Or.inr hcm⟩
  | cons a cs ih =>
    intro cur hcur t ht
    simp only [tokensAux] at ht
    by_cases hws : pyWsChar a = true
    · rw [if_pos hws] at ht
      by_cases hc : cur = []
      · rw [if_pos hc] at ht
        obtain ⟨hne, hall⟩ := ih [] (by simp) t ht
        refine ⟨hne, fun c hcm => ⟨(hall c hcm).1, ?_⟩⟩
        rcases (hall c hcm).2 with h | h
        · exact Or.inl (by simp [h])
        · simp at h
      · rw [if_neg hc] at ht
        rcases List.mem_cons.mp ht with ht | ht
        · subst ht
          refine ⟨by simpa using hc, fun c hcm => ?_⟩
          rw [List.mem_reverse] at hcm
          exact ⟨hcur c hcm, Or.inr hcm⟩
        · obtain ⟨hne, hall⟩ := ih [] (by simp) t ht
          refine ⟨hne, fun c hcm => ⟨(hall c hcm).1, ?_⟩⟩
          rcases (hall c hcm).2 with h | h
          · exact Or.inl (by simp [h])
          · simp at h
    · rw [if_neg hws] at ht
      obtain ⟨hne, hall⟩ := ih (a :: cur)
        (by
          intro c hcm
          rcases List.mem_cons.mp hcm with h | h
          · subst h
            simpa using hws
          · exact hcur c h) t ht
      refine ⟨hne, fun c hcm => ⟨(hall c hcm).1, ?_⟩⟩
      rcases (hall c hcm).2 with h | h
      · exact Or.inl (by simp [h])
      · rcases List.mem_cons.mp h with h' | h'
        · exact Or.inl (by simp [h'])
        · exact Or.inr h'

theorem pyTokens_good (s : String) :
    ∀ t ∈ pyTokens s, t.data ≠ [] ∧ ∀ c ∈ t.data, pyWsChar c = false ∧ c ∈ s.data := by
  intro t ht
  unfold pyTokens at ht
  obtain ⟨l, hl, rfl⟩ := List.mem_map.mp ht
  obtain ⟨hne, hall⟩ := tokensAux_good s.data [] (by simp) l hl
  refine ⟨hne, fun c hc => ?_⟩
  have hc' : c ∈ l := hc
  obtain ⟨h1, h2⟩ := hall c hc'
  rcases h2 with h | h
  · exact ⟨h1, h⟩
  · simp at h

theorem mapM_loop_length {α β : Type} (f : α → Option β) :
    ∀ (l : List α) (acc res : List β), List.mapM.loop f l acc = some res →
      res.length = acc.length + l.length := by
  intro l
  induction l with
  | nil =>
    intro acc res h
    simp [List.mapM.loop] at h
    rw [← h]
    simp
  | cons a l ih =>
    intro acc res h
    simp only [List.mapM.loop] at h
    cases hfa : f a with
    | none =>
      rw [hfa] at h
      exact absurd h (by simp)
    | some b =>
      rw [hfa] at h
      have h' : List.mapM.loop f l (b :: acc) = some res := h
      have hlen := ih (b :: acc) res h'
      simp only [List.length_cons] at hlen ⊢
      omega

theorem mapM_length {α β : Type} (f : α → Option β) (l : List α) (res : List β)
    (h : l.mapM f = some res) : res.length = l.length := by
  have h' : List.mapM.loop f l [] = some res := h
  have hlen := mapM_loop_length f l [] res h'
  simpa using hlen

theorem getD_zero_mem {α : Type} (l : List α) (d : α) (h : l ≠ []) : l.getD 0 d ∈ l := by
  cases l with
  | nil => exact absurd rfl h
  | cons a t => simp

theorem goodP_intro (name : String) (ids : List ℤ)
    (h1 : name.data ≠ []) (h2 : ∀ c ∈ name.data, pyWsChar c = false ∧ c ≠ '#')
    (h3 : name.data.count '^' ≤ 1) (h4 : ids ≠ [])
    (h5 : pyIsdigit name = true → ids.length ≠ 2) : goodP (name, ids) :=
  ⟨h1, h2, h3, h4, h5⟩

/-- Every vertex or polygon returned by a successful `parseLine` satisfies
its invariant. -/
theorem parseLine_inv (n : ℕ) (l : String) (r : Option (Vtx ⊕ Pgn))
    (h : parseLine n l = .ok r) :
    (∀ v, r = some (.inl v) → goodV v) ∧ (∀ p, r = some (.inr p) → goodP p) := by
  unfold parseLine at h
  simp only [] at h
  set body := pyStrip (stripComment l) with hbody
  by_cases hb : body.data = []
  · rw [if_pos hb] at h
    have hr := Except.ok.inj h
    subst hr
    constructor <;> intro _ hx <;> exact Option.noConfusion hx
  · rw [if_neg hb] at h
    set parts := pyTokens body with hparts
    by_cases hv : parts.length = 3 ∧ pyIsdigit (parts.getD 0 "") = true
    · rw [if_pos hv] at h
      cases hf1 : pyFloatParse (parts.getD 1 "") with
      | none =>
        rw [hf1] at h
        exact absurd h (by simp)
      | some xv =>
        rw [hf1] at h
        cases hf2 : pyFloatParse (parts.getD 2 "") with
        | none =>
          rw [hf2] at h
          exact absurd h (by simp)
        | some zv =>
          rw [hf2] at h
          have hr := Except.ok.inj h
          subst hr
          constructor
          · intro v hvv
            have hv' := Sum.inl.inj (Option.some.inj hvv)
            subst hv'
            refine ⟨Int.natCast_nonneg _, ?_, ?_⟩
            · intro q hq
              exact pyFloatParse_den _ _ hf1 q hq
            · intro q hq
              exact pyFloatParse_den _ _ hf2 q hq
          · intro p hp
            exact Sum.noConfusion (Option.some.inj hp)
    · rw [if_neg hv] at h
      by_cases h2 : 2 ≤ parts.length
      · rw [if_pos h2] at h
        unfold parsePolyLine at h
        by_cases hcar : (parts.getD 0 "").data.count '^' > 1
        · rw [if_pos hcar] at h
          exact absurd h (by simp)
        · rw [if_neg hcar] at h
          cases hmapm : (parts.drop 1).mapM pyIntParse with
          | none =>
            rw [hmapm] at h
            exact absurd h (by simp)
          | some ids =>
            rw [hmapm] at h
            have hr := Except.ok.inj h
            subst hr
            constructor
            · intro v hvv
              exact Sum.noConfusion (Option.some.inj hvv)
            · intro p hp
              have hp' := Sum.inr.inj (Option.some.inj hp)
              subst hp'
              have hpne : parts ≠ [] := by
                intro h0
                rw [h0] at h2
                simp at h2
              have hnm : parts.getD 0 "" ∈ parts := getD_zero_mem parts "" hpne
              rw [hparts] at hnm
              obtain ⟨hnne, hnall⟩ := pyTokens_good body (parts.getD 0 "") hnm
              have hlen := mapM_length pyIntParse (parts.drop 1) ids hmapm
              rw [List.length_drop] at hlen
              apply goodP_intro
              · exact hnne
              · intro c hc
                obtain ⟨hw, hmem⟩ := hnall c hc
                refine ⟨hw, ?_⟩
                rw [hbody] at hmem
                exact stripComment_hash l c (pyStrip_sublist (stripComment l) c hmem)
              · omega
              · intro h0
                rw [h0] at hlen
                simp at hlen
                omega
              · intro hd
                have h3 : parts.length ≠ 3 := fun hc => hv ⟨hc, hd⟩
                omega
      · rw [if_neg h2] at h
        exact absurd h (by simp)

/-- Every vertex and polygon of a successful `parseLines` run satisfies
its invariant. -/
theorem parseLines_inv : ∀ (ls : List String) (n : ℕ) (V : List Vtx) (P : List Pgn),
    parseLines n ls = .ok (V, P) → (∀ v ∈ V, goodV v) ∧ (∀ p ∈ P, goodP p) := by
  intro ls
  induction ls with
  | nil =>
    intro n V P h
    simp only [parseLines] at h
    have h' := Except.ok.inj h
    obtain ⟨h1, h2⟩ := Prod.mk.injEq .. |>.mp h'
    subst h1
    subst h2
    exact ⟨by simp, by simp⟩
  | cons l ls ih =>
    intro n V P h
    simp only [parseLines] at h
    cases hpl : parseLine n l with
    | error e =>
      rw [hpl] at h
      exact absurd h (by simp)
    | ok r =>
      rw [hpl] at h
      cases hpls : parseLines (n + 1) ls with
      | error e =>
        rw [hpls] at h
        exact absurd h (by simp)
      | ok vp =>
        rw [hpls] at h
        obtain ⟨vs, ps⟩ := vp
        obtain ⟨hgv, hgp⟩ := ih (n + 1) vs ps hpls
        obtain ⟨hrv, hrp⟩ := parseLine_inv n l r hpl
        have h' := Except.ok.inj h
        cases r with
        | none =>
          obtain ⟨h1, h2⟩ := Prod.mk.injEq .. |>.mp h'
          subst h1
          subst h2
          exact ⟨hgv, hgp⟩
        | some s =>
          cases s with
          | inl v =>
            obtain ⟨h1, h2⟩ := Prod.mk.injEq .. |>.mp h'
            subst h1
            subst h2
            refine ⟨?_, hgp⟩
            intro w hw
            rcases List.mem_cons.mp hw with hw | hw
            · subst hw
              exact hrv w rfl
            · exact hgv w hw
          | inr p =>
            obtain ⟨h1, h2⟩ := Prod.mk.injEq .. |>.mp h'
            subst h1
            subst h2
            refine ⟨hgv, ?_⟩
            intro q hq
            rcases List.mem_cons.mp hq with hq | hq
            · subst hq
              exact hrp q rfl
            · exact hgp q hq

/-- The serialized polygon block parses back to the polygon list. -/
theorem parseLines_pgns (ps : List Pgn) : (∀ p ∈ ps, goodP p) →
    ∀ n, parseLines n (ps.map pgnLine) = .ok ([], ps) := by
  induction ps with
  | nil => intro _ n; rfl
  | cons p ps ih =>
    intro hp n
    obtain ⟨h1, h2, h3, h4, h5⟩ := hp p (by simp)
    show parseLines n (pgnLine p :: ps.map pgnLine) = _
    simp only [parseLines]
    rw [parseLine_pgn n p h1 h2 h3 h4 h5, ih (fun q hq => hp q (by simp [hq])) (n + 1)]

/-- The serialized document parses back to the vertex and polygon lists. -/
theorem parseLines_serial (vs : List Vtx) (ps : List Pgn) :
    (∀ v ∈ vs, goodV v) → (∀ p ∈ ps, goodP p) →
    ∀ n, parseLines n (vs.map vtxLine ++ ps.map pgnLine) = .ok (vs, ps) := by
  induction vs with
  | nil =>
    intro _ hp n
    simp only [List.map_nil, List.nil_append]
    exact parseLines_pgns ps hp n
  | cons v vs ih =>
    intro hv hp n
    obtain ⟨h0, hx, hz⟩ := hv v (by simp)
    show parseLines n (vtxLine v :: (vs.map vtxLine ++ ps.map pgnLine)) = _
    simp only [parseLines]
    rw [parseLine_vtx n v h0 hx hz, ih (fun w hw => hv w (by simp [hw])) hp (n + 1)]

/-- Serialized vertex lines are nonempty and break-free. -/
theorem vtxLine_good (v : Vtx) (h : goodV v) :
    (vtxLine v).data ≠ [] ∧ ∀ c ∈ (vtxLine v).data, pyLineBr c = false := by
  obtain ⟨h0, hx, hz⟩ := h
  obtain ⟨hine, hichars⟩ := intDec_good v.1
  obtain ⟨hxne, hxchars⟩ := pyReprF_good v.2.1 hx
  obtain ⟨hzne, hzchars⟩ := pyReprF_good v.2.2 hz
  have hparts : ∀ p ∈ [intDec v.1, pyReprF v.2.1, pyReprF v.2.2],
      p.data ≠ [] ∧ ∀ c ∈ p.data, pyWsChar c = false := by
    intro p hp
    simp only [List.mem_cons, List.not_mem_nil, or_false] at hp
    rcases hp with hp | hp | hp <;> subst hp
    · refine ⟨hine, fun c hc => ?_⟩
      rcases hichars c hc with hD | hD
      · exact digit_not_ws c hD
      · subst hD
        decide
    · exact ⟨hxne, fun c hc => (hxchars c hc).1⟩
    · exact ⟨hzne, fun c hc => (hzchars c hc).1⟩
  refine ⟨joinWith_sp_ne_nil _ (by simp) hparts, ?_⟩
  intro c hc
  rcases joinWith_sp_chars _ c hc with hc' | ⟨s, hs, hcs⟩
  · subst hc'
    decide
  · exact not_break_of_not_ws c ((hparts s hs).2 c hcs)

/-- Serialized polygon lines are nonempty and break-free. -/
theorem pgnLine_good (p : Pgn) (h : goodP p) :
    (pgnLine p).data ≠ [] ∧ ∀ c ∈ (pgnLine p).data, pyLineBr c = false := by
  obtain ⟨h1, h2, h3, h4, h5⟩ := h
  have hparts : ∀ s ∈ p.1 :: p.2.map intDec,
      s.data ≠ [] ∧ ∀ c ∈ s.data, pyWsChar c = false := by
    intro s hs
    rcases List.mem_cons.mp hs with hs | hs
    · subst hs
      exact ⟨h1, fun c hc => (h2 c hc).1⟩
    · obtain ⟨z, hzm, rfl⟩ := List.mem_map.mp hs
      obtain ⟨hne, hch⟩ := intDec_good z
      refine ⟨hne, fun c hc => ?_⟩
      rcases hch c hc with hD | hD
      · exact digit_not_ws c hD
      · subst hD
        decide
  refine ⟨joinWith_sp_ne_nil _ (by simp) hparts, ?_⟩
  intro c hc
  rcases joinWith_sp_chars _ c hc with hc' | ⟨s, hs, hcs⟩
  · subst hc'
    decide
  · exact not_break_of_not_ws c ((hparts s hs).2 c hcs)

/-- C7: round-trip — for every text accepted by `parse_text` with result
`(V, P)`, serializing `V` and `P` back into the line grammar (one
`id x z` line per vertex in order, then one `name id1 ... idN` line per
polygon in order, `serializeDoc`) and parsing the result yields exactly
the same vertex and polygon lists, with IDs, coordinates, names, and
vertex-membership order preserved. -/
theorem C7_round_trip (text : String) (V : List Vtx) (P : List Pgn)
    (h : parse_text text = .ok (V, P)) :
    parse_text (serializeDoc V P) = .ok (V, P) := by
  have h' : parseLines 1 (pySplitlines text) = .ok (V, P) := h
  obtain ⟨hgv, hgp⟩ := parseLines_inv (pySplitlines text) 1 V P h'
  unfold parse_text serializeDoc
  rw [pySplitlines_join]
  · exact parseLines_serial V P hgv hgp 1
  · intro l hl
    rcases List.mem_append.mp hl with hm | hm
    · obtain ⟨v, hvm, rfl⟩ := List.mem_map.mp hm
      exact vtxLine_good v (hgv v hvm)
    · obtain ⟨p, hpm, rfl⟩ := List.mem_map.mp hm
      exact pgnLine_good p (hgp p hpm)

/-- C7 (witness): the two-line document `1 0.5 2` / `A 1 2` parses, and
parsing its serialization returns the same vertex and polygon lists. -/
theorem C7_witness :
    parse_text "1 0.5 2\nA 1 2" = .ok ([(1, .fin (1/2), .fin 2)], [("A", [1, 2])]) ∧
    parse_text (serializeDoc [(1, .fin (1/2), .fin 2)] [("A", [1, 2])]) =
      .ok ([(1, .fin (1/2), .fin 2)], [("A", [1, 2])]) :=
  ⟨by with_unfolding_all rfl,
   C7_round_trip "1 0.5 2\nA 1 2" _ _ (by with_unfolding_all rfl)⟩

/-- C10 (witness): after the single polygon line `A 1 2`, the vertex line
`1 0 0` fires the diagnostic listing `A`. -/
theorem C10_witness :
    (fmtFold 1 fmtInit ["A 1 2"]).pnames = polyNamesOf ["A 1 2"] ∧
    fmtLineErrs (fmtFold 1 fmtInit ["A 1 2"]) 2 "1 0 0" =
      vertexLineBaseErrs (fmtFold 1 fmtInit ["A 1 2"]).vids 2 "1 0 0" ++
        (if lastKindFrom false ["A 1 2"] = true then [beforeMsg (polyNamesOf ["A 1 2"])]
         else []) := by
  exact C10_before_diagnostic ["A 1 2"] "1 0 0" 2
    ⟨by with_unfolding_all rfl, by with_unfolding_all rfl⟩

end GeoSIRR
